import Mathlib

/-!
Verification of the Construct orchestration engine.

This development gives a shallow embedding of the core of the repository:
the run state and its helpers (src/agent/state.py), the supervisor and
worker nodes, the free-text action parser and the tool gateway
(src/agent/nodes.py), the circuit breaker (src/services/circuit_breaker.py),
and the token-bucket rate limiter (src/middleware/rate_limiter.py).

Modelling conventions:
- Python text is modelled as `List Char`; the Python string operations used
  by the code (strip, lower, split, find, rfind, slicing, substring tests)
  are given explicit executable models below.
- Wall-clock time and float durations are modelled as rationals.
- Calls to external collaborators (the language model, the file tools) are
  modelled as oracle arguments of type `Except Str Str`: `ok` carries the
  returned text, `error` carries the message of a raised exception.
- The Python `json` module is modelled by an executable JSON value type, a
  serializer mirroring `json.dumps` defaults, and a fueled
  recursive-descent reader mirroring `json.loads` (numbers restricted to
  integers; floats are outside the embedding).
-/

/-- Python text, modelled as a list of characters. -/
abbrev Str := List Char

/-- Character list of a Lean string literal. -/
def chars (s : String) : Str := s.data

/-- The ASCII whitespace characters stripped by Python `str.strip()`. -/
def isPyWs (c : Char) : Bool :=
  c = ' ' || c = '\t' || c = '\n' || c = '\x0d' || c = '\x0b' || c = '\x0c'

/-- Model of Python `str.strip()`: drop whitespace from both ends. -/
def pyStrip (s : Str) : Str :=
  ((s.dropWhile isPyWs).reverse.dropWhile isPyWs).reverse

/-- Model of Python `str.lower()` (ASCII letters). -/
def pyLower (s : Str) : Str := s.map Char.toLower

/-- Model of the Python substring test `needle in hay`. -/
def containsSub (hay needle : Str) : Bool := decide (needle <:+: hay)

/-- Opening brace character. -/
def lbrace : Char := Char.ofNat 123

/-- Closing brace character. -/
def rbrace : Char := Char.ofNat 125

/-- JSON values, as produced by the model of `json.loads`. Numbers are
restricted to integers; floating point values are outside the embedding. -/
inductive Json where
  | null : Json
  | bool (b : Bool) : Json
  | num (n : Int) : Json
  | str (s : Str) : Json
  | arr (elems : List Json) : Json
  | obj (members : List (Str × Json)) : Json

/-- A message in the conversation, tagged by role
(SystemMessage, HumanMessage, AIMessage of langchain). -/
inductive Msg where
  | system (content : Str)
  | human (content : Str)
  | ai (content : Str)

/-- The error_context mapping stored by the nodes:
agent name, error text and fatal flag. -/
structure ErrCtx where
  agent : Str
  error : Str
  fatal : Bool

/-- One entry of the tool execution log (ToolResult of src/agent/state.py). -/
structure ToolResult where
  tool_name : Str
  input : List (Str × Json)
  output : Str
  success : Bool
  execution_time_ms : ℚ
  timestamp : Str

/-- One entry of the memory log (MemoryItem of src/agent/state.py). -/
structure MemoryItem where
  role : Str
  content : Str
  timestamp : Str
  agent : Option Str

/-- The run state (AgentState of src/agent/state.py). The fields
file_context and metadata are never read or written by the embedded
operations and are omitted. The Python error_context is an optional dict;
it is modelled as an optional record with all three keys present. -/
structure AgentState where
  messages : List Msg
  next_step : Str
  task : Str
  repo_map : Str
  current_agent : Str
  iteration_count : Nat
  max_iterations : Nat
  tool_results : List ToolResult
  memory : List MemoryItem
  reflection : Str
  plan : Option Str
  error_context : Option ErrCtx

/-- The partial state update returned by a node: a dict holding only the
keys the node chooses to set. `messages` is the list of messages appended
by the add_messages reducer; every other field overwrites when present. -/
structure Update where
  messages : List Msg := []
  next_step : Option Str := none
  current_agent : Option Str := none
  iteration_count : Option Nat := none
  plan : Option Str := none
  memory : Option (List MemoryItem) := none
  tool_results : Option (List ToolResult) := none
  reflection : Option Str := none
  error_context : Option ErrCtx := none

/-- add_tool_result of src/agent/state.py: build the entry and return the
prior list with it appended. The timestamp is the sampled clock value. -/
def add_tool_result (state : AgentState) (tool_name : Str)
    (tool_input : List (Str × Json)) (output : Str) (success : Bool)
    (execution_time_ms : ℚ) (timestamp : Str) : List ToolResult :=
  state.tool_results ++
    [{ tool_name := tool_name, input := tool_input, output := output,
       success := success, execution_time_ms := execution_time_ms,
       timestamp := timestamp }]

/-- add_memory of src/agent/state.py: build the item and return the prior
list with it appended. -/
def add_memory (state : AgentState) (role : Str) (content : Str)
    (agent : Option Str) (timestamp : Str) : List MemoryItem :=
  state.memory ++
    [{ role := role, content := content, timestamp := timestamp,
       agent := agent }]

/-- should_continue of src/agent/state.py, with the three checks in source
order: iteration limit, FINISH, fatal error context. -/
def should_continue (state : AgentState) : Bool :=
  if state.iteration_count ≥ state.max_iterations then false
  else if state.next_step = chars "FINISH" then false
  else
    match state.error_context with
    | some c => if c.fatal then false else true
    | none => true

/-- The fixed scan order of role names in supervisor_node. -/
def roleNames : List Str :=
  [chars "planner", chars "researcher", chars "coder", chars "reviewer"]

/-- The routing loop of supervisor_node: next_step starts as coder and the
first role name occurring as a substring of the decision text wins. -/
def firstRoleMatch : List Str → Str → Str
  | [], _ => chars "coder"
  | a :: rest, d => if containsSub d a then a else firstRoleMatch rest d

/-- The routing decision of supervisor_node (src/agent/nodes.py lines
311-324): lower-case the stripped response, scan the four role names in
order with default coder, then let a finish substring override. -/
def routeDecision (content : Str) : Str :=
  let decision := pyLower (pyStrip content)
  let nextStep := firstRoleMatch roleNames decision
  if containsSub decision (chars "finish") then chars "FINISH" else nextStep

/-- The routing decision as worded by the spec: over the lower-cased
response, a finish substring anywhere gives FINISH; otherwise the first of
the four role names occurring as a substring wins, defaulting to coder. -/
def routeDecisionSpec (content : Str) : Str :=
  let low := pyLower content
  if containsSub low (chars "finish") then chars "FINISH"
  else firstRoleMatch roleNames low

/-- supervisor_node of src/agent/nodes.py. The model call is the oracle
argument `mres`; the update built from a response content is independent of
the context assembled for the prompt, so that assembly is absorbed into the
oracle. The iteration guard returns before the model is consulted. -/
def supervisor_node (state : AgentState) (mres : Except Str Str) : Update :=
  let iteration := state.iteration_count
  if iteration ≥ state.max_iterations then
    { next_step := some (chars "FINISH"),
      iteration_count := some (iteration + 1) }
  else
    match mres with
    | .ok content =>
        { next_step := some (routeDecision content),
          current_agent := some (chars "supervisor"),
          iteration_count := some (iteration + 1) }
    | .error e =>
        { next_step := some (chars "FINISH"),
          iteration_count := some (iteration + 1),
          error_context := some ⟨chars "supervisor", e, false⟩ }

/-! ### Helper lemmas about strip, lower and substring scanning -/

/-- Lower-casing fixes whitespace characters. -/
theorem toLower_of_ws {c : Char} (h : isPyWs c = true) : c.toLower = c := by
  simp only [isPyWs, Bool.or_eq_true, decide_eq_true_eq] at h
  rcases h with ((((rfl | rfl) | rfl) | rfl) | rfl) | rfl <;> decide

/-- Every string splits as whitespace, its strip, whitespace. -/
theorem strip_decomp (s : Str) :
    ∃ p q, s = p ++ pyStrip s ++ q ∧ (∀ c ∈ p, isPyWs c = true) ∧
      (∀ c ∈ q, isPyWs c = true) := by
  refine ⟨s.takeWhile isPyWs,
    ((s.dropWhile isPyWs).reverse.takeWhile isPyWs).reverse, ?_, ?_, ?_⟩
  · unfold pyStrip
    conv_lhs => rw [← List.takeWhile_append_dropWhile isPyWs s]
    rw [List.append_assoc]
    congr 1
    conv_lhs => rw [← List.reverse_reverse (s.dropWhile isPyWs),
      ← List.takeWhile_append_dropWhile isPyWs (s.dropWhile isPyWs).reverse]
    rw [List.reverse_append]
  · exact fun c hc => List.mem_takeWhile_imp hc
  · exact fun c hc => List.mem_takeWhile_imp (List.mem_reverse.mp hc)

/-- A nonempty pattern of non-whitespace characters occurring in a string
with a leading whitespace character also occurs past that character. -/
theorem infix_drop_ws_head {pat : Str} {a : Char} {X : Str}
    (ha : isPyWs a = true) (hne : pat ≠ [])
    (hpat : ∀ c ∈ pat, isPyWs c = false) (h : pat <:+: a :: X) :
    pat <:+: X := by
  obtain ⟨s, t, hst⟩ := h
  cases s with
  | nil =>
    cases pat with
    | nil => exact absurd rfl hne
    | cons p ps =>
      simp only [List.nil_append, List.cons_append, List.cons.injEq] at hst
      have := hpat p (List.mem_cons_self p ps)
      rw [hst.1, ha] at this
      exact absurd this (by simp)
  | cons b s' =>
    simp only [List.cons_append, List.cons.injEq] at hst
    exact ⟨s', t, hst.2⟩

/-- A nonempty pattern of non-whitespace characters occurring in a string
with an all-whitespace front occurs past that front. -/
theorem infix_drop_ws_left {pat : Str} (hne : pat ≠ [])
    (hpat : ∀ c ∈ pat, isPyWs c = false) :
    ∀ {A X : Str}, (∀ c ∈ A, isPyWs c = true) → pat <:+: A ++ X →
      pat <:+: X := by
  intro A
  induction A with
  | nil => intro X _ h; simpa using h
  | cons a A ih =>
    intro X hA h
    have h1 : pat <:+: A ++ X :=
      infix_drop_ws_head (hA a (List.mem_cons_self a A)) hne hpat
        (by simpa using h)
    exact ih (fun c hc => hA c (List.mem_cons_of_mem a hc)) h1

/-- A nonempty pattern of non-whitespace characters occurring in a string
flanked by whitespace occurs in the middle block. -/
theorem infix_middle {pat A B C : Str} (hne : pat ≠ [])
    (hpat : ∀ c ∈ pat, isPyWs c = false)
    (hA : ∀ c ∈ A, isPyWs c = true) (hC : ∀ c ∈ C, isPyWs c = true)
    (h : pat <:+: A ++ B ++ C) : pat <:+: B := by
  have h1 : pat <:+: B ++ C := by
    refine infix_drop_ws_left hne hpat hA ?_
    simpa [List.append_assoc] using h
  have h2 : pat.reverse <:+: C.reverse ++ B.reverse := by
    rw [← List.reverse_append]
    exact List.reverse_infix.mpr h1
  have h3 : pat.reverse <:+: B.reverse := by
    refine infix_drop_ws_left ?_ ?_ ?_ h2
    · simpa using hne
    · intro c hc; exact hpat c (List.mem_reverse.mp hc)
    · intro c hc; exact hC c (List.mem_reverse.mp hc)
  exact List.reverse_infix.mp h3

/-- Scanning for a nonempty non-whitespace pattern is unaffected by the
strip performed before lower-casing. -/
theorem containsSub_strip_lower (s pat : Str) (hne : pat ≠ [])
    (hpat : ∀ c ∈ pat, isPyWs c = false) :
    containsSub (pyLower (pyStrip s)) pat = containsSub (pyLower s) pat := by
  unfold containsSub
  refine decide_eq_decide.mpr ?_
  constructor
  · intro h
    obtain ⟨p, q, hdec, _, _⟩ := strip_decomp s
    refine h.trans ?_
    conv_rhs => rw [hdec]
    unfold pyLower
    rw [List.map_append, List.map_append]
    exact ⟨(p.map Char.toLower), (q.map Char.toLower), rfl⟩
  · intro h
    obtain ⟨p, q, hdec, hp, hq⟩ := strip_decomp s
    rw [hdec] at h
    unfold pyLower at h ⊢
    rw [List.map_append, List.map_append] at h
    refine infix_middle hne hpat ?_ ?_ h
    · intro c hc
      obtain ⟨d, hd, rfl⟩ := List.mem_map.mp hc
      rw [toLower_of_ws (hp d hd)]; exact hp d hd
    · intro c hc
      obtain ⟨d, hd, rfl⟩ := List.mem_map.mp hc
      rw [toLower_of_ws (hq d hd)]; exact hq d hd

/-! ### Claims C1 and C2 -/

/-- C1: should_continue is true exactly when the iteration count is below
the cap, next_step is not FINISH, and error_context is absent or non-fatal;
and once the iteration count reaches the cap, supervisor_node returns
next_step FINISH with the count incremented, for every model oracle (so
without consulting the model). -/
theorem claim_C1 (s : AgentState) :
    (should_continue s = true ↔
      (s.iteration_count < s.max_iterations ∧ s.next_step ≠ chars "FINISH" ∧
        (s.error_context = none ∨
          ∃ c, s.error_context = some c ∧ c.fatal = false))) ∧
    (∀ mres, s.max_iterations ≤ s.iteration_count →
      supervisor_node s mres =
        { next_step := some (chars "FINISH"),
          iteration_count := some (s.iteration_count + 1) }) := by
  refine ⟨?_, ?_⟩
  · rcases hec : s.error_context with _ | c
    · simp only [should_continue, hec]
      constructor
      · intro h
        split_ifs at h with h1 h2
        exact ⟨by omega, h2, Or.inl trivial⟩
      · rintro ⟨hlt, hne, -⟩
        rw [if_neg (by omega), if_neg hne]
    · simp only [should_continue, hec]
      constructor
      · intro h
        split_ifs at h with h1 h2 h3
        exact ⟨by omega, h2, Or.inr ⟨c, rfl, by simpa using h3⟩⟩
      · rintro ⟨hlt, hne, hf⟩
        rw [if_neg (by omega), if_neg hne]
        rcases hf with hnone | ⟨c', hsome, hf⟩
        · exact absurd hnone (by simp)
        · injection hsome with hcc
          rw [hcc, hf]
          simp
  · intro mres h
    unfold supervisor_node
    rw [if_pos h]

/-- Concrete run state past its iteration cap, used by the C1 witness. -/
def stateOverCap : AgentState :=
  { messages := [], next_step := chars "supervisor", task := [],
    repo_map := [], current_agent := [], iteration_count := 30,
    max_iterations := 25, tool_results := [], memory := [], reflection := [],
    plan := none, error_context := none }

/-- Witness for C1 at a state past its cap: the supervisor forces FINISH. -/
theorem claim_C1_witness :
    supervisor_node stateOverCap (Except.ok (chars "planner")) =
      { next_step := some (chars "FINISH"), iteration_count := some 31 } :=
  (claim_C1 stateOverCap).2 (Except.ok (chars "planner")) (by decide)

/-- C2: the supervisor routing decision matches the spec description:
over the lower-cased response, a finish substring anywhere forces FINISH;
otherwise the first of planner, researcher, coder, reviewer occurring as a
substring wins, defaulting to coder when none occurs. -/
theorem claim_C2 (content : Str) :
    routeDecision content = routeDecisionSpec content := by
  have hfin := containsSub_strip_lower content (chars "finish")
    (by decide) (by decide)
  have hpl := containsSub_strip_lower content (chars "planner")
    (by decide) (by decide)
  have hre := containsSub_strip_lower content (chars "researcher")
    (by decide) (by decide)
  have hco := containsSub_strip_lower content (chars "coder")
    (by decide) (by decide)
  have hrv := containsSub_strip_lower content (chars "reviewer")
    (by decide) (by decide)
  unfold routeDecision routeDecisionSpec
  simp only [roleNames, firstRoleMatch, hfin, hpl, hre, hco, hrv]

/-! ### Reliability wrapper: retry_with_backoff (src/agent/nodes.py) -/

/-- Observable trace of one retry_with_backoff run: the value handed to the
caller (ok) or re-raised (error), the number of attempts performed, and the
successive backoff delays slept between attempts. -/
structure RetryTrace where
  result : Except Str Str
  attempts : Nat
  delays : List ℚ

/-- The retry loop of retry_with_backoff, with `attempt` the 0-based index
of the current attempt and `remaining` the attempts left. On the last
allowed attempt a failure is re-raised with no further delay. -/
def retryAux (outcomes : Nat → Except Str Str) (base_delay max_delay : ℚ) :
    Nat → Nat → RetryTrace
  | _, 0 => { result := Except.error [], attempts := 0, delays := [] }
  | attempt, n + 1 =>
      match outcomes attempt with
      | Except.ok v => { result := Except.ok v, attempts := 1, delays := [] }
      | Except.error e =>
          if n = 0 then { result := Except.error e, attempts := 1, delays := [] }
          else
            let delay := min (base_delay * 2 ^ attempt) max_delay
            let t := retryAux outcomes base_delay max_delay (attempt + 1) n
            { result := t.result, attempts := t.attempts + 1,
              delays := delay :: t.delays }

/-- retry_with_backoff of src/agent/nodes.py. The successive outcomes of
the wrapped call form the oracle `outcomes`. With zero allowed attempts the
Python code falls through its loop and re-raises None, a TypeError; that
unreachable branch is modelled by an empty error after zero attempts. The
defaults are max_retries 3, base_delay 1.0, max_delay 30.0. -/
def retry_with_backoff (outcomes : Nat → Except Str Str)
    (max_retries : Nat := 3) (base_delay : ℚ := 1) (max_delay : ℚ := 30) :
    RetryTrace :=
  retryAux outcomes base_delay max_delay 0 max_retries

/-! ### Circuit breaker (src/services/circuit_breaker.py) -/

/-- CircuitState of src/services/circuit_breaker.py. -/
inductive CircuitState where
  | closed
  | opened
  | halfOpen
deriving DecidableEq, Repr

/-- CircuitBreakerConfig with its source defaults. -/
structure CircuitBreakerConfig where
  failure_threshold : Int := 5
  success_threshold : Int := 2
  timeout_seconds : ℚ := 30
  call_timeout : ℚ := 10

/-- CircuitBreakerState: the mutable record of one breaker. -/
structure CircuitBreakerState where
  state : CircuitState := CircuitState.closed
  failure_count : Int := 0
  success_count : Int := 0
  last_failure_time : ℚ := 0
  last_state_change : ℚ

/-- The state of a freshly constructed breaker; last_state_change samples
the clock at construction. -/
def initialBreakerState (now : ℚ) : CircuitBreakerState :=
  { last_state_change := now }

/-- CircuitBreaker._check_state_transition: an OPEN breaker whose timeout
has elapsed since the last failure moves to HALF_OPEN with success_count
reset. -/
def check_state_transition (cfg : CircuitBreakerConfig)
    (s : CircuitBreakerState) (now : ℚ) : CircuitBreakerState :=
  if s.state = CircuitState.opened ∧
      now - s.last_failure_time ≥ cfg.timeout_seconds then
    { s with state := CircuitState.halfOpen,
             success_count := 0,
             last_state_change := now }
  else s

/-- CircuitBreaker._record_success. -/
def record_success (cfg : CircuitBreakerConfig) (s : CircuitBreakerState)
    (now : ℚ) : CircuitBreakerState :=
  if s.state = CircuitState.halfOpen then
    let sc := s.success_count + 1
    if sc ≥ cfg.success_threshold then
      { s with state := CircuitState.closed,
               success_count := sc,
               failure_count := 0,
               last_state_change := now }
    else { s with success_count := sc }
  else if s.state = CircuitState.closed then
    { s with failure_count := max 0 (s.failure_count - 1) }
  else s

/-- CircuitBreaker._record_failure. -/
def record_failure (cfg : CircuitBreakerConfig) (s : CircuitBreakerState)
    (now : ℚ) : CircuitBreakerState :=
  let s1 := { s with failure_count := s.failure_count + 1,
                     last_failure_time := now }
  if s1.state = CircuitState.halfOpen then
    { s1 with state := CircuitState.opened, last_state_change := now }
  else if s1.state = CircuitState.closed ∧
      s1.failure_count ≥ cfg.failure_threshold then
    { s1 with state := CircuitState.opened, last_state_change := now }
  else s1

/-- The observable outcome of CircuitBreaker.call: either rejected with
CircuitOpenError before invoking the wrapped function, or completed with
the given success flag (false covers exceptions and call timeouts, both of
which record a failure). -/
inductive CallOutcome where
  | rejected
  | completed (success : Bool)
deriving DecidableEq, Repr

/-- CircuitBreaker.call: check the timeout transition, reject while OPEN,
otherwise run the wrapped function (its success is the oracle `outcome`)
and record the result. The check samples the clock at `now`; the record
samples it again at `nowRec` after the wrapped call returns. -/
def breakerCall (cfg : CircuitBreakerConfig) (s : CircuitBreakerState)
    (now nowRec : ℚ) (outcome : Bool) : CallOutcome × CircuitBreakerState :=
  let s1 := check_state_transition cfg s now
  if s1.state = CircuitState.opened then (CallOutcome.rejected, s1)
  else if outcome then
    (CallOutcome.completed true, record_success cfg s1 nowRec)
  else
    (CallOutcome.completed false, record_failure cfg s1 nowRec)

/-- A sequence of recorded failures at the given times. -/
def iterFailures (cfg : CircuitBreakerConfig) (s : CircuitBreakerState)
    (times : List ℚ) : CircuitBreakerState :=
  times.foldl (record_failure cfg) s

/-- A sequence of recorded successes at the given times. -/
def iterSuccesses (cfg : CircuitBreakerConfig) (s : CircuitBreakerState)
    (times : List ℚ) : CircuitBreakerState :=
  times.foldl (record_success cfg) s

/-! ### Token bucket rate limiter (src/middleware/rate_limiter.py) -/

/-- TokenBucket of src/middleware/rate_limiter.py. -/
structure TokenBucket where
  capacity : ℚ
  tokens : ℚ
  refill_rate : ℚ
  last_update : ℚ

/-- TokenBucket.consume: refill from elapsed time, cap at capacity, then
consume when enough tokens remain. -/
def TokenBucket.consume (b : TokenBucket) (now : ℚ) (n : ℚ := 1) :
    Bool × TokenBucket :=
  let time_passed := now - b.last_update
  let tokens1 := min b.capacity (b.tokens + time_passed * b.refill_rate)
  if tokens1 ≥ n then
    (true, { b with tokens := tokens1 - n, last_update := now })
  else
    (false, { b with tokens := tokens1, last_update := now })

/-- Python int() truncates toward zero. -/
def pyInt (q : ℚ) : Int := if q < 0 then ⌈q⌉ else ⌊q⌋

/-- TokenBucket.remaining. -/
def TokenBucket.remaining (b : TokenBucket) : Int := pyInt b.tokens

/-- RateLimiter of src/middleware/rate_limiter.py: per-client buckets in
insertion order, plus the cleanup clock. -/
structure RateLimiter where
  requests_per_minute : ℚ := 60
  burst_size : ℚ := 10
  cleanup_interval : ℚ := 300
  buckets : List (Str × TokenBucket) := []
  last_cleanup : ℚ

/-- A RateLimiter constructed at time `now` with the source defaults. -/
def mkRateLimiter (now : ℚ) : RateLimiter := { last_cleanup := now }

/-- Replace the binding of a key in an association list, appending when the
key is absent (Python dict assignment, preserving insertion order). -/
def aupdate {α : Type} : List (Str × α) → Str → α → List (Str × α)
  | [], k, v => [(k, v)]
  | (k', v') :: rest, k, v =>
      if k' = k then (k, v) :: rest else (k', v') :: aupdate rest k v

/-- Look up a key in an association list (Python dict access). -/
def alookup {α : Type} : List (Str × α) → Str → Option α
  | [], _ => none
  | (k', v') :: rest, k => if k' = k then some v' else alookup rest k

/-- RateLimiter._cleanup: drop buckets idle longer than the fixed
five-minute inactivity threshold. -/
def RateLimiter.cleanup (rl : RateLimiter) (now : ℚ) : RateLimiter :=
  { rl with buckets :=
      rl.buckets.filter fun kb => decide (now - kb.2.last_update ≤ 300) }

/-- RateLimiter.is_allowed: periodic cleanup, bucket creation on first
sight of a client (full at burst_size with rate requests_per_minute / 60),
then one consume. Returns (allowed, remaining, new limiter state). -/
def RateLimiter.is_allowed (rl : RateLimiter) (client : Str) (now : ℚ) :
    Bool × Int × RateLimiter :=
  let rl1 :=
    if now - rl.last_cleanup > rl.cleanup_interval then
      { rl.cleanup now with last_cleanup := now }
    else rl
  let bucket0 :=
    match alookup rl1.buckets client with
    | some b => b
    | none =>
        { capacity := rl1.burst_size, tokens := rl1.burst_size,
          refill_rate := rl1.requests_per_minute / 60,
          last_update := now }
  let consumed := bucket0.consume now 1
  (consumed.1, consumed.2.remaining,
    { rl1 with buckets := aupdate rl1.buckets client consumed.2 })

/-- Unfolding of one retry attempt. -/
theorem retryAux_succ (outcomes : Nat → Except Str Str)
    (b m : ℚ) (a n : Nat) :
    retryAux outcomes b m a (n + 1) =
      match outcomes a with
      | Except.ok v => { result := Except.ok v, attempts := 1, delays := [] }
      | Except.error e =>
          if n = 0 then
            { result := Except.error e, attempts := 1, delays := [] }
          else
            { result := (retryAux outcomes b m (a + 1) n).result,
              attempts := (retryAux outcomes b m (a + 1) n).attempts + 1,
              delays := min (b * 2 ^ a) m ::
                (retryAux outcomes b m (a + 1) n).delays } := rfl

/-- C9: with the source defaults (3 attempts, base delay 1, cap 30),
retry_with_backoff returns the first successful outcome after sleeping
min(base * 2 ^ attempt, cap) after each earlier failed attempt, performs at
most three attempts, and re-raises the last exception when all three
attempts fail. -/
theorem claim_C9 (outcomes : Nat → Except Str Str) :
    (∀ k v, k < 3 → outcomes k = Except.ok v →
      (∀ i, i < k → ∃ e, outcomes i = Except.error e) →
      retry_with_backoff outcomes 3 1 30 =
        { result := Except.ok v, attempts := k + 1,
          delays := (List.range k).map fun a => min ((1 : ℚ) * 2 ^ a) 30 }) ∧
    (∀ e0 e1 e2, outcomes 0 = Except.error e0 →
      outcomes 1 = Except.error e1 → outcomes 2 = Except.error e2 →
      retry_with_backoff outcomes 3 1 30 =
        { result := Except.error e2, attempts := 3,
          delays := [min ((1 : ℚ) * 2 ^ 0) 30, min ((1 : ℚ) * 2 ^ 1) 30] }) ∧
    (retry_with_backoff outcomes 3 1 30).attempts ≤ 3 := by
  have h3 : (3 : Nat) = 2 + 1 := rfl
  have h2 : (2 : Nat) = 1 + 1 := rfl
  refine ⟨?_, ?_, ?_⟩
  · intro k v hk hvk hfail
    interval_cases k
    · unfold retry_with_backoff
      rw [h3, retryAux_succ, hvk]
      simp
    · obtain ⟨e0, he0⟩ := hfail 0 (by omega)
      unfold retry_with_backoff
      rw [h3, retryAux_succ, he0]
      rw [h2, retryAux_succ, hvk]
      simp [List.range_succ]
    · obtain ⟨e0, he0⟩ := hfail 0 (by omega)
      obtain ⟨e1, he1⟩ := hfail 1 (by omega)
      unfold retry_with_backoff
      rw [h3, retryAux_succ, he0]
      rw [h2, retryAux_succ, he1]
      rw [retryAux_succ, hvk]
      simp [List.range_succ]
  · intro e0 e1 e2 he0 he1 he2
    unfold retry_with_backoff
    rw [h3, retryAux_succ, he0]
    rw [h2, retryAux_succ, he1]
    rw [retryAux_succ, he2]
    simp
  · unfold retry_with_backoff
    rcases ho0 : outcomes 0 with e0 | v0
    · rw [h3, retryAux_succ, ho0]
      rcases ho1 : outcomes 1 with e1 | v1
      · rw [h2, retryAux_succ, ho1]
        rcases ho2 : outcomes 2 with e2 | v2
        · rw [retryAux_succ, ho2]; simp
        · rw [retryAux_succ, ho2]; simp
      · rw [h2, retryAux_succ, ho1]; simp
    · rw [h3, retryAux_succ, ho0]; simp

/-- Outcome oracle failing once then succeeding, for the C9 witness. -/
def demoOutcomes : Nat → Except Str Str :=
  fun n => if n = 0 then Except.error (chars "boom") else Except.ok (chars "done")

/-- Witness for C9: one failure then a success gives the success after two
attempts with a single backoff delay of one second. -/
theorem claim_C9_witness :
    retry_with_backoff demoOutcomes 3 1 30 =
      { result := Except.ok (chars "done"), attempts := 1 + 1,
        delays := (List.range 1).map fun a => min ((1 : ℚ) * 2 ^ a) 30 } :=
  (claim_C9 demoOutcomes).1 1 (chars "done") (by omega) rfl
    (fun i hi => ⟨chars "boom", by interval_cases i; rfl⟩)

/-! ### Circuit breaker lemmas -/

/-- A recorded failure keeps an OPEN breaker OPEN. -/
theorem record_failure_opened {cfg : CircuitBreakerConfig}
    {s : CircuitBreakerState} {t : ℚ} (h : s.state = CircuitState.opened) :
    (record_failure cfg s t).state = CircuitState.opened := by
  simp [record_failure, h]

/-- Any sequence of recorded failures keeps an OPEN breaker OPEN. -/
theorem iterFailures_opened {cfg : CircuitBreakerConfig} :
    ∀ (times : List ℚ) (s : CircuitBreakerState),
      s.state = CircuitState.opened →
      (iterFailures cfg s times).state = CircuitState.opened := by
  intro times
  induction times with
  | nil => intro s h; exact h
  | cons t rest ih =>
    intro s h
    exact ih (record_failure cfg s t) (record_failure_opened h)

/-- A recorded failure on a CLOSED breaker increments the count, stamps the
failure time, and opens the breaker exactly when the threshold is reached. -/
theorem record_failure_closed {cfg : CircuitBreakerConfig}
    {s : CircuitBreakerState} {t : ℚ} (h : s.state = CircuitState.closed) :
    record_failure cfg s t =
      if cfg.failure_threshold ≤ s.failure_count + 1 then
        { s with state := CircuitState.opened,
                 failure_count := s.failure_count + 1,
                 last_failure_time := t,
                 last_state_change := t }
      else
        { s with failure_count := s.failure_count + 1,
                 last_failure_time := t } := by
  simp [record_failure, h]

/-- From CLOSED, enough recorded failures open the breaker. -/
theorem opened_after_failures {cfg : CircuitBreakerConfig} :
    ∀ (times : List ℚ) (s : CircuitBreakerState),
      s.state = CircuitState.closed → times ≠ [] →
      cfg.failure_threshold ≤ s.failure_count + times.length →
      (iterFailures cfg s times).state = CircuitState.opened := by
  intro times
  induction times with
  | nil => intro s _ hne _; exact absurd rfl hne
  | cons t rest ih =>
    intro s hc _ hth
    have hstep := @record_failure_closed cfg s t hc
    show (iterFailures cfg (record_failure cfg s t) rest).state = _
    by_cases hcase : cfg.failure_threshold ≤ s.failure_count + 1
    · rw [hstep, if_pos hcase]
      exact iterFailures_opened rest _ rfl
    · rcases rest with _ | ⟨r, rs⟩
      · exfalso
        simp only [List.length_cons, List.length_nil] at hth
        omega
      · rw [hstep, if_neg hcase]
        refine ih _ hc (by simp) ?_
        simp only [List.length_cons] at hth ⊢
        push_cast at hth ⊢
        omega

/-- A recorded success on a CLOSED breaker only decays the failure count. -/
theorem record_success_closed {cfg : CircuitBreakerConfig}
    {s : CircuitBreakerState} {t : ℚ} (h : s.state = CircuitState.closed) :
    record_success cfg s t =
      { s with failure_count := max 0 (s.failure_count - 1) } := by
  simp [record_success, h]

/-- Successes keep a CLOSED breaker with zero failures in that state. -/
theorem iterSuccesses_closed_zero {cfg : CircuitBreakerConfig} :
    ∀ (times : List ℚ) (s : CircuitBreakerState),
      s.state = CircuitState.closed → s.failure_count = 0 →
      (iterSuccesses cfg s times).state = CircuitState.closed ∧
        (iterSuccesses cfg s times).failure_count = 0 := by
  intro times
  induction times with
  | nil => intro s h hf; exact ⟨h, hf⟩
  | cons t rest ih =>
    intro s h hf
    show (iterSuccesses cfg (record_success cfg s t) rest).state = _ ∧
      (iterSuccesses cfg (record_success cfg s t) rest).failure_count = 0
    rw [record_success_closed h]
    refine ih _ ?_ ?_
    · exact h
    · simp [hf]

/-- From HALF_OPEN, enough recorded successes close the breaker and reset
the failure count. -/
theorem closed_after_successes {cfg : CircuitBreakerConfig} :
    ∀ (times : List ℚ) (s : CircuitBreakerState),
      s.state = CircuitState.halfOpen → times ≠ [] →
      cfg.success_threshold ≤ s.success_count + times.length →
      (iterSuccesses cfg s times).state = CircuitState.closed ∧
        (iterSuccesses cfg s times).failure_count = 0 := by
  intro times
  induction times with
  | nil => intro s _ hne _; exact absurd rfl hne
  | cons t rest ih =>
    intro s hh _ hth
    show (iterSuccesses cfg (record_success cfg s t) rest).state = _ ∧
      (iterSuccesses cfg (record_success cfg s t) rest).failure_count = 0
    by_cases hcase : cfg.success_threshold ≤ s.success_count + 1
    · have hstep : record_success cfg s t =
          { s with state := CircuitState.closed,
                   success_count := s.success_count + 1,
                   failure_count := 0,
                   last_state_change := t } := by
        simp [record_success, hh, hcase]
      rw [hstep]
      apply iterSuccesses_closed_zero rest
      · rfl
      · rfl
    · have hstep : record_success cfg s t =
          { s with success_count := s.success_count + 1 } := by
        simp [record_success, hh, hcase]
      rcases rest with _ | ⟨r, rs⟩
      · exfalso
        simp only [List.length_cons, List.length_nil] at hth
        omega
      · rw [hstep]
        refine ih _ ?_ (by simp) ?_
        · exact hh
        simp only [List.length_cons] at hth ⊢
        push_cast at hth ⊢
        omega

/-- C4: the circuit breaker transition rules. From a fresh CLOSED breaker,
failure_threshold recorded failures open it; while OPEN within the timeout
a call is rejected without running the wrapped function; once the timeout
has elapsed the next call first moves to HALF_OPEN with success_count
reset and then executes; from HALF_OPEN, success_threshold successes close
the breaker and reset the failure count, while one failure reopens it; and
a success while CLOSED decays the failure count toward zero. -/
theorem claim_C4 :
    (∀ (cfg : CircuitBreakerConfig) (t0 : ℚ) (times : List ℚ),
      1 ≤ cfg.failure_threshold →
      (times.length : Int) = cfg.failure_threshold →
      (iterFailures cfg (initialBreakerState t0) times).state =
        CircuitState.opened) ∧
    (∀ (cfg : CircuitBreakerConfig) (s : CircuitBreakerState)
        (now nowRec : ℚ) (outcome : Bool),
      s.state = CircuitState.opened →
      now - s.last_failure_time < cfg.timeout_seconds →
      breakerCall cfg s now nowRec outcome = (CallOutcome.rejected, s)) ∧
    (∀ (cfg : CircuitBreakerConfig) (s : CircuitBreakerState)
        (now nowRec : ℚ) (outcome : Bool),
      s.state = CircuitState.opened →
      cfg.timeout_seconds ≤ now - s.last_failure_time →
      check_state_transition cfg s now =
        { s with state := CircuitState.halfOpen,
                 success_count := 0,
                 last_state_change := now } ∧
      (breakerCall cfg s now nowRec outcome).1 =
        CallOutcome.completed outcome) ∧
    (∀ (cfg : CircuitBreakerConfig) (s : CircuitBreakerState)
        (times : List ℚ),
      s.state = CircuitState.halfOpen → s.success_count = 0 →
      1 ≤ cfg.success_threshold →
      (times.length : Int) = cfg.success_threshold →
      (iterSuccesses cfg s times).state = CircuitState.closed ∧
        (iterSuccesses cfg s times).failure_count = 0) ∧
    (∀ (cfg : CircuitBreakerConfig) (s : CircuitBreakerState) (now : ℚ),
      s.state = CircuitState.halfOpen →
      (record_failure cfg s now).state = CircuitState.opened) ∧
    (∀ (cfg : CircuitBreakerConfig) (s : CircuitBreakerState) (now : ℚ),
      s.state = CircuitState.closed →
      record_success cfg s now =
        { s with failure_count := max 0 (s.failure_count - 1) }) := by
  refine ⟨?_, ?_, ?_, ?_, ?_, ?_⟩
  · intro cfg t0 times hth hlen
    refine opened_after_failures times _ rfl ?_ ?_
    · intro hnil
      rw [hnil] at hlen
      simp at hlen
      omega
    · show cfg.failure_threshold ≤ 0 + times.length
      omega
  · intro cfg s now nowRec outcome hopen hlt
    have hcheck : check_state_transition cfg s now = s := by
      unfold check_state_transition
      rw [if_neg]
      rintro ⟨-, hge⟩
      linarith
    unfold breakerCall
    rw [hcheck, if_pos hopen]
  · intro cfg s now nowRec outcome hopen hge
    have hcheck : check_state_transition cfg s now =
        { s with state := CircuitState.halfOpen,
                 success_count := 0,
                 last_state_change := now } := by
      unfold check_state_transition
      rw [if_pos ⟨hopen, hge⟩]
    refine ⟨hcheck, ?_⟩
    unfold breakerCall
    rw [hcheck]
    rcases outcome with _ | _ <;> simp
  · intro cfg s times hh hs0 hth hlen
    refine closed_after_successes times _ hh ?_ ?_
    · intro hnil
      rw [hnil] at hlen
      simp at hlen
      omega
    · rw [hs0]
      omega
  · intro cfg s now hh
    simp [record_failure, hh]
  · intro cfg s now hc
    exact record_success_closed hc

/-- A breaker sitting OPEN since a failure at time 100, for the witness. -/
def demoOpenBreaker : CircuitBreakerState :=
  { state := CircuitState.opened, failure_count := 5, success_count := 0,
    last_failure_time := 100, last_state_change := 100 }

/-- Witness for C4 at concrete inputs: five failures open a fresh default
breaker; at 10 seconds past the last failure a call is rejected
unchanged; at 30 seconds the breaker probes HALF_OPEN and lets the call
through. -/
theorem claim_C4_witness :
    (iterFailures {} (initialBreakerState 0) [1, 2, 3, 4, 5]).state =
        CircuitState.opened ∧
    breakerCall {} demoOpenBreaker 110 111 true =
        (CallOutcome.rejected, demoOpenBreaker) ∧
    (breakerCall {} demoOpenBreaker 130 131 true).1 =
        CallOutcome.completed true :=
  ⟨claim_C4.1 {} 0 [1, 2, 3, 4, 5] (by norm_num) (by norm_num),
   claim_C4.2.1 {} demoOpenBreaker 110 111 true rfl (by norm_num [demoOpenBreaker]),
   (claim_C4.2.2.1 {} demoOpenBreaker 130 131 true rfl
      (by norm_num [demoOpenBreaker])).2⟩

/-! ### Rate limiter lemmas -/

/-- A bucket of the default limiter: capacity 10, rate 1 token/second. -/
def demoBucket (k t0 : ℚ) : TokenBucket :=
  { capacity := 10, tokens := k, refill_rate := 1, last_update := t0 }

/-- The default limiter constructed at t0 holding one client bucket. -/
def demoLimiter (client : Str) (t0 k : ℚ) : RateLimiter :=
  { buckets := [(client, demoBucket k t0)], last_cleanup := t0 }

/-- The limiter state after n admission checks for one client, all at the
construction instant t0. -/
def c5After (client : Str) (t0 : ℚ) : Nat → RateLimiter
  | 0 => mkRateLimiter t0
  | n + 1 => ((c5After client t0 n).is_allowed client t0).2.2

/-- First sight of a client: the limiter builds a full bucket and admits. -/
theorem is_allowed_fresh (client : Str) (lc now : ℚ)
    (hcl : now - lc ≤ 300) :
    ({ buckets := [], last_cleanup := lc } : RateLimiter).is_allowed
        client now =
      (true, 9, { buckets := [(client, demoBucket 9 now)],
                  last_cleanup := lc }) := by
  have hno : ¬ (now - lc > 300) := by linarith
  simp [RateLimiter.is_allowed, alookup, aupdate, TokenBucket.consume,
    TokenBucket.remaining, demoBucket, pyInt, hno]
  norm_num

/-- An admission check on a single-bucket limiter with enough tokens:
admitted, one token consumed. -/
theorem is_allowed_single_true (client : Str) (t0 k lu now : ℚ)
    (hcl : now - t0 ≤ 300) (hcap : k + (now - lu) * 1 ≤ 10)
    (h1 : 1 ≤ k + (now - lu) * 1) :
    ({ buckets := [(client, demoBucket k lu)],
       last_cleanup := t0 } : RateLimiter).is_allowed client now =
      (true, pyInt (k + (now - lu) * 1 - 1),
        { buckets := [(client, demoBucket (k + (now - lu) * 1 - 1) now)],
          last_cleanup := t0 }) := by
  have hno : ¬ (now - t0 > 300) := by linarith
  have hcap' : k + (now - lu) ≤ 10 := by linarith
  have h1' : 1 ≤ k + (now - lu) := by linarith
  simp [RateLimiter.is_allowed, alookup, aupdate, TokenBucket.consume,
    TokenBucket.remaining, demoBucket, hno, min_eq_right hcap', h1']

/-- An admission check on a single-bucket limiter with too few tokens:
denied, only the refill recorded. -/
theorem is_allowed_single_false (client : Str) (t0 k lu now : ℚ)
    (hcl : now - t0 ≤ 300) (hcap : k + (now - lu) * 1 ≤ 10)
    (h1 : ¬ 1 ≤ k + (now - lu) * 1) :
    ({ buckets := [(client, demoBucket k lu)],
       last_cleanup := t0 } : RateLimiter).is_allowed client now =
      (false, pyInt (k + (now - lu) * 1),
        { buckets := [(client, demoBucket (k + (now - lu) * 1) now)],
          last_cleanup := t0 }) := by
  have hno : ¬ (now - t0 > 300) := by linarith
  have hcap' : k + (now - lu) ≤ 10 := by linarith
  have h1' : ¬ 1 ≤ k + (now - lu) := fun hcon => h1 (by linarith)
  simp [RateLimiter.is_allowed, alookup, aupdate, TokenBucket.consume,
    TokenBucket.remaining, demoBucket, hno, min_eq_right hcap', h1']

/-- After n immediate admission checks (1 ≤ n ≤ 10) the single bucket
holds 10 - n tokens. -/
theorem c5After_eq (client : Str) (t0 : ℚ) :
    ∀ n, 1 ≤ n → n ≤ 10 →
      c5After client t0 n =
        { buckets := [(client, demoBucket ((10 - n : Nat) : ℚ) t0)],
          last_cleanup := t0 } := by
  intro n
  induction n with
  | zero => intro h _; exact absurd h (by omega)
  | succ n ih =>
    intro _ hn
    rcases Nat.eq_zero_or_pos n with rfl | hpos
    · show ((mkRateLimiter t0).is_allowed client t0).2.2 = _
      have hmk : mkRateLimiter t0 =
          ({ buckets := [], last_cleanup := t0 } : RateLimiter) := rfl
      rw [hmk, is_allowed_fresh client t0 t0 (by linarith)]
      norm_num
    · show ((c5After client t0 n).is_allowed client t0).2.2 = _
      rw [ih hpos (by omega)]
      have hklb : (1 : ℚ) ≤ ((10 - n : Nat) : ℚ) := by
        have : (1 : Nat) ≤ 10 - n := by omega
        exact_mod_cast this
      have hkub : ((10 - n : Nat) : ℚ) ≤ 10 := by
        have : (10 - n : Nat) ≤ 10 := by omega
        exact_mod_cast this
      rw [is_allowed_single_true client t0 _ t0 t0 (by linarith)
        (by linarith) (by linarith)]
      have htok : ((10 - n : Nat) : ℚ) + (t0 - t0) * 1 - 1 =
          ((10 - (n + 1) : Nat) : ℚ) := by
        rw [Nat.cast_sub (by omega), Nat.cast_sub (by omega)]
        push_cast
        ring
      rw [htok]

/-- The limiter state after the ten admissions and the denied eleventh
immediate check: the bucket sits at zero tokens. -/
theorem c5After_eleven (client : Str) (t0 : ℚ) :
    c5After client t0 11 =
      { buckets := [(client, demoBucket 0 t0)], last_cleanup := t0 } := by
  have hstep : ∀ n, c5After client t0 (n + 1) =
      ((c5After client t0 n).is_allowed client t0).2.2 := fun n => rfl
  rw [show (11 : Nat) = 10 + 1 from rfl, hstep]
  rw [c5After_eq client t0 10 (by omega) (by omega)]
  rw [is_allowed_single_false client t0 _ t0 t0 (by linarith)
    (by norm_num) (by norm_num)]
  norm_num

/-- C5: an admission check refills to min(capacity, tokens + elapsed *
rate), stamps last_update, and admits exactly when a full token is
available; and the limiter with its default configuration admits exactly
ten immediate requests from a new client, denies the eleventh, and after a
wait of at least one and less than two seconds admits exactly one more. -/
theorem claim_C5 :
    (∀ (b : TokenBucket) (now : ℚ),
      ((b.consume now 1).1 = true ↔
        1 ≤ min b.capacity
          (b.tokens + (now - b.last_update) * b.refill_rate)) ∧
      (b.consume now 1).2.last_update = now ∧
      (b.consume now 1).2.capacity = b.capacity ∧
      (b.consume now 1).2.refill_rate = b.refill_rate ∧
      (b.consume now 1).2.tokens =
        (if 1 ≤ min b.capacity
            (b.tokens + (now - b.last_update) * b.refill_rate)
         then min b.capacity
            (b.tokens + (now - b.last_update) * b.refill_rate) - 1
         else min b.capacity
            (b.tokens + (now - b.last_update) * b.refill_rate))) ∧
    (∀ (client : Str) (t0 t : ℚ), 1 ≤ t → t < 2 →
      (∀ n, n < 10 → ((c5After client t0 n).is_allowed client t0).1 = true) ∧
      ((c5After client t0 10).is_allowed client t0).1 = false ∧
      ((c5After client t0 11).is_allowed client (t0 + t)).1 = true ∧
      (((c5After client t0 11).is_allowed client (t0 + t)).2.2.is_allowed
          client (t0 + t)).1 = false) := by
  constructor
  · intro b now
    unfold TokenBucket.consume
    dsimp only
    split_ifs with h
    · simp only [ge_iff_le] at h
      simp [h]
    · simp only [ge_iff_le] at h
      simp [h]
  · intro client t0 t ht1 ht2
    refine ⟨?_, ?_, ?_, ?_⟩
    · intro n hn
      rcases Nat.eq_zero_or_pos n with rfl | hpos
      · show ((mkRateLimiter t0).is_allowed client t0).1 = true
        have hmk : mkRateLimiter t0 =
            ({ buckets := [], last_cleanup := t0 } : RateLimiter) := rfl
        rw [hmk, is_allowed_fresh client t0 t0 (by linarith)]
      · rw [c5After_eq client t0 n hpos (by omega)]
        have hklb : (1 : ℚ) ≤ ((10 - n : Nat) : ℚ) := by
          have : (1 : Nat) ≤ 10 - n := by omega
          exact_mod_cast this
        have hkub : ((10 - n : Nat) : ℚ) ≤ 10 := by
          have : (10 - n : Nat) ≤ 10 := by omega
          exact_mod_cast this
        rw [is_allowed_single_true client t0 _ t0 t0 (by linarith)
          (by linarith) (by linarith)]
    · rw [c5After_eq client t0 10 (by omega) (by omega)]
      rw [is_allowed_single_false client t0 _ t0 t0 (by linarith)
        (by norm_num) (by norm_num)]
    · rw [c5After_eleven client t0]
      rw [is_allowed_single_true client t0 0 t0 (t0 + t) (by linarith)
        (by linarith) (by linarith)]
    · rw [c5After_eleven client t0]
      rw [is_allowed_single_true client t0 0 t0 (t0 + t) (by linarith)
        (by linarith) (by linarith)]
      dsimp only
      rw [is_allowed_single_false client t0 _ (t0 + t) (t0 + t)
        (by linarith) (by linarith) (by intro hcon; nlinarith)]

/-- Witness for C5 at t0 = 0, wait 3/2 seconds: the request after the wait
is admitted and the one after it is denied. -/
theorem claim_C5_witness :
    ((c5After (chars "c") 0 11).is_allowed (chars "c") (0 + 3/2)).1 = true ∧
    (((c5After (chars "c") 0 11).is_allowed (chars "c")
        (0 + 3/2)).2.2.is_allowed (chars "c") (0 + 3/2)).1 = false :=
  ⟨(claim_C5.2 (chars "c") 0 (3/2) (by norm_num) (by norm_num)).2.2.1,
   (claim_C5.2 (chars "c") 0 (3/2) (by norm_num) (by norm_num)).2.2.2⟩

/-! ### JSON model (the Python json module) -/

/-- Decimal digits of a positive natural number, accumulated most
significant first. -/
def natDigitsAux : Nat → Str → Str
  | 0, acc => acc
  | n + 1, acc =>
      natDigitsAux ((n + 1) / 10) (Char.ofNat (48 + (n + 1) % 10) :: acc)
decreasing_by exact Nat.div_lt_self (Nat.succ_pos n) (by norm_num)

/-- Decimal representation of a natural number. -/
def natChars (n : Nat) : Str := if n = 0 then chars "0" else natDigitsAux n []

/-- Decimal representation of an integer (json.dumps of a Python int). -/
def intChars : Int → Str
  | Int.ofNat n => natChars n
  | Int.negSucc m => '-' :: natChars (m + 1)

/-- Lower-case hexadecimal digit. -/
def hexDigit (n : Nat) : Char :=
  if n < 10 then Char.ofNat (48 + n) else Char.ofNat (87 + n)

/-- json.dumps escaping of one character inside a string literal: the
two-character escapes for the quote, the backslash and the common control
characters, the four-hex-digit form for the remaining control characters,
and any other character literally (the ensure_ascii=False form; escaping
non-ASCII characters as well would not change any parse of a dump). -/
def escapeChar (c : Char) : Str :=
  if c = '"' then ['\\', '"']
  else if c = '\\' then ['\\', '\\']
  else if c = '\n' then ['\\', 'n']
  else if c = '\t' then ['\\', 't']
  else if c = '\x0d' then ['\\', 'r']
  else if c = '\x08' then ['\\', 'b']
  else if c = '\x0c' then ['\\', 'f']
  else if c.toNat < 32 then
    ['\\', 'u', '0', '0', hexDigit (c.toNat / 16), hexDigit (c.toNat % 16)]
  else [c]

/-- json.dumps of a string. -/
def dumpStr (s : Str) : Str := '"' :: (s.map escapeChar).flatten ++ ['"']

mutual
/-- json.dumps with its default separators: comma-space between items,
colon-space between a key and its value. -/
def dumpJson : Json → Str
  | Json.null => chars "null"
  | Json.bool true => chars "true"
  | Json.bool false => chars "false"
  | Json.num n => intChars n
  | Json.str s => dumpStr s
  | Json.arr xs => '[' :: dumpArr xs ++ [']']
  | Json.obj ms => lbrace :: dumpObj ms ++ [rbrace]

/-- json.dumps of the elements of an array, comma-space separated. -/
def dumpArr : List Json → Str
  | [] => []
  | [x] => dumpJson x
  | x :: y :: rest => dumpJson x ++ ',' :: ' ' :: dumpArr (y :: rest)

/-- json.dumps of the members of an object, comma-space separated. -/
def dumpObj : List (Str × Json) → Str
  | [] => []
  | [(k, v)] => dumpStr k ++ ':' :: ' ' :: dumpJson v
  | (k, v) :: m :: rest =>
      dumpStr k ++ ':' :: ' ' :: dumpJson v ++ ',' :: ' ' :: dumpObj (m :: rest)
end

/-- JSON whitespace accepted between tokens. -/
def isJsonWs (c : Char) : Bool :=
  c = ' ' || c = '\t' || c = '\n' || c = '\x0d'

/-- Skip JSON whitespace. -/
def skipWs (s : Str) : Str := s.dropWhile isJsonWs

/-- ASCII decimal digit test. -/
def isDigitChar (c : Char) : Bool := 48 ≤ c.toNat && c.toNat ≤ 57

/-- Value of a run of decimal digits. -/
def digitsToNat (ds : Str) : Nat :=
  ds.foldl (fun a c => 10 * a + (c.toNat - 48)) 0

/-- Parse a run of decimal digits as a Python int. json.loads rejects a
leading zero on a multi-digit number; the fraction and exponent forms
produce floats and are outside this embedding, so they are rejected. -/
def parseNumber (s : Str) : Option (Nat × Str) :=
  let ds := s.takeWhile isDigitChar
  let rest := s.dropWhile isDigitChar
  if ds = [] then none
  else if ds.head? = some '0' ∧ 1 < ds.length then none
  else if rest.head? = some '.' ∨ rest.head? = some 'e' ∨
      rest.head? = some 'E' then none
  else some (digitsToNat ds, rest)

/-- Value of one hexadecimal digit. -/
def hexVal (c : Char) : Option Nat :=
  if 48 ≤ c.toNat ∧ c.toNat ≤ 57 then some (c.toNat - 48)
  else if 97 ≤ c.toNat ∧ c.toNat ≤ 102 then some (c.toNat - 87)
  else if 65 ≤ c.toNat ∧ c.toNat ≤ 70 then some (c.toNat - 55)
  else none

/-- The two-character escapes accepted by json.loads. -/
def unescapeChar (e : Char) : Option Char :=
  if e = '"' then some '"'
  else if e = '\\' then some '\\'
  else if e = '/' then some '/'
  else if e = 'n' then some '\n'
  else if e = 't' then some '\t'
  else if e = 'r' then some '\x0d'
  else if e = 'b' then some '\x08'
  else if e = 'f' then some '\x0c'
  else none

/-- Parse the body of a string literal after its opening quote. Raw
control characters are rejected, as in the strict mode of json.loads. -/
def parseStrBody : Str → Option (Str × Str)
  | [] => none
  | c :: rest =>
    if c = '"' then some ([], rest)
    else if c = '\\' then
      match rest with
      | [] => none
      | e :: rest1 =>
        if e = 'u' then
          match rest1 with
          | h1 :: h2 :: h3 :: h4 :: rest2 =>
            match hexVal h1, hexVal h2, hexVal h3, hexVal h4 with
            | some a, some b, some c2, some d =>
              match parseStrBody rest2 with
              | some (cs, r) =>
                  some (Char.ofNat (((a * 16 + b) * 16 + c2) * 16 + d) :: cs, r)
              | none => none
            | _, _, _, _ => none
          | _ => none
        else
          match unescapeChar e with
          | some d =>
            match parseStrBody rest1 with
            | some (cs, r) => some (d :: cs, r)
            | none => none
          | none => none
    else if c.toNat < 32 then none
    else
      match parseStrBody rest with
      | some (cs, r) => some (c :: cs, r)
      | none => none

mutual
/-- Recursive-descent JSON reader: one value. The fuel bounds recursion
depth; the top-level entry supplies enough for any input. -/
def parseVal : Nat → Str → Option (Json × Str)
  | 0, _ => none
  | fuel + 1, s =>
    match skipWs s with
    | [] => none
    | c :: rest =>
      if c = lbrace then parseObjItems fuel rest
      else if c = '[' then parseArrItems fuel rest
      else if c = '"' then
        match parseStrBody rest with
        | some (cs, r) => some (Json.str cs, r)
        | none => none
      else if c = '-' then
        match parseNumber rest with
        | some (n, r) => some (Json.num (-(n : Int)), r)
        | none => none
      else if isDigitChar c then
        match parseNumber (c :: rest) with
        | some (n, r) => some (Json.num (n : Int), r)
        | none => none
      else if c = 't' then
        if (chars "rue").isPrefixOf rest then
          some (Json.bool true, rest.drop 3)
        else none
      else if c = 'f' then
        if (chars "alse").isPrefixOf rest then
          some (Json.bool false, rest.drop 4)
        else none
      else if c = 'n' then
        if (chars "ull").isPrefixOf rest then some (Json.null, rest.drop 3)
        else none
      else none

/-- After an opening bracket: the elements of an array. -/
def parseArrItems : Nat → Str → Option (Json × Str)
  | 0, _ => none
  | fuel + 1, s =>
    match skipWs s with
    | [] => none
    | c :: rest =>
      if c = ']' then some (Json.arr [], rest)
      else
        match parseVal fuel (c :: rest) with
        | some (v, r) =>
          match parseArrRest fuel r with
          | some (vs, r1) => some (Json.arr (v :: vs), r1)
          | none => none
        | none => none

/-- After an element: a comma and a further element, or the close
bracket. -/
def parseArrRest : Nat → Str → Option (List Json × Str)
  | 0, _ => none
  | fuel + 1, s =>
    match skipWs s with
    | [] => none
    | c :: rest =>
      if c = ']' then some ([], rest)
      else if c = ',' then
        match parseVal fuel rest with
        | some (v, r) =>
          match parseArrRest fuel r with
          | some (vs, r1) => some (v :: vs, r1)
          | none => none
        | none => none
      else none

/-- After an opening brace: the members of an object. -/
def parseObjItems : Nat → Str → Option (Json × Str)
  | 0, _ => none
  | fuel + 1, s =>
    match skipWs s with
    | [] => none
    | c :: rest =>
      if c = rbrace then some (Json.obj [], rest)
      else if c = '"' then
        match parseStrBody rest with
        | some (k, r) =>
          match skipWs r with
          | [] => none
          | c2 :: r1 =>
            if c2 = ':' then
              match parseVal fuel r1 with
              | some (v, r2) =>
                match parseObjRest fuel r2 with
                | some (ms, r3) => some (Json.obj ((k, v) :: ms), r3)
                | none => none
              | none => none
            else none
        | none => none
      else none

/-- After a member: a comma and a further member, or the close brace. -/
def parseObjRest : Nat → Str → Option (List (Str × Json) × Str)
  | 0, _ => none
  | fuel + 1, s =>
    match skipWs s with
    | [] => none
    | c :: rest =>
      if c = rbrace then some ([], rest)
      else if c = ',' then
        match skipWs rest with
        | [] => none
        | c2 :: r =>
          if c2 = '"' then
            match parseStrBody r with
            | some (k, r1) =>
              match skipWs r1 with
              | [] => none
              | c3 :: r2 =>
                if c3 = ':' then
                  match parseVal fuel r2 with
                  | some (v, r3) =>
                    match parseObjRest fuel r3 with
                    | some (ms, r4) => some ((k, v) :: ms, r4)
                    | none => none
                  | none => none
                else none
            | none => none
          else none
      else none
end

/-- Model of json.loads: parse one document with fuel ample for the input,
requiring only whitespace to remain; none models a raised
JSONDecodeError. -/
def jsonLoads (s : Str) : Option Json :=
  match parseVal (2 * s.length + 2) s with
  | some (v, r) => if skipWs r = [] then some v else none
  | none => none

/-! ### Action parser (parse_json_action of src/agent/nodes.py) -/

/-- The text before the first occurrence of sep, with the remainder after
that occurrence; none when sep does not occur. -/
def breakOn (sep : Str) : Str → Option (Str × Str)
  | [] => none
  | c :: rest =>
    if sep.isPrefixOf (c :: rest) then some ([], (c :: rest).drop sep.length)
    else
      match breakOn sep rest with
      | some (pre, post) => some (c :: pre, post)
      | none => none

/-- Python content.split(sep)[0]: the text before the first occurrence of
sep, or the whole text when sep is absent. -/
def pySplitIdx0 (sep s : Str) : Str :=
  match breakOn sep s with
  | none => s
  | some (pre, _) => pre

/-- Python content.split(sep)[1]: the text between the first and second
occurrences of sep, or the remainder after a sole occurrence; none models
the IndexError when sep is absent. -/
def pySplitIdx1 (sep s : Str) : Option Str :=
  match breakOn sep s with
  | none => none
  | some (_, post) => some (pySplitIdx0 sep post)

/-- Python str.find for a single character: index of the first occurrence,
none in place of -1. -/
def pyFindChar (c : Char) (s : Str) : Option Nat := s.findIdx? (· = c)

/-- Python str.rfind for a single character: index of the last
occurrence. -/
def pyRfindChar (c : Char) (s : Str) : Option Nat :=
  match pyFindChar c s.reverse with
  | none => none
  | some i => some (s.length - 1 - i)

/-- Python slice s[a:b]. -/
def pySlice (s : Str) (a b : Nat) : Str := (s.take b).drop a

/-- parse_json_action of src/agent/nodes.py: the four extraction attempts
in source order, each falling through to the next on failure — the whole
stripped text when it starts with a brace, then the json-tagged fenced
block, then the first fenced block when its stripped text starts with a
brace, then the substring from the first opening brace to the last closing
brace. A failed json.loads is none and falls through; the function itself
is total, as the Python code catches every parse error. -/
def parse_json_action (content : Str) : Option Json :=
  let step1 :=
    if (pyStrip content).head? = some lbrace then jsonLoads (pyStrip content)
    else none
  match step1 with
  | some v => some v
  | none =>
    let step2 :=
      if containsSub content (chars "```json") then
        match pySplitIdx1 (chars "```json") content with
        | some seg => jsonLoads (pyStrip (pySplitIdx0 (chars "```") seg))
        | none => none
      else none
    match step2 with
    | some v => some v
    | none =>
      let step3 :=
        if containsSub content (chars "```") then
          match pySplitIdx1 (chars "```") content with
          | some seg1 =>
            let js := pyStrip (pySplitIdx0 (chars "```") seg1)
            if js.head? = some lbrace then jsonLoads js else none
          | none => none
        else none
      match step3 with
      | some v => some v
      | none =>
        match pyFindChar lbrace content, pyRfindChar rbrace content with
        | some start, some last =>
          if start < last + 1 then
            jsonLoads (pySlice content start (last + 1))
          else none
        | _, _ => none

/-! ### Tool invocation gateway (ToolExecutor of src/agent/nodes.py) -/

/-- The fixed tool registry keys of ToolExecutor.AVAILABLE_TOOLS. -/
def AVAILABLE_TOOLS : List Str :=
  [chars "write_file", chars "read_file", chars "list_dir",
   chars "run_command"]

/-- ToolExecutor.execute. The collaborator behind a registry entry is the
oracle `runTool` (ok carries the returned text, error the message of a
raised exception, including a missing-argument key error raised by the
registry lambda). Duration and timestamp are the sampled clock values.
Returns (output, success flag, updated tool_results log). -/
def ToolExecutor_execute (runTool : Str → List (Str × Json) → Except Str Str)
    (tool_name : Str) (tool_input : List (Str × Json)) (state : AgentState)
    (execution_time_ms : ℚ) (timestamp : Str) :
    Str × Bool × List ToolResult :=
  if tool_name ∉ AVAILABLE_TOOLS then
    let output := chars "Unknown tool: " ++ tool_name
    (output, false,
      add_tool_result state tool_name tool_input (output.take 1000) false
        execution_time_ms timestamp)
  else
    match runTool tool_name tool_input with
    | Except.ok output =>
      let success := !(chars "Error:").isPrefixOf output
      (output, success,
        add_tool_result state tool_name tool_input (output.take 1000) success
          execution_time_ms timestamp)
    | Except.error e =>
      let error_msg := chars "Tool execution error: " ++ e
      (error_msg, false,
        add_tool_result state tool_name tool_input error_msg false
          execution_time_ms timestamp)

/-! ### Worker nodes (src/agent/nodes.py) -/

/-- Python truthiness of a JSON value: empty containers, empty strings,
zero, false and null are falsy. -/
def jsonTruthy : Json → Bool
  | Json.null => false
  | Json.bool b => b
  | Json.num n => decide (n ≠ 0)
  | Json.str s => decide (s ≠ [])
  | Json.arr xs => !xs.isEmpty
  | Json.obj ms => !ms.isEmpty

/-- Python mapping.get(key, "") followed by a string comparison: only a
string value can equal a string, so non-string values and missing keys
give none. -/
def jsonGetStr (m : List (Str × Json)) (key : Str) : Option Str :=
  match alookup m key with
  | some (Json.str s) => some s
  | _ => none

/-- Message text of the AttributeError raised by calling .get on a parsed
value that is not a mapping. -/
def attrGetError : Str := chars "object has no attribute get"

/-- planner_node of src/agent/nodes.py. A model failure is caught and
reported as an appended error message; no error_context is set. -/
def planner_node (state : AgentState) (mres : Except Str Str) (ts : Str) :
    Update :=
  match mres with
  | Except.ok content =>
    { messages := [Msg.ai content],
      plan := some content,
      memory := some (add_memory state (chars "assistant") content
        (some (chars "planner")) ts),
      current_agent := some (chars "planner"),
      next_step := some (chars "supervisor") }
  | Except.error e =>
    { messages := [Msg.ai (chars "Planning error: " ++ e)],
      current_agent := some (chars "planner"),
      next_step := some (chars "supervisor") }

/-- The update a researcher exception path returns. -/
def researcherError (e : Str) : Update :=
  { messages := [Msg.ai (chars "Research error: " ++ e)],
    current_agent := some (chars "researcher"),
    next_step := some (chars "supervisor") }

/-- researcher_node of src/agent/nodes.py. `rf` is the read_file
collaborator oracle; an exception it raises is caught by the node body.
The returned tool_results key carries the unchanged prior log. -/
def researcher_node (state : AgentState) (mres : Except Str Str)
    (rf : Str → Except Str Str) (ts : Str) : Update :=
  match mres with
  | Except.error e => researcherError e
  | Except.ok content =>
    let finish (msgs : List Msg) : Update :=
      { messages := msgs,
        memory := some (add_memory state (chars "assistant")
          (content.take 500) (some (chars "researcher")) ts),
        tool_results := some state.tool_results,
        current_agent := some (chars "researcher"),
        next_step := some (chars "supervisor") }
    match parse_json_action content with
    | none => finish [Msg.ai content]
    | some j =>
      if jsonTruthy j then
        match j with
        | Json.obj m =>
          if jsonGetStr m (chars "action") = some (chars "analyze_file") then
            match rf ((jsonGetStr m (chars "path")).getD []) with
            | Except.ok result =>
                finish [Msg.ai content,
                  Msg.human (chars "File Analysis Result:\n" ++ result)]
            | Except.error e => researcherError e
          else if jsonGetStr m (chars "action") =
              some (chars "search_code") then
            finish [Msg.ai content,
              Msg.human (chars "Search Result:\n[Semantic search for: " ++
                (jsonGetStr m (chars "query")).getD [] ++
                chars "]\n(Vector store integration pending)")]
          else finish [Msg.ai content]
        | _ => researcherError attrGetError
      else finish [Msg.ai content]

/-- The update a coder exception path returns: the only worker that also
sets error_context. -/
def coderError (e : Str) : Update :=
  { messages := [Msg.ai (chars "Implementation error: " ++ e)],
    current_agent := some (chars "coder"),
    next_step := some (chars "supervisor"),
    error_context := some ⟨chars "coder", e, false⟩ }

/-- coder_node of src/agent/nodes.py. A finish action skips tool
execution; a registry action runs through the gateway and appends the tool
message; anything else leaves the log unchanged. -/
def coder_node (state : AgentState) (mres : Except Str Str)
    (runTool : Str → List (Str × Json) → Except Str Str)
    (dur : ℚ) (ts : Str) : Update :=
  match mres with
  | Except.error e => coderError e
  | Except.ok content =>
    let finish (msgs : List Msg) (trs : List ToolResult) : Update :=
      { messages := msgs,
        memory := some (add_memory state (chars "assistant")
          (content.take 500) (some (chars "coder")) ts),
        tool_results := some trs,
        current_agent := some (chars "coder"),
        next_step := some (chars "supervisor") }
    match parse_json_action content with
    | none => finish [Msg.ai content] state.tool_results
    | some j =>
      if jsonTruthy j then
        match j with
        | Json.obj m =>
          if jsonGetStr m (chars "action") = some (chars "finish") then
            finish [Msg.ai content] state.tool_results
          else
            match jsonGetStr m (chars "action") with
            | some a =>
              if a ∈ AVAILABLE_TOOLS then
                let r := ToolExecutor_execute runTool a m state dur ts
                finish [Msg.ai content,
                  Msg.human (chars "Tool Result (" ++ a ++ chars "):\n" ++
                    r.1)] r.2.2
              else finish [Msg.ai content] state.tool_results
            | none => finish [Msg.ai content] state.tool_results
        | _ => coderError attrGetError
      else finish [Msg.ai content] state.tool_results

/-- The update a reviewer exception path returns. -/
def reviewerError (e : Str) : Update :=
  { messages := [Msg.ai (chars "Review error: " ++ e)],
    current_agent := some (chars "reviewer"),
    next_step := some (chars "supervisor") }

/-- reviewer_node of src/agent/nodes.py. A finish action stores the
verdict text in reflection; a review_file action reads the file through
the oracle and appends a truncated excerpt; reflection falls back to the
prior value when empty. -/
def reviewer_node (state : AgentState) (mres : Except Str Str)
    (rf : Str → Except Str Str) (ts : Str) : Update :=
  match mres with
  | Except.error e => reviewerError e
  | Except.ok content =>
    let finish (msgs : List Msg) (reflection : Str) : Update :=
      { messages := msgs,
        memory := some (add_memory state (chars "assistant")
          (content.take 500) (some (chars "reviewer")) ts),
        reflection := some (if reflection ≠ [] then reflection
          else state.reflection),
        current_agent := some (chars "reviewer"),
        next_step := some (chars "supervisor") }
    match parse_json_action content with
    | none => finish [Msg.ai content] []
    | some j =>
      if jsonTruthy j then
        match j with
        | Json.obj m =>
          if jsonGetStr m (chars "action") = some (chars "finish") then
            finish [Msg.ai content]
              (chars "Review Verdict: " ++
                (jsonGetStr m (chars "verdict")).getD (chars "UNKNOWN") ++
                chars "\n" ++ (jsonGetStr m (chars "summary")).getD [])
          else if jsonGetStr m (chars "action") =
              some (chars "review_file") then
            match rf ((jsonGetStr m (chars "path")).getD []) with
            | Except.ok file_content =>
                finish [Msg.ai content,
                  Msg.human (chars "File for review (" ++
                    (jsonGetStr m (chars "path")).getD [] ++
                    chars "):\n" ++ file_content.take 2000)] []
            | Except.error e => reviewerError e
          else finish [Msg.ai content] []
        | _ => reviewerError attrGetError
      else finish [Msg.ai content] []

/-- AGENT_NODES of src/agent/nodes.py: the node registry, with the oracle
and clock arguments shared across nodes. -/
def AGENT_NODES (mres : Except Str Str) (rf : Str → Except Str Str)
    (runTool : Str → List (Str × Json) → Except Str Str)
    (dur : ℚ) (ts : Str) : List (Str × (AgentState → Update)) :=
  [(chars "supervisor", fun s => supervisor_node s mres),
   (chars "planner", fun s => planner_node s mres ts),
   (chars "researcher", fun s => researcher_node s mres rf ts),
   (chars "coder", fun s => coder_node s mres runTool dur ts),
   (chars "reviewer", fun s => reviewer_node s mres rf ts)]

/-! ### Claim C8 -/

/-- C8: ToolExecutor.execute appends exactly one log entry carrying the
name, input, duration, timestamp and its success flag regardless of
outcome; an unknown tool yields the Unknown-tool output with success
false; a raised collaborator exception is converted into a failure entry
carrying the message and does not propagate (the function is total); and
on a normal return success is true exactly when the output does not begin
with the reserved Error: marker, with the stored output truncated. -/
theorem claim_C8 (runTool : Str → List (Str × Json) → Except Str Str)
    (tool_name : Str) (tool_input : List (Str × Json)) (state : AgentState)
    (dur : ℚ) (ts : Str) :
    (∃ entry : ToolResult,
      (ToolExecutor_execute runTool tool_name tool_input state dur ts).2.2 =
        state.tool_results ++ [entry] ∧
      entry.tool_name = tool_name ∧ entry.input = tool_input ∧
      entry.success =
        (ToolExecutor_execute runTool tool_name tool_input state dur ts).2.1 ∧
      entry.execution_time_ms = dur ∧ entry.timestamp = ts) ∧
    (tool_name ∉ AVAILABLE_TOOLS →
      ToolExecutor_execute runTool tool_name tool_input state dur ts =
        (chars "Unknown tool: " ++ tool_name, false,
          state.tool_results ++
            [⟨tool_name, tool_input,
              (chars "Unknown tool: " ++ tool_name).take 1000, false,
              dur, ts⟩])) ∧
    (∀ e, tool_name ∈ AVAILABLE_TOOLS →
      runTool tool_name tool_input = Except.error e →
      ToolExecutor_execute runTool tool_name tool_input state dur ts =
        (chars "Tool execution error: " ++ e, false,
          state.tool_results ++
            [⟨tool_name, tool_input, chars "Tool execution error: " ++ e,
              false, dur, ts⟩])) ∧
    (∀ out, tool_name ∈ AVAILABLE_TOOLS →
      runTool tool_name tool_input = Except.ok out →
      ToolExecutor_execute runTool tool_name tool_input state dur ts =
        (out, !(chars "Error:").isPrefixOf out,
          state.tool_results ++
            [⟨tool_name, tool_input, out.take 1000,
              !(chars "Error:").isPrefixOf out, dur, ts⟩])) := by
  refine ⟨?_, ?_, ?_, ?_⟩
  · unfold ToolExecutor_execute add_tool_result
    by_cases hmem : tool_name ∈ AVAILABLE_TOOLS
    · rcases hrun : runTool tool_name tool_input with e | out
      · refine ⟨⟨tool_name, tool_input, chars "Tool execution error: " ++ e,
          false, dur, ts⟩, ?_, rfl, rfl, ?_, rfl, rfl⟩ <;> simp [hmem, hrun]
      · refine ⟨⟨tool_name, tool_input, out.take 1000,
          !(chars "Error:").isPrefixOf out, dur, ts⟩,
          ?_, rfl, rfl, ?_, rfl, rfl⟩ <;> simp [hmem, hrun]
    · refine ⟨⟨tool_name, tool_input,
        (chars "Unknown tool: " ++ tool_name).take 1000, false, dur, ts⟩,
        ?_, rfl, rfl, ?_, rfl, rfl⟩ <;> simp [hmem]
  · intro hmem
    unfold ToolExecutor_execute add_tool_result
    rw [if_pos hmem]
  · intro e hmem hrun
    unfold ToolExecutor_execute add_tool_result
    rw [if_neg (by simpa using hmem), hrun]
  · intro out hmem hrun
    unfold ToolExecutor_execute add_tool_result
    rw [if_neg (by simpa using hmem), hrun]

/-- Witness for C8: an unknown tool name is reported as unknown, denied
success, and still logged. -/
theorem claim_C8_witness :
    ToolExecutor_execute (fun _ _ => Except.ok []) (chars "unknown_tool") []
        stateOverCap 1 (chars "t") =
      (chars "Unknown tool: " ++ chars "unknown_tool", false,
        stateOverCap.tool_results ++
          [⟨chars "unknown_tool", [],
            (chars "Unknown tool: " ++ chars "unknown_tool").take 1000,
            false, 1, chars "t"⟩]) :=
  (claim_C8 (fun _ _ => Except.ok []) (chars "unknown_tool") [] stateOverCap
    1 (chars "t")).2.1 (by decide)

/-! ### Claim C3 -/

/-- A neutral concrete run state for the C3 counterexample. -/
def demoState3 : AgentState :=
  { messages := [], next_step := chars "supervisor", task := [],
    repo_map := [], current_agent := [], iteration_count := 1,
    max_iterations := 25, tool_results := [], memory := [], reflection := [],
    plan := none, error_context := none }

/-- Counterexample to C3 as stated: on a model exception the planner node
catches it and returns to supervisor, but it sets no error_context at all
(the same holds for researcher and reviewer; only coder sets one). -/
theorem claim_C3_counterexample :
    (planner_node demoState3 (Except.error (chars "boom"))
        (chars "t0")).next_step = some (chars "supervisor") ∧
    (planner_node demoState3 (Except.error (chars "boom"))
        (chars "t0")).error_context = none ∧
    (researcher_node demoState3 (Except.error (chars "boom"))
        (fun _ => Except.ok []) (chars "t0")).error_context = none ∧
    (reviewer_node demoState3 (Except.error (chars "boom"))
        (fun _ => Except.ok []) (chars "t0")).error_context = none :=
  ⟨rfl, rfl, rfl, rfl⟩

/-- C3 amended: every exception inside a worker node is caught, converted
into an appended error message, and control returns to supervisor; the
coder node alone also sets error_context with fatal false, while planner,
researcher and reviewer leave error_context unset. The supervisor on a
failed model call (after retries) returns FINISH with a non-fatal
error_context and still increments the iteration count. A collaborator
exception inside the researcher body (read_file during analyze_file) is
caught the same way. -/
theorem claim_C3 (state : AgentState) (e ts : Str)
    (rf : Str → Except Str Str)
    (runTool : Str → List (Str × Json) → Except Str Str) (dur : ℚ) :
    (planner_node state (Except.error e) ts =
      { messages := [Msg.ai (chars "Planning error: " ++ e)],
        current_agent := some (chars "planner"),
        next_step := some (chars "supervisor") }) ∧
    (researcher_node state (Except.error e) rf ts =
      { messages := [Msg.ai (chars "Research error: " ++ e)],
        current_agent := some (chars "researcher"),
        next_step := some (chars "supervisor") }) ∧
    (reviewer_node state (Except.error e) rf ts =
      { messages := [Msg.ai (chars "Review error: " ++ e)],
        current_agent := some (chars "reviewer"),
        next_step := some (chars "supervisor") }) ∧
    (coder_node state (Except.error e) runTool dur ts =
      { messages := [Msg.ai (chars "Implementation error: " ++ e)],
        current_agent := some (chars "coder"),
        next_step := some (chars "supervisor"),
        error_context := some ⟨chars "coder", e, false⟩ }) ∧
    (state.iteration_count < state.max_iterations →
      supervisor_node state (Except.error e) =
        { next_step := some (chars "FINISH"),
          iteration_count := some (state.iteration_count + 1),
          error_context := some ⟨chars "supervisor", e, false⟩ }) ∧
    (∀ content m,
      parse_json_action content = some (Json.obj m) →
      jsonGetStr m (chars "action") = some (chars "analyze_file") →
      rf ((jsonGetStr m (chars "path")).getD []) = Except.error e →
      researcher_node state (Except.ok content) rf ts =
        { messages := [Msg.ai (chars "Research error: " ++ e)],
          current_agent := some (chars "researcher"),
          next_step := some (chars "supervisor") }) := by
  refine ⟨rfl, rfl, rfl, rfl, ?_, ?_⟩
  · intro hlt
    unfold supervisor_node
    rw [if_neg (by omega)]
  · intro content m hparse haction hrf
    unfold researcher_node
    dsimp only
    rw [hparse]
    dsimp only
    have hm : m ≠ [] := by
      intro hnil
      rw [hnil] at haction
      simp [jsonGetStr, alookup] at haction
    have htr : jsonTruthy (Json.obj m) = true := by
      simp [jsonTruthy, hm]
    rw [htr]
    simp only [if_true]
    rw [haction]
    simp only [if_pos rfl]
    rw [hrf]
    simp [researcherError]

/-- A concrete response holding an analyze_file action, for the C3
witness. -/
def demoAnalyzeContent : Str :=
  lbrace :: chars "\"action\": \"analyze_file\", \"path\": \"x.py\"" ++
    [rbrace]

/-- Witness for C3 at concrete inputs: the supervisor case and the
researcher collaborator-exception case. -/
theorem claim_C3_witness :
    (supervisor_node demoState3 (Except.error (chars "down")) =
      { next_step := some (chars "FINISH"), iteration_count := some 2,
        error_context := some ⟨chars "supervisor", chars "down", false⟩ }) ∧
    (researcher_node demoState3 (Except.ok demoAnalyzeContent)
        (fun _ => Except.error (chars "io fail")) (chars "t0") =
      { messages := [Msg.ai (chars "Research error: " ++ chars "io fail")],
        current_agent := some (chars "researcher"),
        next_step := some (chars "supervisor") }) :=
  ⟨(claim_C3 demoState3 (chars "down") (chars "t0")
      (fun _ => Except.ok []) (fun _ _ => Except.ok []) 1).2.2.2.2.1
      (by decide),
   (claim_C3 demoState3 (chars "io fail") (chars "t0")
      (fun _ => Except.error (chars "io fail")) (fun _ _ => Except.ok [])
      1).2.2.2.2.2 demoAnalyzeContent
      [(chars "action", Json.str (chars "analyze_file")),
       (chars "path", Json.str (chars "x.py"))]
      (by rfl) (by rfl) (by rfl)⟩


/-! ### Claim C10 -/

/-- The routing decision always lands in the fixed role set. -/
theorem routeDecision_mem (content : Str) :
    routeDecision content ∈
      [chars "supervisor", chars "planner", chars "researcher",
       chars "coder", chars "reviewer", chars "FINISH"] := by
  unfold routeDecision
  dsimp only
  simp only [roleNames, firstRoleMatch]
  split_ifs <;> decide

/-- The per-update growth contract of a node: tool_results and memory only
extend the prior lists, the iteration count never decreases, and next_step
stays in the fixed role set. -/
def GrowthOk (state : AgentState) (u : Update) : Prop :=
  (∀ trs, u.tool_results = some trs →
    ∃ suffix, trs = state.tool_results ++ suffix) ∧
  (∀ mem, u.memory = some mem → ∃ suffix, mem = state.memory ++ suffix) ∧
  (∀ n, u.iteration_count = some n → state.iteration_count ≤ n) ∧
  (∀ ns, u.next_step = some ns →
    ns ∈ [chars "supervisor", chars "planner", chars "researcher",
          chars "coder", chars "reviewer", chars "FINISH"])

/-- The gateway only appends one entry to the log. -/
theorem execute_extends (runTool : Str → List (Str × Json) → Except Str Str)
    (a : Str) (m : List (Str × Json)) (state : AgentState) (dur : ℚ)
    (ts : Str) :
    ∃ suffix, (ToolExecutor_execute runTool a m state dur ts).2.2 =
      state.tool_results ++ suffix := by
  unfold ToolExecutor_execute add_tool_result
  split
  · exact ⟨_, rfl⟩
  · rcases runTool a m with e | out
    · exact ⟨_, rfl⟩
    · exact ⟨_, rfl⟩

/-- A worker exception update satisfies the growth contract: it touches
only messages, current_agent, next_step and error_context. -/
theorem growthOk_error_shape (state : AgentState) (msgs : List Msg)
    (ca : Option Str) (ec : Option ErrCtx) :
    GrowthOk state
      { messages := msgs, current_agent := ca,
        next_step := some (chars "supervisor"), error_context := ec } := by
  refine ⟨?_, ?_, ?_, ?_⟩
  · intro trs ht; exact nomatch ht
  · intro mem hm; exact nomatch hm
  · intro n hn; exact nomatch hn
  · intro ns hns
    injection hns with h
    rw [← h]; decide

/-- A worker normal-return update satisfies the growth contract whenever
its tool_results value extends the log: memory is append-only through
add_memory and next_step is supervisor. -/
theorem growthOk_worker_shape (state : AgentState) (msgs : List Msg)
    (role content : Str) (agent : Option Str) (ts : Str)
    (trsOpt : Option (List ToolResult)) (ca refl : Option Str)
    (htrs : ∀ trs, trsOpt = some trs →
      ∃ suffix, trs = state.tool_results ++ suffix) :
    GrowthOk state
      { messages := msgs,
        memory := some (add_memory state role content agent ts),
        tool_results := trsOpt, reflection := refl, current_agent := ca,
        next_step := some (chars "supervisor") } := by
  refine ⟨htrs, ?_, ?_, ?_⟩
  · intro mem hm
    injection hm with h
    exact ⟨_, h.symm⟩
  · intro n hn; exact nomatch hn
  · intro ns hns
    injection hns with h
    rw [← h]; decide

/-- Evidence that an unchanged log extends itself. -/
theorem extends_same (state : AgentState) :
    ∀ trs : List ToolResult, some state.tool_results = some trs →
      ∃ suffix, trs = state.tool_results ++ suffix := by
  intro trs ht
  injection ht with h
  exact ⟨[], by rw [← h, List.append_nil]⟩

/-- The supervisor node respects the growth contract. -/
theorem growthOk_supervisor (state : AgentState) (mres : Except Str Str) :
    GrowthOk state (supervisor_node state mres) := by
  unfold supervisor_node
  dsimp only
  by_cases hit : state.iteration_count ≥ state.max_iterations
  · rw [if_pos hit]
    refine ⟨?_, ?_, ?_, ?_⟩
    · intro trs ht; exact nomatch ht
    · intro mem hm; exact nomatch hm
    · intro n hn; injection hn with h; omega
    · intro ns hns; injection hns with h; rw [← h]; decide
  · rw [if_neg hit]
    rcases mres with e | content
    · refine ⟨?_, ?_, ?_, ?_⟩
      · intro trs ht; exact nomatch ht
      · intro mem hm; exact nomatch hm
      · intro n hn; injection hn with h; omega
      · intro ns hns; injection hns with h; rw [← h]; decide
    · refine ⟨?_, ?_, ?_, ?_⟩
      · intro trs ht; exact nomatch ht
      · intro mem hm; exact nomatch hm
      · intro n hn; injection hn with h; omega
      · intro ns hns
        injection hns with h
        rw [← h]
        exact routeDecision_mem content

/-- The planner node respects the growth contract. -/
theorem growthOk_planner (state : AgentState) (mres : Except Str Str)
    (ts : Str) : GrowthOk state (planner_node state mres ts) := by
  unfold planner_node
  rcases mres with e | content
  · exact growthOk_error_shape state _ _ none
  · refine ⟨?_, ?_, ?_, ?_⟩
    · intro trs ht; exact nomatch ht
    · intro mem hm
      injection hm with h
      exact ⟨_, h.symm⟩
    · intro n hn; exact nomatch hn
    · intro ns hns; injection hns with h; rw [← h]; decide

/-- The researcher node respects the growth contract. -/
theorem growthOk_researcher (state : AgentState) (mres : Except Str Str)
    (rf : Str → Except Str Str) (ts : Str) :
    GrowthOk state (researcher_node state mres rf ts) := by
  unfold researcher_node
  rcases mres with e | content
  · exact growthOk_error_shape state _ _ none
  · dsimp only
    split
    · exact growthOk_worker_shape state _ _ _ _ _ _ _ _ (extends_same state)
    · split
      · split
        · split
          · split
            · exact growthOk_worker_shape state _ _ _ _ _ _ _ _
                (extends_same state)
            · exact growthOk_error_shape state _ _ none
          · split
            · exact growthOk_worker_shape state _ _ _ _ _ _ _ _
                (extends_same state)
            · exact growthOk_worker_shape state _ _ _ _ _ _ _ _
                (extends_same state)
        · exact growthOk_error_shape state _ _ none
      · exact growthOk_worker_shape state _ _ _ _ _ _ _ _
          (extends_same state)

/-- The coder node respects the growth contract. -/
theorem growthOk_coder (state : AgentState) (mres : Except Str Str)
    (runTool : Str → List (Str × Json) → Except Str Str) (dur : ℚ)
    (ts : Str) : GrowthOk state (coder_node state mres runTool dur ts) := by
  unfold coder_node
  rcases mres with e | content
  · exact growthOk_error_shape state _ _ _
  · dsimp only
    split
    · exact growthOk_worker_shape state _ _ _ _ _ _ _ _ (extends_same state)
    · split
      · split
        · split
          · exact growthOk_worker_shape state _ _ _ _ _ _ _ _
              (extends_same state)
          · split
            · split
              · refine growthOk_worker_shape state _ _ _ _ _ _ _ _ ?_
                intro trs ht
                injection ht with h
                obtain ⟨suffix, hs⟩ := execute_extends runTool _ _ state dur ts
                exact ⟨suffix, by rw [← h, hs]⟩
              · exact growthOk_worker_shape state _ _ _ _ _ _ _ _
                  (extends_same state)
            · exact growthOk_worker_shape state _ _ _ _ _ _ _ _
                (extends_same state)
        · exact growthOk_error_shape state _ _ _
      · exact growthOk_worker_shape state _ _ _ _ _ _ _ _
          (extends_same state)

/-- The reviewer node respects the growth contract. -/
theorem growthOk_reviewer (state : AgentState) (mres : Except Str Str)
    (rf : Str → Except Str Str) (ts : Str) :
    GrowthOk state (reviewer_node state mres rf ts) := by
  unfold reviewer_node
  rcases mres with e | content
  · exact growthOk_error_shape state _ _ none
  · dsimp only
    split
    · exact growthOk_worker_shape state _ _ _ _ _ _ _ _ (fun _ ht => nomatch ht)
    · split
      · split
        · split
          · exact growthOk_worker_shape state _ _ _ _ _ _ _ _
              (fun _ ht => nomatch ht)
          · split
            · split
              · exact growthOk_worker_shape state _ _ _ _ _ _ _ _
                  (fun _ ht => nomatch ht)
              · exact growthOk_error_shape state _ _ none
            · exact growthOk_worker_shape state _ _ _ _ _ _ _ _
                (fun _ ht => nomatch ht)
        · exact growthOk_error_shape state _ _ none
      · exact growthOk_worker_shape state _ _ _ _ _ _ _ _
          (fun _ ht => nomatch ht)

/-- C10: every node of the registry only appends to tool_results and
memory, never decreases the iteration count, and sets next_step inside the
fixed role set; and the state helpers return the prior list with exactly
one new entry appended, leaving the prior list value untouched. -/
theorem claim_C10 :
    (∀ (mres : Except Str Str) (rf : Str → Except Str Str)
        (runTool : Str → List (Str × Json) → Except Str Str)
        (dur : ℚ) (ts : Str) (name : Str) (node : AgentState → Update)
        (state : AgentState),
      (name, node) ∈ AGENT_NODES mres rf runTool dur ts →
      GrowthOk state (node state)) ∧
    (∀ state tn ti out succ ms ts2,
      add_tool_result state tn ti out succ ms ts2 =
        state.tool_results ++ [⟨tn, ti, out, succ, ms, ts2⟩]) ∧
    (∀ state role content agent ts2,
      add_memory state role content agent ts2 =
        state.memory ++ [⟨role, content, ts2, agent⟩]) := by
  refine ⟨?_, fun _ _ _ _ _ _ _ => rfl, fun _ _ _ _ _ => rfl⟩
  intro mres rf runTool dur ts name node state hmem
  simp only [AGENT_NODES, List.mem_cons, List.not_mem_nil, or_false,
    Prod.mk.injEq] at hmem
  rcases hmem with ⟨-, rfl⟩ | ⟨-, rfl⟩ | ⟨-, rfl⟩ | ⟨-, rfl⟩ | ⟨-, rfl⟩
  · exact growthOk_supervisor state mres
  · exact growthOk_planner state mres ts
  · exact growthOk_researcher state mres rf ts
  · exact growthOk_coder state mres runTool dur ts
  · exact growthOk_reviewer state mres rf ts

/-- Witness for C10: the supervisor node drawn from the registry respects
the growth contract at a concrete state. -/
theorem claim_C10_witness :
    GrowthOk demoState3
      (supervisor_node demoState3 (Except.ok (chars "use the planner"))) :=
  claim_C10.1 (Except.ok (chars "use the planner")) (fun _ => Except.ok [])
    (fun _ _ => Except.ok []) 1 (chars "t") (chars "supervisor")
    (fun s => supervisor_node s (Except.ok (chars "use the planner")))
    demoState3 (by simp [AGENT_NODES])

/-! ### Claim C6 -/

/-- C6: the miss behavior of the claim fails on the code. The fenced block
tagged json is parsed and returned whatever JSON value it holds: on a
fenced array the function returns that array, although its own docstring
and annotation promise a dict or None. Genuinely free text still returns
none. -/
theorem claim_C6 :
    parse_json_action (chars "```json\n[1, 2]\n```") =
      some (Json.arr [Json.num 1, Json.num 2]) ∧
    parse_json_action (chars "plain text that is not an action") = none :=
  ⟨rfl, rfl⟩

/-! ### Claim C7: round trip machinery. Basic facts first. -/

/-- Skipping whitespace stops at a non-whitespace head. -/
theorem skipWs_cons_nonws {c : Char} (h : isJsonWs c = false) (s : Str) :
    skipWs (c :: s) = c :: s := by
  simp [skipWs, List.dropWhile_cons, h]

/-- Skipping whitespace passes a whitespace head. -/
theorem skipWs_cons_ws {c : Char} (h : isJsonWs c = true) (s : Str) :
    skipWs (c :: s) = skipWs s := by
  simp [skipWs, List.dropWhile_cons, h]

/-- The reader ignores a leading whitespace character. -/
theorem parseVal_cons_ws (fuel : Nat) {c : Char} (h : isJsonWs c = true)
    (s : Str) : parseVal fuel (c :: s) = parseVal fuel s := by
  cases fuel with
  | zero => rfl
  | succ f =>
    show parseVal (f + 1) (c :: s) = parseVal (f + 1) s
    unfold parseVal
    rw [skipWs_cons_ws h]

/-- A list is a Boolean prefix of itself extended by anything. -/
theorem isPrefixOf_append_self (xs rest : Str) :
    xs.isPrefixOf (xs ++ rest) = true :=
  List.isPrefixOf_iff_prefix.mpr ⟨rest, rfl⟩

/-- Stripping fixes a string with non-whitespace ends. -/
theorem pyStrip_eq_self {s : Str}
    (h1 : ∀ c, s.head? = some c → isPyWs c = false)
    (h2 : ∀ c, s.getLast? = some c → isPyWs c = false) :
    pyStrip s = s := by
  unfold pyStrip
  have hd : s.dropWhile isPyWs = s := by
    cases s with
    | nil => rfl
    | cons c t =>
      rw [List.dropWhile_cons, if_neg (by simp [h1 c rfl])]
  rw [hd]
  have hr : s.reverse.dropWhile isPyWs = s.reverse := by
    cases hrev : s.reverse with
    | nil => rfl
    | cons c t =>
      rw [List.dropWhile_cons, if_neg ?_]
      have : s.getLast? = some c := by
        rw [← List.head?_reverse, hrev]
        rfl
      simp [h2 c this]
  rw [hr, List.reverse_reverse]

/-- Stripping passes a leading whitespace character. -/
theorem pyStrip_cons_ws {c : Char} (h : isPyWs c = true) (s : Str) :
    pyStrip (c :: s) = pyStrip s := by
  unfold pyStrip
  rw [List.dropWhile_cons, if_pos (by simp [h])]

/-- On a string with a non-whitespace head, stripping yields a front
portion of the string. -/
theorem pyStrip_prefix_of_head {s : Str}
    (h1 : ∀ c, s.head? = some c → isPyWs c = false) :
    pyStrip s <+: s := by
  obtain ⟨p, q, hdec, hp, hq⟩ := strip_decomp s
  have hpnil : p = [] := by
    cases s with
    | nil =>
      cases p with
      | nil => rfl
      | cons a t => simp at hdec
    | cons c t =>
      cases p with
      | nil => rfl
      | cons a u =>
        have : a = c := by
          have := congrArg List.head? hdec
          simp at this
          exact this.symm
        have hws := hp a (List.mem_cons_self a u)
        rw [this] at hws
        rw [h1 c rfl] at hws
        cases hws
  rw [hpnil] at hdec
  simp only [List.nil_append] at hdec
  exact ⟨q, hdec.symm⟩

/-! ### Decimal digits -/

/-- The accumulator of natDigitsAux splits off. -/
theorem natDigitsAux_append (n : Nat) :
    ∀ acc, natDigitsAux n acc = natDigitsAux n [] ++ acc := by
  induction n using Nat.strong_induction_on with
  | _ n ih =>
    intro acc
    cases n with
    | zero => simp [natDigitsAux]
    | succ m =>
      rw [natDigitsAux, natDigitsAux]
      have hlt : (m + 1) / 10 < m + 1 :=
        Nat.div_lt_self (Nat.succ_pos m) (by norm_num)
      rw [ih _ hlt, ih _ hlt (Char.ofNat (48 + (m + 1) % 10) :: [])]
      simp

/-- The digit list of a positive number is nonempty. -/
theorem natDigitsAux_ne_nil {n : Nat} (h : n ≠ 0) :
    natDigitsAux n [] ≠ [] := by
  cases n with
  | zero => exact absurd rfl h
  | succ m =>
    rw [natDigitsAux, natDigitsAux_append]
    simp

/-- Digit characters produced by the serializer are decimal digits. -/
theorem digitChar_isDigit {d : Nat} (h : d < 10) :
    isDigitChar (Char.ofNat (48 + d)) = true := by
  interval_cases d <;> decide

/-- Every character of a digit list is a decimal digit. -/
theorem natDigitsAux_digits (n : Nat) :
    ∀ c ∈ natDigitsAux n [], isDigitChar c = true := by
  induction n using Nat.strong_induction_on with
  | _ n ih =>
    cases n with
    | zero => intro c hc; simp [natDigitsAux] at hc
    | succ m =>
      intro c hc
      rw [natDigitsAux, natDigitsAux_append] at hc
      rcases List.mem_append.mp hc with hc1 | hc2
      · exact ih _ (Nat.div_lt_self (Nat.succ_pos m) (by norm_num)) c hc1
      · have : c = Char.ofNat (48 + (m + 1) % 10) := by simpa using hc2
        rw [this]
        exact digitChar_isDigit (Nat.mod_lt _ (by norm_num))

/-- Value of a digit character produced by the serializer. -/
theorem digitChar_toNat {d : Nat} (h : d < 10) :
    (Char.ofNat (48 + d)).toNat = 48 + d := by
  interval_cases d <;> decide

/-- Folding digits over an appended tail. -/
theorem digitsToNat_append (xs ys : Str) :
    digitsToNat (xs ++ ys) =
      (ys.foldl (fun a c => 10 * a + (c.toNat - 48)) (digitsToNat xs)) := by
  simp [digitsToNat, List.foldl_append]

/-- The digit list of n evaluates back to n. -/
theorem digitsToNat_natDigitsAux (n : Nat) :
    digitsToNat (natDigitsAux n []) = n := by
  induction n using Nat.strong_induction_on with
  | _ n ih =>
    cases n with
    | zero => simp [natDigitsAux, digitsToNat]
    | succ m =>
      rw [natDigitsAux, natDigitsAux_append, digitsToNat_append]
      have hlt : (m + 1) / 10 < m + 1 :=
        Nat.div_lt_self (Nat.succ_pos m) (by norm_num)
      rw [ih _ hlt]
      simp only [List.foldl_cons, List.foldl_nil]
      rw [digitChar_toNat (Nat.mod_lt _ (by norm_num))]
      omega

/-- The leading digit of a positive number is not zero. -/
theorem natDigitsAux_head {n : Nat} (h : n ≠ 0) :
    ∀ c, (natDigitsAux n []).head? = some c → c ≠ '0' := by
  induction n using Nat.strong_induction_on with
  | _ n ih =>
    cases n with
    | zero => exact absurd rfl h
    | succ m =>
      intro c hc
      rw [natDigitsAux, natDigitsAux_append] at hc
      by_cases hq : (m + 1) / 10 = 0
      · rw [hq] at hc
        simp [natDigitsAux] at hc
        intro h0
        rw [h0] at hc
        have hm : (m + 1) % 10 ≠ 0 := by omega
        have := @digitChar_toNat ((m + 1) % 10) (Nat.mod_lt _ (by norm_num))
        rw [hc] at this
        have h48 : ('0' : Char).toNat = 48 := by decide
        rw [h48] at this
        omega
      · have hne := natDigitsAux_ne_nil hq
        rcases hh : natDigitsAux ((m + 1) / 10) [] with _ | ⟨d, ds⟩
        · exact absurd hh hne
        · rw [hh] at hc
          simp at hc
          refine ih _ (Nat.div_lt_self (Nat.succ_pos m) (by norm_num)) hq c ?_
          rw [hh, hc]
          rfl

/-! ### Size measures and tail forms of the serializer -/

mutual
/-- Structural size of a value, used as the fuel measure. -/
def jsize : Json → Nat
  | Json.null => 1
  | Json.bool _ => 1
  | Json.num _ => 1
  | Json.str _ => 1
  | Json.arr xs => 1 + asize xs
  | Json.obj ms => 1 + msize ms

/-- Size of an array's element list. -/
def asize : List Json → Nat
  | [] => 1
  | x :: rest => 1 + jsize x + asize rest

/-- Size of an object's member list. -/
def msize : List (Str × Json) → Nat
  | [] => 1
  | (_, v) :: rest => 1 + jsize v + msize rest
end

/-- Values have positive size. -/
theorem jsize_pos (v : Json) : 1 ≤ jsize v := by
  cases v <;> simp [jsize]

/-- Element lists have positive size. -/
theorem asize_pos (xs : List Json) : 1 ≤ asize xs := by
  cases xs <;> simp [asize] <;> omega

/-- Member lists have positive size. -/
theorem msize_pos (ms : List (Str × Json)) : 1 ≤ msize ms := by
  cases ms with
  | nil => simp [msize]
  | cons m rest => obtain ⟨k, v⟩ := m; simp [msize]; omega

/-- The serialization of the elements after the first: a comma-space
before each one. -/
def dumpArrTail : List Json → Str
  | [] => []
  | x :: rest => ',' :: ' ' :: dumpJson x ++ dumpArrTail rest

/-- The serialization of the members after the first. -/
def dumpObjTail : List (Str × Json) → Str
  | [] => []
  | (k, v) :: rest =>
      ',' :: ' ' :: dumpStr k ++ ':' :: ' ' :: dumpJson v ++ dumpObjTail rest

/-- A nonempty array dump is the first element followed by the tail
form. -/
theorem dumpArr_eq : ∀ (xs : List Json) (x : Json),
    dumpArr (x :: xs) = dumpJson x ++ dumpArrTail xs := by
  intro xs
  induction xs with
  | nil => intro x; simp [dumpArr, dumpArrTail]
  | cons y rest ih => intro x; simp [dumpArr, dumpArrTail, ih y]

/-- A nonempty object dump is the first member followed by the tail
form. -/
theorem dumpObj_eq : ∀ (ms : List (Str × Json)) (k : Str) (v : Json),
    dumpObj ((k, v) :: ms) = dumpStr k ++ ':' :: ' ' :: dumpJson v ++ dumpObjTail ms := by
  intro ms
  induction ms with
  | nil => intro k v; simp [dumpObj, dumpObjTail]
  | cons m rest ih =>
    obtain ⟨k2, v2⟩ := m
    intro k v
    simp [dumpObj, dumpObjTail, ih k2 v2]

/-- A tail that cannot extend a number token: its head is not a digit,
a decimal point or an exponent marker. -/
def safeTail (t : Str) : Prop :=
  ∀ c, t.head? = some c →
    isDigitChar c = false ∧ c ≠ '.' ∧ c ≠ 'e' ∧ c ≠ 'E'

/-- The empty tail is safe. -/
theorem safeTail_nil : safeTail [] := by
  intro c hc
  simp at hc

/-- A prefix of a safe tail is safe. -/
theorem safeTail_prefix {t q : Str} (h : safeTail t) (hp : q <+: t) :
    safeTail q := by
  intro c hc
  cases q with
  | nil => simp at hc
  | cons a q2 =>
    obtain ⟨r, hr⟩ := hp
    apply h
    rw [← hr]
    simpa using hc

/-- A tail led by the object-tail form then a closing brace is safe. -/
theorem safeTail_objTail (ms : List (Str × Json)) (t : Str) :
    safeTail (dumpObjTail ms ++ rbrace :: t) := by
  cases ms with
  | nil =>
    intro c hc
    simp [dumpObjTail, rbrace] at hc
    subst hc
    refine ⟨by decide, by decide, by decide, by decide⟩
  | cons m rest =>
    obtain ⟨k, v⟩ := m
    intro c hc
    simp [dumpObjTail] at hc
    subst hc
    refine ⟨by decide, by decide, by decide, by decide⟩

/-- A tail led by the array-tail form then a closing bracket is safe. -/
theorem safeTail_arrTail (xs : List Json) (t : Str) :
    safeTail (dumpArrTail xs ++ ']' :: t) := by
  cases xs with
  | nil =>
    intro c hc
    simp [dumpArrTail] at hc
    subst hc
    refine ⟨by decide, by decide, by decide, by decide⟩
  | cons x rest =>
    intro c hc
    simp [dumpArrTail] at hc
    subst hc
    refine ⟨by decide, by decide, by decide, by decide⟩

/-- A decimal digit is not whitespace and is none of the structural
characters of the grammar. -/
theorem digit_facts {c : Char} (h : isDigitChar c = true) :
    isJsonWs c = false ∧ c ≠ ']' ∧ c ≠ lbrace ∧ c ≠ '[' ∧ c ≠ '"' ∧
      c ≠ '-' ∧ c ≠ 't' ∧ c ≠ 'f' ∧ c ≠ 'n' := by
  simp [isDigitChar] at h
  obtain ⟨h1, h2⟩ := h
  constructor
  · rcases hw : isJsonWs c with _ | _
    · rfl
    · exfalso
      simp [isJsonWs] at hw
      rcases hw with ((rfl | rfl) | rfl) | rfl <;> revert h1 <;> decide
  refine ⟨?_, ?_, ?_, ?_, ?_, ?_, ?_, ?_⟩ <;>
    (intro he; subst he; revert h1 h2; decide)

/-- The dump of any value starts with a non-whitespace character that is
not a closing bracket. -/
theorem dump_head (v : Json) :
    ∃ c t, dumpJson v = c :: t ∧ isJsonWs c = false ∧ c ≠ ']' := by
  cases v with
  | null => exact ⟨'n', chars "ull", rfl, by decide, by decide⟩
  | bool b =>
    cases b with
    | true => exact ⟨'t', chars "rue", rfl, by decide, by decide⟩
    | false => exact ⟨'f', chars "alse", rfl, by decide, by decide⟩
  | str s => exact ⟨'"', _, rfl, by decide, by decide⟩
  | arr xs => exact ⟨'[', _, rfl, by decide, by decide⟩
  | obj ms => exact ⟨lbrace, _, rfl, by decide, by decide⟩
  | num n =>
    cases n with
    | negSucc m => exact ⟨'-', _, rfl, by decide, by decide⟩
    | ofNat m =>
      show ∃ c t, natChars m = c :: t ∧ _
      by_cases hm : m = 0
      · subst hm
        exact ⟨'0', [], rfl, by decide, by decide⟩
      · rcases hh : natDigitsAux m [] with _ | ⟨d, ds⟩
        · exact absurd hh (natDigitsAux_ne_nil hm)
        · have hd : isDigitChar d = true := by
            apply natDigitsAux_digits m
            rw [hh]
            exact List.mem_cons_self d ds
          obtain ⟨hw, hr, _⟩ := digit_facts hd
          exact ⟨d, ds, by simp [natChars, hm, hh], hw, hr⟩

/-- takeWhile and dropWhile across an all-true block followed by a
false-headed remainder. -/
theorem takeWhile_append_all {p : Char → Bool} :
    ∀ (xs : Str) {ys : Str}, (∀ c ∈ xs, p c = true) →
    (∀ c, ys.head? = some c → p c = false) →
    (xs ++ ys).takeWhile p = xs ∧ (xs ++ ys).dropWhile p = ys := by
  intro xs
  induction xs with
  | nil =>
    intro ys hx hy
    constructor
    · cases ys with
      | nil => rfl
      | cons c t => simp [List.takeWhile_cons, hy c rfl]
    · cases ys with
      | nil => rfl
      | cons c t => simp [List.dropWhile_cons, hy c rfl]
  | cons a xs ih =>
    intro ys hx hy
    have ha := hx a (List.mem_cons_self a xs)
    have hrec := ih (fun c hc => hx c (List.mem_cons_of_mem a hc)) hy
    simp [List.takeWhile_cons, List.dropWhile_cons, ha, hrec.1, hrec.2]

/-- The decimal form of a number is nonempty. -/
theorem natChars_ne_nil (m : Nat) : natChars m ≠ [] := by
  unfold natChars
  split
  · simp [chars]
  · exact natDigitsAux_ne_nil (by assumption)

/-- Every character of a decimal form is a digit. -/
theorem natChars_digits (m : Nat) : ∀ c ∈ natChars m, isDigitChar c = true := by
  intro c hc
  unfold natChars at hc
  split at hc
  · simp [chars] at hc
    subst hc
    decide
  · exact natDigitsAux_digits m c hc

/-- The decimal form evaluates back to the number. -/
theorem digitsToNat_natChars (m : Nat) : digitsToNat (natChars m) = m := by
  unfold natChars
  split
  · subst m
    decide
  · exact digitsToNat_natDigitsAux m

/-- The decimal form of a positive number does not start with zero. -/
theorem natChars_head_ne_zero {m : Nat} (h : m ≠ 0) :
    ∀ c, (natChars m).head? = some c → c ≠ '0' := by
  unfold natChars
  rw [if_neg h]
  exact natDigitsAux_head h

/-- Reading a number off its decimal form followed by a safe tail. -/
theorem parseNumber_natChars (m : Nat) (tail : Str) (ht : safeTail tail) :
    parseNumber (natChars m ++ tail) = some (m, tail) := by
  have hsplit := @takeWhile_append_all isDigitChar (natChars m) tail
    (natChars_digits m) (fun c hc => (ht c hc).1)
  unfold parseNumber
  simp only [hsplit.1, hsplit.2]
  rw [if_neg (natChars_ne_nil m)]
  have hz : ¬ ((natChars m).head? = some '0' ∧ 1 < (natChars m).length) := by
    by_cases hm : m = 0
    · subst hm
      intro hcon
      simp [natChars, chars] at hcon
    · intro hcon
      exact natChars_head_ne_zero hm '0' hcon.1 rfl
  rw [if_neg hz]
  have hr : ¬ (tail.head? = some '.' ∨ tail.head? = some 'e' ∨
      tail.head? = some 'E') := by
    intro hcon
    rcases hcon with hc | hc | hc
    · exact (ht _ hc).2.1 rfl
    · exact (ht _ hc).2.2.1 rfl
    · exact (ht _ hc).2.2.2 rfl
  rw [if_neg hr, digitsToNat_natChars]

/-- Reading a number off any front portion of a decimal form either
fails or consumes the whole portion. -/
theorem parseNumber_prefix (m : Nat) (p s2 : Str)
    (h : natChars m = p ++ s2) :
    parseNumber p = none ∨ ∃ k, parseNumber p = some (k, []) := by
  have hdig : ∀ c ∈ p, isDigitChar c = true := by
    intro c hc
    refine natChars_digits m c ?_
    rw [h]
    exact List.mem_append.mpr (Or.inl hc)
  have hsplit := @takeWhile_append_all isDigitChar p []
    hdig (by intro c hc; simp at hc)
  rw [List.append_nil] at hsplit
  unfold parseNumber
  simp only [hsplit.1, hsplit.2]
  split_ifs
  · exact Or.inl rfl
  · exact Or.inl rfl
  · exact Or.inl rfl
  · exact Or.inr ⟨digitsToNat p, rfl⟩

/-- Cutting an appended pair at an arbitrary point: the cut falls inside
the first part or inside the second. -/
theorem append_cut {A B p s2 : List Char} (h : A ++ B = p ++ s2) :
    (∃ m, A = p ++ m ∧ s2 = m ++ B) ∨ (∃ p2, p = A ++ p2 ∧ B = p2 ++ s2) := by
  rcases Nat.le_total p.length A.length with hle | hle
  · left
    have hpA : p <+: A := by
      have h1 : p <+: A ++ B := ⟨s2, h.symm⟩
      exact List.prefix_of_prefix_length_le h1 (List.prefix_append A B) hle
    obtain ⟨m, hm⟩ := hpA
    refine ⟨m, hm.symm, ?_⟩
    rw [← hm, List.append_assoc] at h
    exact (List.append_cancel_left h).symm
  · right
    have hAp : A <+: p := by
      have h1 : A <+: p ++ s2 := by
        rw [← h]
        exact List.prefix_append A B
      exact List.prefix_of_prefix_length_le h1 (List.prefix_append p s2) hle
    obtain ⟨p2, hp2⟩ := hAp
    refine ⟨p2, hp2.symm, ?_⟩
    rw [← hp2, List.append_assoc] at h
    exact List.append_cancel_left h

/-- A serializer hex digit reads back to its value. -/
theorem hexVal_hexDigit {d : Nat} (h : d < 16) :
    hexVal (hexDigit d) = some d := by
  interval_cases d <;> decide

/-- Reading a string body across one escaped character: the escape block
decodes to that character and the scan continues behind it. -/
theorem parseStrBody_escape (c : Char) (t : Str) :
    parseStrBody (escapeChar c ++ t) =
      (parseStrBody t).map (fun p => (c :: p.1, p.2)) := by
  by_cases h1 : c = '"'
  · subst h1
    cases hp : parseStrBody t with
    | none =>
      change parseStrBody ('\\' :: '"' :: t) = _
      unfold parseStrBody
      simp [unescapeChar, hp]
    | some pr =>
      obtain ⟨cs, r⟩ := pr
      change parseStrBody ('\\' :: '"' :: t) = _
      unfold parseStrBody
      simp [unescapeChar, hp]
  by_cases h2 : c = '\\'
  · subst h2
    cases hp : parseStrBody t with
    | none =>
      change parseStrBody ('\\' :: '\\' :: t) = _
      unfold parseStrBody
      simp [unescapeChar, hp]
    | some pr =>
      obtain ⟨cs, r⟩ := pr
      change parseStrBody ('\\' :: '\\' :: t) = _
      unfold parseStrBody
      simp [unescapeChar, hp]
  by_cases h3 : c = '\n'
  · subst h3
    cases hp : parseStrBody t with
    | none =>
      change parseStrBody ('\\' :: 'n' :: t) = _
      unfold parseStrBody
      simp [unescapeChar, hp]
    | some pr =>
      obtain ⟨cs, r⟩ := pr
      change parseStrBody ('\\' :: 'n' :: t) = _
      unfold parseStrBody
      simp [unescapeChar, hp]
  by_cases h4 : c = '\t'
  · subst h4
    cases hp : parseStrBody t with
    | none =>
      change parseStrBody ('\\' :: 't' :: t) = _
      unfold parseStrBody
      simp [unescapeChar, hp]
    | some pr =>
      obtain ⟨cs, r⟩ := pr
      change parseStrBody ('\\' :: 't' :: t) = _
      unfold parseStrBody
      simp [unescapeChar, hp]
  by_cases h5 : c = '\x0d'
  · subst h5
    cases hp : parseStrBody t with
    | none =>
      change parseStrBody ('\\' :: 'r' :: t) = _
      unfold parseStrBody
      simp [unescapeChar, hp]
    | some pr =>
      obtain ⟨cs, r⟩ := pr
      change parseStrBody ('\\' :: 'r' :: t) = _
      unfold parseStrBody
      simp [unescapeChar, hp]
  by_cases h6 : c = '\x08'
  · subst h6
    cases hp : parseStrBody t with
    | none =>
      change parseStrBody ('\\' :: 'b' :: t) = _
      unfold parseStrBody
      simp [unescapeChar, hp]
    | some pr =>
      obtain ⟨cs, r⟩ := pr
      change parseStrBody ('\\' :: 'b' :: t) = _
      unfold parseStrBody
      simp [unescapeChar, hp]
  by_cases h7 : c = '\x0c'
  · subst h7
    cases hp : parseStrBody t with
    | none =>
      change parseStrBody ('\\' :: 'f' :: t) = _
      unfold parseStrBody
      simp [unescapeChar, hp]
    | some pr =>
      obtain ⟨cs, r⟩ := pr
      change parseStrBody ('\\' :: 'f' :: t) = _
      unfold parseStrBody
      simp [unescapeChar, hp]
  by_cases h8 : c.toNat < 32
  · have hE : escapeChar c =
        ['\\', 'u', '0', '0', hexDigit (c.toNat / 16), hexDigit (c.toNat % 16)] := by
      simp [escapeChar, h1, h2, h3, h4, h5, h6, h7, h8]
    have hv1 : hexVal (hexDigit (c.toNat / 16)) = some (c.toNat / 16) :=
      hexVal_hexDigit (by omega)
    have hv2 : hexVal (hexDigit (c.toNat % 16)) = some (c.toNat % 16) :=
      hexVal_hexDigit (Nat.mod_lt _ (by norm_num))
    have hchar : Char.ofNat (c.toNat / 16 * 16 + c.toNat % 16) = c := by
      have harith : c.toNat / 16 * 16 + c.toNat % 16 = c.toNat := by omega
      rw [harith, Char.ofNat_toNat]
    rw [hE]
    have hv0 : hexVal '0' = some 0 := rfl
    cases hp : parseStrBody t with
    | none =>
      change parseStrBody ('\\' :: 'u' :: '0' :: '0' :: hexDigit (c.toNat / 16) ::
        hexDigit (c.toNat % 16) :: t) = _
      unfold parseStrBody
      simp [hv0, hv1, hv2, hp]
    | some pr =>
      obtain ⟨cs, r⟩ := pr
      change parseStrBody ('\\' :: 'u' :: '0' :: '0' :: hexDigit (c.toNat / 16) ::
        hexDigit (c.toNat % 16) :: t) = _
      unfold parseStrBody
      simp [hv0, hv1, hv2, hp, hchar]
  · have hE : escapeChar c = [c] := by
      simp [escapeChar, h1, h2, h3, h4, h5, h6, h7, h8]
    rw [hE]
    cases hp : parseStrBody t with
    | none =>
      change parseStrBody (c :: t) = _
      unfold parseStrBody
      simp [h1, h2, h8, hp]
    | some pr =>
      obtain ⟨cs, r⟩ := pr
      change parseStrBody (c :: t) = _
      unfold parseStrBody
      simp [h1, h2, h8, hp]

/-- Reading a string body off the serialized form recovers the string. -/
theorem parseStrBody_dump (s : Str) (t : Str) :
    parseStrBody ((s.map escapeChar).flatten ++ '"' :: t) = some (s, t) := by
  induction s with
  | nil =>
    show parseStrBody ('"' :: t) = some ([], t)
    unfold parseStrBody
    simp
  | cons c s ih =>
    simp only [List.map_cons, List.flatten_cons, List.append_assoc]
    rw [parseStrBody_escape, ih]
    rfl

/-- No front portion of an escape block reads as a string body. -/
theorem parseStrBody_escape_cut (c : Char) (p : Str)
    (hpre : p <+: escapeChar c) (hlt : p.length < (escapeChar c).length) :
    parseStrBody p = none := by
  have hp : p = (escapeChar c).take p.length := by
    obtain ⟨m, hm⟩ := hpre
    rw [← hm, List.take_left]
  by_cases h1 : c = '"'
  · subst h1
    rw [show escapeChar '"' = ['\\', '"'] from rfl] at hp hlt
    simp only [List.length_cons, List.length_nil] at hlt
    rw [hp]
    interval_cases h : p.length <;> rfl
  by_cases h2 : c = '\\'
  · subst h2
    rw [show escapeChar '\\' = ['\\', '\\'] from rfl] at hp hlt
    simp only [List.length_cons, List.length_nil] at hlt
    rw [hp]
    interval_cases h : p.length <;> rfl
  by_cases h3 : c = '\n'
  · subst h3
    rw [show escapeChar '\n' = ['\\', 'n'] from rfl] at hp hlt
    simp only [List.length_cons, List.length_nil] at hlt
    rw [hp]
    interval_cases h : p.length <;> rfl
  by_cases h4 : c = '\t'
  · subst h4
    rw [show escapeChar '\t' = ['\\', 't'] from rfl] at hp hlt
    simp only [List.length_cons, List.length_nil] at hlt
    rw [hp]
    interval_cases h : p.length <;> rfl
  by_cases h5 : c = '\x0d'
  · subst h5
    rw [show escapeChar '\x0d' = ['\\', 'r'] from rfl] at hp hlt
    simp only [List.length_cons, List.length_nil] at hlt
    rw [hp]
    interval_cases h : p.length <;> rfl
  by_cases h6 : c = '\x08'
  · subst h6
    rw [show escapeChar '\x08' = ['\\', 'b'] from rfl] at hp hlt
    simp only [List.length_cons, List.length_nil] at hlt
    rw [hp]
    interval_cases h : p.length <;> rfl
  by_cases h7 : c = '\x0c'
  · subst h7
    rw [show escapeChar '\x0c' = ['\\', 'f'] from rfl] at hp hlt
    simp only [List.length_cons, List.length_nil] at hlt
    rw [hp]
    interval_cases h : p.length <;> rfl
  by_cases h8 : c.toNat < 32
  · have hE : escapeChar c =
        ['\\', 'u', '0', '0', hexDigit (c.toNat / 16), hexDigit (c.toNat % 16)] := by
      simp [escapeChar, h1, h2, h3, h4, h5, h6, h7, h8]
    rw [hE] at hp hlt
    simp only [List.length_cons, List.length_nil] at hlt
    rw [hp]
    interval_cases h : p.length <;> rfl
  · have hE : escapeChar c = [c] := by
      simp [escapeChar, h1, h2, h3, h4, h5, h6, h7, h8]
    rw [hE] at hp hlt
    simp only [List.length_cons, List.length_nil] at hlt
    rw [hp]
    interval_cases h : p.length
    rfl

/-- A string body cut anywhere before its closing quote fails to read. -/
theorem parseStrBody_cut (s : Str) :
    ∀ (p s2 : Str), (s.map escapeChar).flatten ++ ['"'] = p ++ s2 →
    s2 ≠ [] → parseStrBody p = none := by
  induction s with
  | nil =>
    intro p s2 h h2
    cases p with
    | nil => rfl
    | cons a p2 =>
      simp at h
      exact absurd h.2.2 h2
  | cons c s ih =>
    intro p s2 h h2
    simp only [List.map_cons, List.flatten_cons, List.append_assoc] at h
    rcases append_cut h with ⟨m, hA, hs2⟩ | ⟨p2, hp, hB⟩
    · cases m with
      | nil =>
        rw [List.append_nil] at hA
        rw [← hA, ← List.append_nil (escapeChar c), parseStrBody_escape]
        rfl
      | cons b m2 =>
        refine parseStrBody_escape_cut c p ⟨b :: m2, hA.symm⟩ ?_
        rw [hA]
        simp
    · rw [hp, parseStrBody_escape, ih p2 s2 hB h2]
      rfl

/-- The reader fails on empty input. -/
theorem parseVal_nil : ∀ fuel, parseVal fuel [] = none
  | 0 => rfl
  | _ + 1 => rfl

/-- The member-tail reader fails on empty input. -/
theorem parseObjRest_nil : ∀ fuel, parseObjRest fuel [] = none
  | 0 => rfl
  | _ + 1 => rfl

/-- The element-tail reader fails on empty input. -/
theorem parseArrRest_nil : ∀ fuel, parseArrRest fuel [] = none
  | 0 => rfl
  | _ + 1 => rfl

/-- The member reader fails on empty input. -/
theorem parseObjItems_nil : ∀ fuel, parseObjItems fuel [] = none
  | 0 => rfl
  | _ + 1 => rfl

/-- The element reader fails on empty input. -/
theorem parseArrItems_nil : ∀ fuel, parseArrItems fuel [] = none
  | 0 => rfl
  | _ + 1 => rfl

/-- Reading the null literal. -/
theorem parseVal_null (f : Nat) (tail : Str) :
    parseVal (f + 1) (chars "null" ++ tail) = some (Json.null, tail) := by
  have h1 : chars "null" ++ tail = 'n' :: (chars "ull" ++ tail) := rfl
  rw [h1]
  unfold parseVal
  rw [skipWs_cons_nonws (by decide)]
  have hd : (chars "ull" ++ tail).drop 3 = tail := List.drop_left (chars "ull") tail
  simp [isPrefixOf_append_self, hd, show ¬ ('n' = lbrace) from by decide,
    show isDigitChar 'n' = false from by decide]

/-- Reading the true literal. -/
theorem parseVal_true (f : Nat) (tail : Str) :
    parseVal (f + 1) (chars "true" ++ tail) = some (Json.bool true, tail) := by
  have h1 : chars "true" ++ tail = 't' :: (chars "rue" ++ tail) := rfl
  rw [h1]
  unfold parseVal
  rw [skipWs_cons_nonws (by decide)]
  have hd : (chars "rue" ++ tail).drop 3 = tail := List.drop_left (chars "rue") tail
  simp [isPrefixOf_append_self, hd, show ¬ ('t' = lbrace) from by decide,
    show isDigitChar 't' = false from by decide]

/-- Reading the false literal. -/
theorem parseVal_false (f : Nat) (tail : Str) :
    parseVal (f + 1) (chars "false" ++ tail) = some (Json.bool false, tail) := by
  have h1 : chars "false" ++ tail = 'f' :: (chars "alse" ++ tail) := rfl
  rw [h1]
  unfold parseVal
  rw [skipWs_cons_nonws (by decide)]
  have hd : (chars "alse" ++ tail).drop 4 = tail := List.drop_left (chars "alse") tail
  simp [isPrefixOf_append_self, hd, show ¬ ('f' = lbrace) from by decide,
    show isDigitChar 'f' = false from by decide]

/-- Reading a nonnegative number off its decimal form. -/
theorem parseVal_num (f : Nat) (m : Nat) (tail : Str) (hst : safeTail tail) :
    parseVal (f + 1) (natChars m ++ tail) = some (Json.num (m : Int), tail) := by
  rcases hD : natChars m with _ | ⟨d, ds⟩
  · exact absurd hD (natChars_ne_nil m)
  have hdig : isDigitChar d = true := by
    apply natChars_digits m
    rw [hD]
    exact List.mem_cons_self d ds
  obtain ⟨hw, -, hlb, hlbk, hq, hmin, -, -, -⟩ := digit_facts hdig
  have hnum := parseNumber_natChars m tail hst
  rw [hD, List.cons_append] at hnum
  show parseVal (f + 1) (d :: (ds ++ tail)) = some (Json.num (m : Int), tail)
  unfold parseVal
  rw [skipWs_cons_nonws hw]
  simp [hlb, hlbk, hq, hmin, hdig, hnum]

/-- Reading a negative number. -/
theorem parseVal_negNum (f : Nat) (m : Nat) (tail : Str) (hst : safeTail tail) :
    parseVal (f + 1) (('-' :: natChars m) ++ tail) =
      some (Json.num (-(m : Int)), tail) := by
  rw [List.cons_append]
  unfold parseVal
  rw [skipWs_cons_nonws (by decide)]
  have hnum := parseNumber_natChars m tail hst
  simp [hnum, show ¬ ('-' = lbrace) from by decide,
    show isDigitChar '-' = false from by decide]

/-- Reading a string literal off its serialized form. -/
theorem parseVal_str (f : Nat) (s : Str) (tail : Str) :
    parseVal (f + 1) (dumpStr s ++ tail) = some (Json.str s, tail) := by
  have h1 : dumpStr s ++ tail =
      '"' :: ((s.map escapeChar).flatten ++ '"' :: tail) := by
    simp [dumpStr]
  rw [h1]
  unfold parseVal
  rw [skipWs_cons_nonws (by decide)]
  simp [parseStrBody_dump, show ¬ ('"' = lbrace) from by decide]

/-- A value starting with an opening brace reads as an object. -/
theorem parseVal_obj_red (f : Nat) (s : Str) :
    parseVal (f + 1) (lbrace :: s) = parseObjItems f s := by
  unfold parseVal
  rw [skipWs_cons_nonws (by decide)]
  simp

/-- A value starting with an opening bracket reads as an array. -/
theorem parseVal_arr_red (f : Nat) (s : Str) :
    parseVal (f + 1) ('[' :: s) = parseArrItems f s := by
  unfold parseVal
  rw [skipWs_cons_nonws (by decide)]
  simp [show ¬ ('[' = lbrace) from by decide]

/-- The member reader accepts an immediate closing brace. -/
theorem parseObjItems_close (f : Nat) (tail : Str) :
    parseObjItems (f + 1) (rbrace :: tail) = some (Json.obj [], tail) := by
  unfold parseObjItems
  rw [skipWs_cons_nonws (by decide)]
  simp

/-- The member-tail reader accepts an immediate closing brace. -/
theorem parseObjRest_close (f : Nat) (tail : Str) :
    parseObjRest (f + 1) (rbrace :: tail) = some ([], tail) := by
  unfold parseObjRest
  rw [skipWs_cons_nonws (by decide)]
  simp

/-- The element reader accepts an immediate closing bracket. -/
theorem parseArrItems_close (f : Nat) (tail : Str) :
    parseArrItems (f + 1) (']' :: tail) = some (Json.arr [], tail) := by
  unfold parseArrItems
  rw [skipWs_cons_nonws (by decide)]
  simp

/-- The element-tail reader accepts an immediate closing bracket. -/
theorem parseArrRest_close (f : Nat) (tail : Str) :
    parseArrRest (f + 1) (']' :: tail) = some ([], tail) := by
  unfold parseArrRest
  rw [skipWs_cons_nonws (by decide)]
  simp

/-- Round trip of the reader over the serializer: with fuel at least the
structural size, each entry point of the reader consumes exactly the
serialized form and returns the value, for any safe tail. -/
theorem roundTripAux : ∀ fuel : Nat,
    (∀ v tail, safeTail tail → jsize v ≤ fuel →
      parseVal fuel (dumpJson v ++ tail) = some (v, tail)) ∧
    (∀ ms tail, msize ms ≤ fuel →
      parseObjItems fuel (dumpObj ms ++ rbrace :: tail) = some (Json.obj ms, tail)) ∧
    (∀ ms tail, msize ms ≤ fuel →
      parseObjRest fuel (dumpObjTail ms ++ rbrace :: tail) = some (ms, tail)) ∧
    (∀ xs tail, asize xs ≤ fuel →
      parseArrItems fuel (dumpArr xs ++ ']' :: tail) = some (Json.arr xs, tail)) ∧
    (∀ xs tail, asize xs ≤ fuel →
      parseArrRest fuel (dumpArrTail xs ++ ']' :: tail) = some (xs, tail)) := by
  intro fuel
  induction fuel using Nat.strong_induction_on with
  | _ fuel ih =>
    cases fuel with
    | zero =>
      refine ⟨?_, ?_, ?_, ?_, ?_⟩
      · intro v tail _ hsz
        exact absurd hsz (by have := jsize_pos v; omega)
      · intro ms tail hsz
        exact absurd hsz (by have := msize_pos ms; omega)
      · intro ms tail hsz
        exact absurd hsz (by have := msize_pos ms; omega)
      · intro xs tail hsz
        exact absurd hsz (by have := asize_pos xs; omega)
      · intro xs tail hsz
        exact absurd hsz (by have := asize_pos xs; omega)
    | succ f =>
      obtain ⟨ihV, ihO, ihR, ihA, ihB⟩ := ih f (Nat.lt_succ_self f)
      refine ⟨?_, ?_, ?_, ?_, ?_⟩
      · intro v tail hst hsz
        cases v with
        | null =>
          rw [show dumpJson Json.null = chars "null" from by simp [dumpJson]]
          exact parseVal_null f tail
        | bool b =>
          cases b with
          | true =>
            rw [show dumpJson (Json.bool true) = chars "true" from by
              simp [dumpJson]]
            exact parseVal_true f tail
          | false =>
            rw [show dumpJson (Json.bool false) = chars "false" from by
              simp [dumpJson]]
            exact parseVal_false f tail
        | num n =>
          cases n with
          | ofNat m =>
            rw [show dumpJson (Json.num (Int.ofNat m)) = natChars m from by
              simp [dumpJson, intChars]]
            exact parseVal_num f m tail hst
          | negSucc m =>
            rw [show dumpJson (Json.num (Int.negSucc m)) =
                '-' :: natChars (m + 1) from by simp [dumpJson, intChars]]
            rw [parseVal_negNum f (m + 1) tail hst]
            have hval : (-((m + 1 : Nat) : Int)) = Int.negSucc m := by
              rw [Int.negSucc_eq]
              push_cast
              ring
            rw [hval]
        | str s =>
          rw [show dumpJson (Json.str s) = dumpStr s from by simp [dumpJson]]
          exact parseVal_str f s tail
        | obj ms =>
          have hD : dumpJson (Json.obj ms) ++ tail =
              lbrace :: (dumpObj ms ++ rbrace :: tail) := by
            simp [dumpJson]
          rw [hD, parseVal_obj_red]
          refine ihO ms tail ?_
          have h1 : jsize (Json.obj ms) = 1 + msize ms := by simp [jsize]
          omega
        | arr xs =>
          have hD : dumpJson (Json.arr xs) ++ tail =
              '[' :: (dumpArr xs ++ ']' :: tail) := by
            simp [dumpJson]
          rw [hD, parseVal_arr_red]
          refine ihA xs tail ?_
          have h1 : jsize (Json.arr xs) = 1 + asize xs := by simp [jsize]
          omega
      · intro ms tail hsz
        cases ms with
        | nil =>
          rw [show dumpObj ([] : List (Str × Json)) = [] from by simp [dumpObj],
            List.nil_append]
          exact parseObjItems_close f tail
        | cons kv rest =>
          obtain ⟨k, v⟩ := kv
          have hszEq : msize ((k, v) :: rest) = 1 + jsize v + msize rest := by
            simp [msize]
          have hjv : jsize v ≤ f := by
            have := msize_pos rest
            omega
          have hmr : msize rest ≤ f := by
            have := jsize_pos v
            omega
          have harr : dumpObj ((k, v) :: rest) ++ rbrace :: tail =
              '"' :: ((k.map escapeChar).flatten ++ '"' ::
                (':' :: (' ' :: (dumpJson v ++
                  (dumpObjTail rest ++ rbrace :: tail))))) := by
            rw [dumpObj_eq]
            simp [dumpStr]
          rw [harr]
          unfold parseObjItems
          rw [skipWs_cons_nonws (by decide)]
          dsimp only
          rw [if_neg (show ¬ ('"' = rbrace) from by decide), if_pos rfl]
          rw [parseStrBody_dump k
            (':' :: (' ' :: (dumpJson v ++ (dumpObjTail rest ++ rbrace :: tail))))]
          dsimp only
          rw [skipWs_cons_nonws (by decide)]
          dsimp only
          rw [if_pos rfl]
          rw [parseVal_cons_ws f (by decide)]
          rw [ihV v (dumpObjTail rest ++ rbrace :: tail)
            (safeTail_objTail rest tail) hjv]
          dsimp only
          rw [ihR rest tail hmr]
      · intro ms tail hsz
        cases ms with
        | nil =>
          rw [show dumpObjTail ([] : List (Str × Json)) = [] from rfl,
            List.nil_append]
          exact parseObjRest_close f tail
        | cons kv rest =>
          obtain ⟨k, v⟩ := kv
          have hszEq : msize ((k, v) :: rest) = 1 + jsize v + msize rest := by
            simp [msize]
          have hjv : jsize v ≤ f := by
            have := msize_pos rest
            omega
          have hmr : msize rest ≤ f := by
            have := jsize_pos v
            omega
          have harr : dumpObjTail ((k, v) :: rest) ++ rbrace :: tail =
              ',' :: (' ' :: ('"' :: ((k.map escapeChar).flatten ++ '"' ::
                (':' :: (' ' :: (dumpJson v ++
                  (dumpObjTail rest ++ rbrace :: tail))))))) := by
            simp [dumpObjTail, dumpStr]
          rw [harr]
          unfold parseObjRest
          rw [skipWs_cons_nonws (by decide)]
          dsimp only
          rw [if_neg (show ¬ (',' = rbrace) from by decide), if_pos rfl]
          rw [skipWs_cons_ws (by decide), skipWs_cons_nonws (by decide)]
          dsimp only
          rw [if_pos rfl]
          rw [parseStrBody_dump k
            (':' :: (' ' :: (dumpJson v ++ (dumpObjTail rest ++ rbrace :: tail))))]
          dsimp only
          rw [skipWs_cons_nonws (by decide)]
          dsimp only
          rw [if_pos rfl]
          rw [parseVal_cons_ws f (by decide)]
          rw [ihV v (dumpObjTail rest ++ rbrace :: tail)
            (safeTail_objTail rest tail) hjv]
          dsimp only
          rw [ihR rest tail hmr]
      · intro xs tail hsz
        cases xs with
        | nil =>
          rw [show dumpArr ([] : List Json) = [] from by simp [dumpArr],
            List.nil_append]
          exact parseArrItems_close f tail
        | cons x rest =>
          have hszEq : asize (x :: rest) = 1 + jsize x + asize rest := by
            simp [asize]
          have hjx : jsize x ≤ f := by
            have := asize_pos rest
            omega
          have har : asize rest ≤ f := by
            have := jsize_pos x
            omega
          obtain ⟨c0, t0, hd0, hw0, hnb0⟩ := dump_head x
          have harr : dumpArr (x :: rest) ++ ']' :: tail =
              c0 :: (t0 ++ (dumpArrTail rest ++ ']' :: tail)) := by
            rw [dumpArr_eq, hd0]
            simp
          rw [harr]
          unfold parseArrItems
          rw [skipWs_cons_nonws hw0]
          dsimp only
          rw [if_neg hnb0]
          rw [show c0 :: (t0 ++ (dumpArrTail rest ++ ']' :: tail)) =
              dumpJson x ++ (dumpArrTail rest ++ ']' :: tail) from by
            rw [hd0]; simp]
          rw [ihV x (dumpArrTail rest ++ ']' :: tail)
            (safeTail_arrTail rest tail) hjx]
          dsimp only
          rw [ihB rest tail har]
      · intro xs tail hsz
        cases xs with
        | nil =>
          rw [show dumpArrTail ([] : List Json) = [] from rfl, List.nil_append]
          exact parseArrRest_close f tail
        | cons x rest =>
          have hszEq : asize (x :: rest) = 1 + jsize x + asize rest := by
            simp [asize]
          have hjx : jsize x ≤ f := by
            have := asize_pos rest
            omega
          have har : asize rest ≤ f := by
            have := jsize_pos x
            omega
          have harr : dumpArrTail (x :: rest) ++ ']' :: tail =
              ',' :: (' ' :: (dumpJson x ++ (dumpArrTail rest ++ ']' :: tail))) := by
            simp [dumpArrTail]
          rw [harr]
          unfold parseArrRest
          rw [skipWs_cons_nonws (by decide)]
          dsimp only
          rw [if_neg (show ¬ (',' = ']') from by decide), if_pos rfl]
          rw [parseVal_cons_ws f (by decide)]
          rw [ihV x (dumpArrTail rest ++ ']' :: tail)
            (safeTail_arrTail rest tail) hjx]
          dsimp only
          rw [ihB rest tail har]

set_option maxHeartbeats 1600000 in
/-- Success of the reader is monotone in the fuel: a successful parse at
some fuel is unchanged with one more unit. -/
theorem parseMono : ∀ fuel : Nat,
    (∀ s x, parseVal fuel s = some x → parseVal (fuel + 1) s = some x) ∧
    (∀ s x, parseArrItems fuel s = some x → parseArrItems (fuel + 1) s = some x) ∧
    (∀ s x, parseArrRest fuel s = some x → parseArrRest (fuel + 1) s = some x) ∧
    (∀ s x, parseObjItems fuel s = some x → parseObjItems (fuel + 1) s = some x) ∧
    (∀ s x, parseObjRest fuel s = some x → parseObjRest (fuel + 1) s = some x) := by
  intro fuel
  induction fuel using Nat.strong_induction_on with
  | _ fuel ih =>
    cases fuel with
    | zero =>
      refine ⟨?_, ?_, ?_, ?_, ?_⟩ <;> (intro s x h; simp [parseVal, parseArrItems,
        parseArrRest, parseObjItems, parseObjRest] at h)
    | succ f =>
      obtain ⟨mV, mAI, mAR, mOI, mOR⟩ := ih f (Nat.lt_succ_self f)
      refine ⟨?_, ?_, ?_, ?_, ?_⟩
      · intro s x h
        unfold parseVal at h ⊢
        cases hs : skipWs s with
        | nil => rw [hs] at h; simp at h
        | cons c rest =>
          rw [hs] at h
          dsimp only at h ⊢
          split_ifs at h ⊢ with h1 h2 h3 h4 h5 h6 h7 h8
          · exact mOI rest x h
          · exact mAI rest x h
          all_goals exact h
      · intro s x h
        unfold parseArrItems at h ⊢
        cases hs : skipWs s with
        | nil => rw [hs] at h; simp at h
        | cons c rest =>
          rw [hs] at h
          dsimp only at h ⊢
          split_ifs at h ⊢ with h1
          · exact h
          · cases hv : parseVal f (c :: rest) with
            | none => rw [hv] at h; simp at h
            | some vr =>
              obtain ⟨v, r⟩ := vr
              rw [hv] at h
              rw [mV _ _ hv]
              dsimp only at h ⊢
              cases hr : parseArrRest f r with
              | none => rw [hr] at h; simp at h
              | some lr =>
                obtain ⟨vs, r1⟩ := lr
                rw [hr] at h
                rw [mAR _ _ hr]
                exact h
      · intro s x h
        unfold parseArrRest at h ⊢
        cases hs : skipWs s with
        | nil => rw [hs] at h; simp at h
        | cons c rest =>
          rw [hs] at h
          dsimp only at h ⊢
          split_ifs at h ⊢ with h1 h2
          · exact h
          · cases hv : parseVal f rest with
            | none => rw [hv] at h; simp at h
            | some vr =>
              obtain ⟨v, r⟩ := vr
              rw [hv] at h
              rw [mV _ _ hv]
              dsimp only at h ⊢
              cases hr : parseArrRest f r with
              | none => rw [hr] at h; simp at h
              | some lr =>
                obtain ⟨vs, r1⟩ := lr
                rw [hr] at h
                rw [mAR _ _ hr]
                exact h
      · intro s x h
        unfold parseObjItems at h ⊢
        cases hs : skipWs s with
        | nil => rw [hs] at h; simp at h
        | cons c rest =>
          rw [hs] at h
          dsimp only at h ⊢
          split_ifs at h ⊢ with h1 h2
          · exact h
          · cases hp : parseStrBody rest with
            | none => rw [hp] at h; simp at h
            | some kr =>
              obtain ⟨k, r⟩ := kr
              rw [hp] at h
              dsimp only at h ⊢
              cases hs2 : skipWs r with
              | nil => rw [hs2] at h; simp at h
              | cons c2 r1 =>
                rw [hs2] at h
                dsimp only at h ⊢
                split_ifs at h ⊢ with h3
                cases hv : parseVal f r1 with
                | none => rw [hv] at h; simp at h
                | some vr =>
                  obtain ⟨v, r2⟩ := vr
                  rw [hv] at h
                  rw [mV _ _ hv]
                  dsimp only at h ⊢
                  cases hr : parseObjRest f r2 with
                  | none => rw [hr] at h; simp at h
                  | some mr =>
                    obtain ⟨ms, r3⟩ := mr
                    rw [hr] at h
                    rw [mOR _ _ hr]
                    exact h
      · intro s x h
        unfold parseObjRest at h ⊢
        cases hs : skipWs s with
        | nil => rw [hs] at h; simp at h
        | cons c rest =>
          rw [hs] at h
          dsimp only at h ⊢
          split_ifs at h ⊢ with h1 h2
          · exact h
          · cases hs2 : skipWs rest with
            | nil => rw [hs2] at h; simp at h
            | cons c2 r =>
              rw [hs2] at h
              dsimp only at h ⊢
              split_ifs at h ⊢ with h3
              cases hp : parseStrBody r with
              | none => rw [hp] at h; simp at h
              | some kr =>
                obtain ⟨k, r1⟩ := kr
                rw [hp] at h
                dsimp only at h ⊢
                cases hs3 : skipWs r1 with
                | nil => rw [hs3] at h; simp at h
                | cons c3 r2 =>
                  rw [hs3] at h
                  dsimp only at h ⊢
                  split_ifs at h ⊢ with h4
                  cases hv : parseVal f r2 with
                  | none => rw [hv] at h; simp at h
                  | some vr =>
                    obtain ⟨v, r3⟩ := vr
                    rw [hv] at h
                    rw [mV _ _ hv]
                    dsimp only at h ⊢
                    cases hr : parseObjRest f r3 with
                    | none => rw [hr] at h; simp at h
                    | some mr =>
                      obtain ⟨ms, r4⟩ := mr
                      rw [hr] at h
                      rw [mOR _ _ hr]
                      exact h

/-- Fuel monotonicity of the value reader, arbitrary increase. -/
theorem parseValMonoLe {f g : Nat} (h : f ≤ g) :
    ∀ s x, parseVal f s = some x → parseVal g s = some x := by
  intro s x hx
  induction g, h using Nat.le_induction with
  | base => exact hx
  | succ g hg ihg => exact (parseMono g).1 s x ihg

/-- Fuel monotonicity of the element-tail reader, arbitrary increase. -/
theorem parseArrRestMonoLe {f g : Nat} (h : f ≤ g) :
    ∀ s x, parseArrRest f s = some x → parseArrRest g s = some x := by
  intro s x hx
  induction g, h using Nat.le_induction with
  | base => exact hx
  | succ g hg ihg => exact (parseMono g).2.2.1 s x ihg

/-- Fuel monotonicity of the member-tail reader, arbitrary increase. -/
theorem parseObjRestMonoLe {f g : Nat} (h : f ≤ g) :
    ∀ s x, parseObjRest f s = some x → parseObjRest g s = some x := by
  intro s x hx
  induction g, h using Nat.le_induction with
  | base => exact hx
  | succ g hg ihg => exact (parseMono g).2.2.2.2 s x ihg

/-- At any fuel, the value reader on a serialized value with a safe tail
either fails or returns exactly that value and tail. -/
theorem parseVal_dump_cases (fuel : Nat) (v : Json) (tail : Str)
    (hst : safeTail tail) :
    parseVal fuel (dumpJson v ++ tail) = none ∨
    parseVal fuel (dumpJson v ++ tail) = some (v, tail) := by
  cases hx : parseVal fuel (dumpJson v ++ tail) with
  | none => exact Or.inl rfl
  | some x =>
    right
    have h2 := parseValMonoLe (Nat.le_max_left fuel (jsize v)) _ _ hx
    have h3 := (roundTripAux (max fuel (jsize v))).1 v tail hst
      (Nat.le_max_right _ _)
    exact h2.symm.trans h3

/-- At any fuel, the member-tail reader on a serialized member tail
either fails or returns exactly those members and the tail. -/
theorem parseObjRest_dump_cases (fuel : Nat) (ms : List (Str × Json))
    (tail : Str) :
    parseObjRest fuel (dumpObjTail ms ++ rbrace :: tail) = none ∨
    parseObjRest fuel (dumpObjTail ms ++ rbrace :: tail) = some (ms, tail) := by
  cases hx : parseObjRest fuel (dumpObjTail ms ++ rbrace :: tail) with
  | none => exact Or.inl rfl
  | some x =>
    right
    have h2 := parseObjRestMonoLe (Nat.le_max_left fuel (msize ms)) _ _ hx
    have h3 := (roundTripAux (max fuel (msize ms))).2.2.1 ms tail
      (Nat.le_max_right _ _)
    exact h2.symm.trans h3

/-- At any fuel, the element-tail reader on a serialized element tail
either fails or returns exactly those elements and the tail. -/
theorem parseArrRest_dump_cases (fuel : Nat) (xs : List Json) (tail : Str) :
    parseArrRest fuel (dumpArrTail xs ++ ']' :: tail) = none ∨
    parseArrRest fuel (dumpArrTail xs ++ ']' :: tail) = some (xs, tail) := by
  cases hx : parseArrRest fuel (dumpArrTail xs ++ ']' :: tail) with
  | none => exact Or.inl rfl
  | some x =>
    right
    have h2 := parseArrRestMonoLe (Nat.le_max_left fuel (asize xs)) _ _ hx
    have h3 := (roundTripAux (max fuel (asize xs))).2.2.2.2 xs tail
      (Nat.le_max_right _ _)
    exact h2.symm.trans h3

/-- Serialized values are nonempty. -/
theorem dumpJson_len_pos (v : Json) : 1 ≤ (dumpJson v).length := by
  obtain ⟨c, t, hd, -, -⟩ := dump_head v
  rw [hd]
  simp

/-- The structural size is at most twice the serialized length, so the
fuel supplied by the loader always suffices. -/
theorem sizeLen : ∀ n : Nat,
    (∀ v, jsize v ≤ n → jsize v ≤ 2 * (dumpJson v).length) ∧
    (∀ xs, asize xs ≤ n → asize xs ≤ 2 * (dumpArr xs).length + 2) ∧
    (∀ ms, msize ms ≤ n → msize ms ≤ 2 * (dumpObj ms).length + 2) := by
  intro n
  induction n using Nat.strong_induction_on with
  | _ n ih =>
    refine ⟨?_, ?_, ?_⟩
    · intro v hv
      cases v with
      | null =>
        have h1 := dumpJson_len_pos Json.null
        simp [jsize]
        omega
      | bool b =>
        have h1 := dumpJson_len_pos (Json.bool b)
        simp [jsize]
        omega
      | num n2 =>
        have h1 := dumpJson_len_pos (Json.num n2)
        simp [jsize]
        omega
      | str s =>
        have h1 := dumpJson_len_pos (Json.str s)
        simp [jsize]
        omega
      | arr xs =>
        have hsz : jsize (Json.arr xs) = 1 + asize xs := by simp [jsize]
        have hlt : asize xs < n := by omega
        have hIH := (ih (asize xs) hlt).2.1 xs (le_refl _)
        have hd : dumpJson (Json.arr xs) = '[' :: dumpArr xs ++ [']'] := by
          simp [dumpJson]
        rw [hd, hsz]
        simp
        omega
      | obj ms =>
        have hsz : jsize (Json.obj ms) = 1 + msize ms := by simp [jsize]
        have hlt : msize ms < n := by omega
        have hIH := (ih (msize ms) hlt).2.2 ms (le_refl _)
        have hd : dumpJson (Json.obj ms) = lbrace :: dumpObj ms ++ [rbrace] := by
          simp [dumpJson]
        rw [hd, hsz]
        simp
        omega
    · intro xs hxs
      cases xs with
      | nil =>
        have h : asize ([] : List Json) = 1 := by simp [asize]
        have hd : dumpArr ([] : List Json) = [] := by simp [dumpArr]
        rw [h, hd]
        simp
      | cons x r =>
        have hsz : asize (x :: r) = 1 + jsize x + asize r := by simp [asize]
        have hltx : jsize x < n := by
          have := asize_pos r
          omega
        have hIHx := (ih (jsize x) hltx).1 x (le_refl _)
        cases r with
        | nil =>
          have hd : dumpArr [x] = dumpJson x := by simp [dumpArr]
          have h2 : asize [x] = 1 + jsize x + 1 := by simp [asize]
          rw [hd, h2]
          omega
        | cons y r2 =>
          have hd : dumpArr (x :: y :: r2) =
              dumpJson x ++ ',' :: ' ' :: dumpArr (y :: r2) := by
            simp [dumpArr]
          have hltr : asize (y :: r2) < n := by
            have := jsize_pos x
            omega
          have hIHr := (ih (asize (y :: r2)) hltr).2.1 (y :: r2) (le_refl _)
          rw [hd, hsz]
          simp
          omega
    · intro ms hms
      cases ms with
      | nil =>
        have h : msize ([] : List (Str × Json)) = 1 := by simp [msize]
        have hd : dumpObj ([] : List (Str × Json)) = [] := by simp [dumpObj]
        rw [h, hd]
        simp
      | cons kv r =>
        obtain ⟨k, v⟩ := kv
        have hsz : msize ((k, v) :: r) = 1 + jsize v + msize r := by simp [msize]
        have hltv : jsize v < n := by
          have := msize_pos r
          omega
        have hIHv := (ih (jsize v) hltv).1 v (le_refl _)
        cases r with
        | nil =>
          have hd : dumpObj [(k, v)] = dumpStr k ++ ':' :: ' ' :: dumpJson v := by
            simp [dumpObj]
          have h2 : msize [(k, v)] = 1 + jsize v + 1 := by simp [msize]
          rw [hd, h2]
          simp
          omega
        | cons m2 r2 =>
          have hd : dumpObj ((k, v) :: m2 :: r2) =
              dumpStr k ++ ':' :: ' ' :: dumpJson v ++
                ',' :: ' ' :: dumpObj (m2 :: r2) := by
            simp [dumpObj]
          have hltr : msize (m2 :: r2) < n := by
            have := jsize_pos v
            omega
          have hIHr := (ih (msize (m2 :: r2)) hltr).2.2 (m2 :: r2) (le_refl _)
          rw [hd, hsz]
          simp
          omega

/-- The loader recovers any serialized value. -/
theorem jsonLoads_dump (v : Json) : jsonLoads (dumpJson v) = some v := by
  unfold jsonLoads
  have hsz : jsize v ≤ 2 * (dumpJson v).length + 2 := by
    have := (sizeLen (jsize v)).1 v (le_refl _)
    omega
  have h1 : parseVal (2 * (dumpJson v).length + 2) (dumpJson v ++ []) =
      some (v, []) := (roundTripAux _).1 v [] safeTail_nil hsz
  rw [List.append_nil] at h1
  rw [h1]
  rfl

/-- Truncation: the reader fails (or, for a bare value, consumes its
whole input) on every strict front portion of a serialized form, at any
fuel. -/
theorem truncAux : ∀ fuel : Nat,
    (∀ v p s2, dumpJson v = p ++ s2 → s2 ≠ [] →
      parseVal fuel p = none ∨ ∃ u, parseVal fuel p = some (u, [])) ∧
    (∀ ms p s2, dumpObj ms ++ [rbrace] = p ++ s2 → s2 ≠ [] →
      parseObjItems fuel p = none) ∧
    (∀ ms p s2, dumpObjTail ms ++ [rbrace] = p ++ s2 → s2 ≠ [] →
      parseObjRest fuel p = none) ∧
    (∀ xs p s2, dumpArr xs ++ [']'] = p ++ s2 → s2 ≠ [] →
      parseArrItems fuel p = none) ∧
    (∀ xs p s2, dumpArrTail xs ++ [']'] = p ++ s2 → s2 ≠ [] →
      parseArrRest fuel p = none) := by
  intro fuel
  induction fuel using Nat.strong_induction_on with
  | _ fuel ih =>
    cases fuel with
    | zero =>
      refine ⟨?_, ?_, ?_, ?_, ?_⟩
      · intro v p s2 h hs2
        exact Or.inl rfl
      all_goals intro a p s2 h hs2; rfl
    | succ f =>
      obtain ⟨tV, tOI, tO, tAI, tA⟩ := ih f (Nat.lt_succ_self f)
      refine ⟨?_, ?_, ?_, ?_, ?_⟩
      · intro v p s2 h hs2
        cases v with
        | null =>
          rw [show dumpJson Json.null = (['n', 'u', 'l', 'l'] : Str) from by
            simp [dumpJson]; rfl] at h
          have hp : p <+: (['n', 'u', 'l', 'l'] : Str) := ⟨s2, h.symm⟩
          have hlen : p.length < 4 := by
            have hc := congrArg List.length h
            simp at hc
            have := List.length_pos.mpr hs2
            omega
          have hpt : p = (['n', 'u', 'l', 'l'] : Str).take p.length :=
            List.prefix_iff_eq_take.mp hp
          rw [hpt]
          generalize p.length = n2 at hlen ⊢
          interval_cases n2 <;> exact Or.inl rfl
        | bool b =>
          cases b with
          | true =>
            rw [show dumpJson (Json.bool true) = (['t', 'r', 'u', 'e'] : Str) from by
              simp [dumpJson]; rfl] at h
            have hp : p <+: (['t', 'r', 'u', 'e'] : Str) := ⟨s2, h.symm⟩
            have hlen : p.length < 4 := by
              have hc := congrArg List.length h
              simp at hc
              have := List.length_pos.mpr hs2
              omega
            have hpt : p = (['t', 'r', 'u', 'e'] : Str).take p.length :=
              List.prefix_iff_eq_take.mp hp
            rw [hpt]
            generalize p.length = n2 at hlen ⊢
            interval_cases n2 <;> exact Or.inl rfl
          | false =>
            rw [show dumpJson (Json.bool false) =
                (['f', 'a', 'l', 's', 'e'] : Str) from by
              simp [dumpJson]; rfl] at h
            have hp : p <+: (['f', 'a', 'l', 's', 'e'] : Str) := ⟨s2, h.symm⟩
            have hlen : p.length < 5 := by
              have hc := congrArg List.length h
              simp at hc
              have := List.length_pos.mpr hs2
              omega
            have hpt : p = (['f', 'a', 'l', 's', 'e'] : Str).take p.length :=
              List.prefix_iff_eq_take.mp hp
            rw [hpt]
            generalize p.length = n2 at hlen ⊢
            interval_cases n2 <;> exact Or.inl rfl
        | num n2 =>
          cases n2 with
          | ofNat m =>
            rw [show dumpJson (Json.num (Int.ofNat m)) = natChars m from by
              simp [dumpJson, intChars]] at h
            cases p with
            | nil => exact Or.inl (parseVal_nil _)
            | cons d p2 =>
              have hdig : isDigitChar d = true := by
                apply natChars_digits m
                rw [h]
                exact List.mem_append.mpr (Or.inl (List.mem_cons_self d p2))
              obtain ⟨hw, -, hlb, hlbk, hq, hmin, -, -, -⟩ := digit_facts hdig
              unfold parseVal
              rw [skipWs_cons_nonws hw]
              dsimp only
              rw [if_neg hlb, if_neg hlbk, if_neg hq, if_neg hmin, if_pos hdig]
              rcases parseNumber_prefix m (d :: p2) s2 h with hn | ⟨kk, hk⟩
              · rw [hn]
                exact Or.inl rfl
              · rw [hk]
                exact Or.inr ⟨Json.num (kk : Int), rfl⟩
          | negSucc m =>
            rw [show dumpJson (Json.num (Int.negSucc m)) =
                '-' :: natChars (m + 1) from by simp [dumpJson, intChars]] at h
            cases p with
            | nil => exact Or.inl (parseVal_nil _)
            | cons a p2 =>
              injection h with ha h2
              subst ha
              unfold parseVal
              rw [skipWs_cons_nonws (by decide)]
              dsimp only
              rw [if_neg (show ¬ ('-' = lbrace) from by decide),
                if_neg (show ¬ ('-' = '[') from by decide),
                if_neg (show ¬ ('-' = '"') from by decide), if_pos rfl]
              rcases parseNumber_prefix (m + 1) p2 s2 h2 with hn | ⟨kk, hk⟩
              · rw [hn]
                exact Or.inl rfl
              · rw [hk]
                exact Or.inr ⟨Json.num (-(kk : Int)), rfl⟩
        | str s =>
          rw [show dumpJson (Json.str s) =
              '"' :: ((s.map escapeChar).flatten ++ ['"']) from by
            simp [dumpJson, dumpStr]] at h
          cases p with
          | nil => exact Or.inl (parseVal_nil _)
          | cons a p2 =>
            injection h with ha h2
            subst ha
            have hbody := parseStrBody_cut s p2 s2 h2 hs2
            unfold parseVal
            rw [skipWs_cons_nonws (by decide)]
            dsimp only
            rw [if_neg (show ¬ ('"' = lbrace) from by decide),
              if_neg (show ¬ ('"' = '[') from by decide), if_pos rfl, hbody]
            exact Or.inl rfl
        | obj ms =>
          rw [show dumpJson (Json.obj ms) =
              lbrace :: (dumpObj ms ++ [rbrace]) from by simp [dumpJson]] at h
          cases p with
          | nil => exact Or.inl (parseVal_nil _)
          | cons a p2 =>
            injection h with ha h2
            subst ha
            rw [parseVal_obj_red]
            exact Or.inl (tOI ms p2 s2 h2 hs2)
        | arr xs =>
          rw [show dumpJson (Json.arr xs) =
              '[' :: (dumpArr xs ++ [']']) from by simp [dumpJson]] at h
          cases p with
          | nil => exact Or.inl (parseVal_nil _)
          | cons a p2 =>
            injection h with ha h2
            subst ha
            rw [parseVal_arr_red]
            exact Or.inl (tAI xs p2 s2 h2 hs2)
      · intro ms p s2 h hs2
        cases ms with
        | nil =>
          rw [show dumpObj ([] : List (Str × Json)) ++ [rbrace] =
              ([rbrace] : Str) from by simp [dumpObj]] at h
          cases p with
          | nil => exact parseObjItems_nil _
          | cons a p2 =>
            injection h with ha h2
            exact absurd (List.append_eq_nil.mp h2.symm).2 hs2
        | cons kv rest =>
          obtain ⟨k, v⟩ := kv
          rw [show dumpObj ((k, v) :: rest) ++ [rbrace] =
              '"' :: (((k.map escapeChar).flatten ++ ['"']) ++
                (':' :: (' ' :: (dumpJson v ++
                  (dumpObjTail rest ++ [rbrace]))))) from by
            rw [dumpObj_eq]
            simp [dumpStr]] at h
          cases p with
          | nil => exact parseObjItems_nil _
          | cons a p2 =>
            injection h with ha h2
            subst ha
            unfold parseObjItems
            rw [skipWs_cons_nonws (by decide)]
            dsimp only
            rw [if_neg (show ¬ ('"' = rbrace) from by decide), if_pos rfl]
            rcases append_cut h2 with ⟨m, hK, hs2b⟩ | ⟨p3, hp2, hREST⟩
            · cases m with
              | nil =>
                rw [List.append_nil] at hK
                rw [← hK, parseStrBody_dump k []]
                rfl
              | cons b m2 =>
                rw [parseStrBody_cut k p2 (b :: m2) hK (by simp)]
            · rw [hp2, List.append_assoc,
                show (['"'] : Str) ++ p3 = '"' :: p3 from rfl,
                parseStrBody_dump k p3]
              dsimp only
              cases p3 with
              | nil => rfl
              | cons b p4 =>
                injection hREST with hb h3
                subst hb
                rw [skipWs_cons_nonws (by decide)]
                dsimp only
                rw [if_pos rfl]
                cases p4 with
                | nil =>
                  rw [parseVal_nil f]
                | cons b2 p5 =>
                  injection h3 with hb2 h4
                  subst hb2
                  rw [parseVal_cons_ws f (by decide)]
                  rcases append_cut h4 with ⟨m2, hdv, hs2c⟩ | ⟨p6, hp5, hT⟩
                  · cases m2 with
                    | nil =>
                      rw [List.append_nil] at hdv
                      rw [← hdv]
                      have hdc := parseVal_dump_cases f v [] safeTail_nil
                      rw [List.append_nil] at hdc
                      rcases hdc with hc | hc
                      · rw [hc]
                      · rw [hc]
                        dsimp only
                        rw [parseObjRest_nil f]
                    | cons b3 m3 =>
                      rcases tV v p5 (b3 :: m3) hdv (by simp) with hc | ⟨u, hc⟩
                      · rw [hc]
                      · rw [hc]
                        dsimp only
                        rw [parseObjRest_nil f]
                  · rw [hp5]
                    have hsafe : safeTail p6 :=
                      safeTail_prefix (safeTail_objTail rest []) ⟨s2, hT.symm⟩
                    rcases parseVal_dump_cases f v p6 hsafe with hc | hc
                    · rw [hc]
                    · rw [hc]
                      dsimp only
                      rw [tO rest p6 s2 hT hs2]
      · intro ms p s2 h hs2
        cases ms with
        | nil =>
          rw [show dumpObjTail ([] : List (Str × Json)) ++ [rbrace] =
              ([rbrace] : Str) from rfl] at h
          cases p with
          | nil => exact parseObjRest_nil _
          | cons a p2 =>
            injection h with ha h2
            exact absurd (List.append_eq_nil.mp h2.symm).2 hs2
        | cons kv rest =>
          obtain ⟨k, v⟩ := kv
          rw [show dumpObjTail ((k, v) :: rest) ++ [rbrace] =
              ',' :: (' ' :: ('"' :: (((k.map escapeChar).flatten ++ ['"']) ++
                (':' :: (' ' :: (dumpJson v ++
                  (dumpObjTail rest ++ [rbrace]))))))) from by
            simp [dumpObjTail, dumpStr]] at h
          cases p with
          | nil => exact parseObjRest_nil _
          | cons a p1 =>
            injection h with ha h1
            subst ha
            unfold parseObjRest
            rw [skipWs_cons_nonws (by decide)]
            dsimp only
            rw [if_neg (show ¬ (',' = rbrace) from by decide), if_pos rfl]
            cases p1 with
            | nil => rfl
            | cons b p2 =>
              injection h1 with hb h2
              subst hb
              rw [skipWs_cons_ws (by decide)]
              cases p2 with
              | nil => rfl
              | cons c2 p3 =>
                injection h2 with hc2 h3
                subst hc2
                rw [skipWs_cons_nonws (by decide)]
                dsimp only
                rw [if_pos rfl]
                rcases append_cut h3 with ⟨m, hK, hs2b⟩ | ⟨p4, hp3, hREST⟩
                · cases m with
                  | nil =>
                    rw [List.append_nil] at hK
                    rw [← hK, parseStrBody_dump k []]
                    rfl
                  | cons b2 m2 =>
                    rw [parseStrBody_cut k p3 (b2 :: m2) hK (by simp)]
                · rw [hp3, List.append_assoc,
                    show (['"'] : Str) ++ p4 = '"' :: p4 from rfl,
                    parseStrBody_dump k p4]
                  dsimp only
                  cases p4 with
                  | nil => rfl
                  | cons b3 p5 =>
                    injection hREST with hb3 h4
                    subst hb3
                    rw [skipWs_cons_nonws (by decide)]
                    dsimp only
                    rw [if_pos rfl]
                    cases p5 with
                    | nil =>
                      rw [parseVal_nil f]
                    | cons b4 p6 =>
                      injection h4 with hb4 h5
                      subst hb4
                      rw [parseVal_cons_ws f (by decide)]
                      rcases append_cut h5 with ⟨m2, hdv, hs2c⟩ | ⟨p7, hp6, hT⟩
                      · cases m2 with
                        | nil =>
                          rw [List.append_nil] at hdv
                          rw [← hdv]
                          have hdc := parseVal_dump_cases f v [] safeTail_nil
                          rw [List.append_nil] at hdc
                          rcases hdc with hc | hc
                          · rw [hc]
                          · rw [hc]
                            dsimp only
                            rw [parseObjRest_nil f]
                        | cons b5 m3 =>
                          rcases tV v p6 (b5 :: m3) hdv (by simp) with hc | ⟨u, hc⟩
                          · rw [hc]
                          · rw [hc]
                            dsimp only
                            rw [parseObjRest_nil f]
                      · rw [hp6]
                        have hsafe : safeTail p7 :=
                          safeTail_prefix (safeTail_objTail rest []) ⟨s2, hT.symm⟩
                        rcases parseVal_dump_cases f v p7 hsafe with hc | hc
                        · rw [hc]
                        · rw [hc]
                          dsimp only
                          rw [tO rest p7 s2 hT hs2]
      · intro xs p s2 h hs2
        cases xs with
        | nil =>
          rw [show dumpArr ([] : List Json) ++ [']'] = ([']'] : Str) from by
            simp [dumpArr]] at h
          cases p with
          | nil => exact parseArrItems_nil _
          | cons a p2 =>
            injection h with ha h2
            exact absurd (List.append_eq_nil.mp h2.symm).2 hs2
        | cons x rest =>
          rw [show dumpArr (x :: rest) ++ [']'] =
              dumpJson x ++ (dumpArrTail rest ++ [']']) from by
            rw [dumpArr_eq]
            simp] at h
          obtain ⟨c0, t0, hd0, hw0, hnb0⟩ := dump_head x
          rcases append_cut h with ⟨m, hdx, hs2b⟩ | ⟨p3, hp, hT⟩
          · cases p with
            | nil => exact parseArrItems_nil _
            | cons a p2 =>
              have hda : dumpJson x = a :: (p2 ++ m) := by
                rw [hdx, List.cons_append]
              have hac : c0 = a := by
                have h7 := hd0.symm.trans hda
                rw [List.cons.injEq] at h7
                exact h7.1
              have hwa : isJsonWs a = false := hac ▸ hw0
              have hnba : a ≠ ']' := hac ▸ hnb0
              unfold parseArrItems
              rw [skipWs_cons_nonws hwa]
              dsimp only
              rw [if_neg hnba]
              cases m with
              | nil =>
                rw [List.append_nil] at hdx
                rw [← hdx]
                have hdc := parseVal_dump_cases f x [] safeTail_nil
                rw [List.append_nil] at hdc
                rcases hdc with hc | hc
                · rw [hc]
                · rw [hc]
                  dsimp only
                  rw [parseArrRest_nil f]
              | cons b m2 =>
                rcases tV x (a :: p2) (b :: m2) hdx (by simp) with hc | ⟨u, hc⟩
                · rw [hc]
                · rw [hc]
                  dsimp only
                  rw [parseArrRest_nil f]
          · rw [hp, hd0, List.cons_append]
            unfold parseArrItems
            rw [skipWs_cons_nonws hw0]
            dsimp only
            rw [if_neg hnb0]
            rw [← List.cons_append, ← hd0]
            have hsafe : safeTail p3 :=
              safeTail_prefix (safeTail_arrTail rest []) ⟨s2, hT.symm⟩
            rcases parseVal_dump_cases f x p3 hsafe with hc | hc
            · rw [hc]
            · rw [hc]
              dsimp only
              rw [tA rest p3 s2 hT hs2]
      · intro xs p s2 h hs2
        cases xs with
        | nil =>
          rw [show dumpArrTail ([] : List Json) ++ [']'] = ([']'] : Str) from
            rfl] at h
          cases p with
          | nil => exact parseArrRest_nil _
          | cons a p2 =>
            injection h with ha h2
            exact absurd (List.append_eq_nil.mp h2.symm).2 hs2
        | cons x rest =>
          rw [show dumpArrTail (x :: rest) ++ [']'] =
              ',' :: (' ' :: (dumpJson x ++ (dumpArrTail rest ++ [']']))) from by
            simp [dumpArrTail]] at h
          cases p with
          | nil => exact parseArrRest_nil _
          | cons a p1 =>
            injection h with ha h1
            subst ha
            unfold parseArrRest
            rw [skipWs_cons_nonws (by decide)]
            dsimp only
            rw [if_neg (show ¬ (',' = ']') from by decide), if_pos rfl]
            cases p1 with
            | nil =>
              rw [parseVal_nil f]
            | cons b p2 =>
              injection h1 with hb h2
              subst hb
              rw [parseVal_cons_ws f (by decide)]
              rcases append_cut h2 with ⟨m, hdx, hs2b⟩ | ⟨p3, hp2, hT⟩
              · cases m with
                | nil =>
                  rw [List.append_nil] at hdx
                  rw [← hdx]
                  have hdc := parseVal_dump_cases f x [] safeTail_nil
                  rw [List.append_nil] at hdc
                  rcases hdc with hc | hc
                  · rw [hc]
                  · rw [hc]
                    dsimp only
                    rw [parseArrRest_nil f]
                | cons b3 m3 =>
                  rcases tV x p2 (b3 :: m3) hdx (by simp) with hc | ⟨u, hc⟩
                  · rw [hc]
                  · rw [hc]
                    dsimp only
                    rw [parseArrRest_nil f]
              · rw [hp2]
                have hsafe : safeTail p3 :=
                  safeTail_prefix (safeTail_arrTail rest []) ⟨s2, hT.symm⟩
                rcases parseVal_dump_cases f x p3 hsafe with hc | hc
                · rw [hc]
                · rw [hc]
                  dsimp only
                  rw [tA rest p3 s2 hT hs2]

/-- An infix of a list is an infix of the list with one more head. -/
theorem infix_cons_ext {l1 l2 : Str} (a : Char) (h : l1 <:+: l2) :
    l1 <:+: a :: l2 := by
  obtain ⟨s, t, hst⟩ := h
  exact ⟨a :: s, t, by rw [← hst]; simp⟩

/-- A prefix of an appended pair whose pattern avoids the separator stays
within the first part. -/
theorem prefix_split (c : Char) :
    ∀ (A pat B : Str), c ∉ pat → pat <+: A ++ c :: B → pat <+: A := by
  intro A
  induction A with
  | nil =>
    intro pat B hc h
    cases pat with
    | nil => exact List.nil_prefix
    | cons p0 pat2 =>
      exfalso
      rw [List.nil_append] at h
      obtain ⟨t, ht⟩ := h
      injection ht with h1 h2
      exact hc (h1 ▸ List.mem_cons_self p0 pat2)
  | cons a A2 ih =>
    intro pat B hc h
    cases pat with
    | nil => exact List.nil_prefix
    | cons p0 pat2 =>
      rw [List.cons_append] at h
      obtain ⟨t, ht⟩ := h
      injection ht with h1 h2
      subst h1
      have h4 := ih pat2 B (fun hm => hc (List.mem_cons_of_mem _ hm)) ⟨t, h2⟩
      obtain ⟨t2, ht2⟩ := h4
      exact ⟨t2, by rw [List.cons_append, ht2]⟩

/-- An infix avoiding a separator character lies on one side of it. -/
theorem infix_split {pat : Str} {c : Char} (hc : ∀ d ∈ pat, d ≠ c) :
    ∀ (A B : Str), pat <:+: A ++ c :: B → pat <:+: A ∨ pat <:+: B := by
  intro A
  induction A with
  | nil =>
    intro B h
    rw [List.nil_append] at h
    rcases List.infix_cons_iff.mp h with hp | hinf
    · cases pat with
      | nil => exact Or.inl (List.nil_infix)
      | cons p0 pat2 =>
        obtain ⟨t, ht⟩ := hp
        injection ht with h1 h2
        exact absurd h1 (hc p0 (List.mem_cons_self _ _))
    · exact Or.inr hinf
  | cons a A2 ih =>
    intro B h
    rw [List.cons_append] at h
    rcases List.infix_cons_iff.mp h with hp | hinf
    · have hp2 : pat <+: (a :: A2) ++ c :: B := by
        rw [List.cons_append]
        exact hp
      have hc2 : c ∉ pat := fun hm => (hc c hm) rfl
      exact Or.inl (prefix_split c (a :: A2) pat B hc2 hp2).isInfix
    · rcases ih B hinf with h1 | h1
      · exact Or.inl (infix_cons_ext a h1)
      · exact Or.inr h1

/-- Splitting at a pattern that heads the text. -/
theorem breakOn_prefix (sep rest : Str) (hs : sep ≠ []) :
    breakOn sep (sep ++ rest) = some ([], rest) := by
  cases sep with
  | nil => exact absurd rfl hs
  | cons c sep2 =>
    show breakOn (c :: sep2) (c :: (sep2 ++ rest)) = some ([], rest)
    unfold breakOn
    have hcond : (c :: sep2).isPrefixOf (c :: (sep2 ++ rest)) = true := by
      rw [← List.cons_append]
      exact isPrefixOf_append_self (c :: sep2) rest
    rw [if_pos hcond]
    have hd : (c :: (sep2 ++ rest)).drop (c :: sep2).length = rest :=
      List.drop_left (c :: sep2) rest
    rw [hd]

/-- Splitting a text whose first pattern occurrence is explicit. -/
theorem breakOn_first (sep : Str) (hsep : sep ≠ []) :
    ∀ (pre post : Str), ¬ sep <:+: pre ++ sep.dropLast →
    breakOn sep (pre ++ sep ++ post) = some (pre, post) := by
  intro pre
  induction pre with
  | nil =>
    intro post h
    rw [List.nil_append]
    exact breakOn_prefix sep post hsep
  | cons c pre2 ih =>
    intro post h
    have hstep : (c :: pre2) ++ sep.dropLast <+: (c :: pre2) ++ sep ++ post := by
      have hsep2 := List.dropLast_append_getLast hsep
      refine ⟨[sep.getLast hsep] ++ post, ?_⟩
      rw [List.append_assoc, List.append_assoc, ← List.append_assoc sep.dropLast,
        hsep2, ← List.append_assoc]
    have hnp : sep.isPrefixOf ((c :: pre2) ++ sep ++ post) = false := by
      rcases hb : sep.isPrefixOf ((c :: pre2) ++ sep ++ post) with _ | _
      · rfl
      · exfalso
        apply h
        have hpre : sep <+: (c :: pre2) ++ sep ++ post :=
          List.isPrefixOf_iff_prefix.mp hb
        have hlen : sep.length ≤ ((c :: pre2) ++ sep.dropLast).length := by
          simp
          have : 1 ≤ sep.length := List.length_pos.mpr hsep
          omega
        exact (List.prefix_of_prefix_length_le hpre hstep hlen).isInfix
    have hnp2 : sep.isPrefixOf (c :: (pre2 ++ sep ++ post)) = false := hnp
    have hih := ih post (fun hcon => h (infix_cons_ext c hcon))
    show breakOn sep (c :: (pre2 ++ sep ++ post)) = some (c :: pre2, post)
    unfold breakOn
    rw [hnp2]
    rw [if_neg (show ¬ (false = true) from by decide)]
    rw [hih]

/-- Soundness of splitting: the parts reassemble and the pattern does not
occur earlier. -/
theorem breakOn_sound (sep : Str) (hsep : sep ≠ []) :
    ∀ (s pre post : Str), breakOn sep s = some (pre, post) →
    s = pre ++ sep ++ post ∧ ¬ sep <:+: pre ++ sep.dropLast := by
  intro s
  induction s with
  | nil =>
    intro pre post h
    exact Option.noConfusion h
  | cons c s2 ih =>
    intro pre post h
    unfold breakOn at h
    by_cases hp : sep.isPrefixOf (c :: s2) = true
    · rw [if_pos hp] at h
      rw [Option.some.injEq, Prod.mk.injEq] at h
      obtain ⟨hpre, hpost⟩ := h
      subst hpre
      subst hpost
      constructor
      · obtain ⟨t, ht⟩ := List.isPrefixOf_iff_prefix.mp hp
        rw [List.nil_append, ← ht, List.drop_left]
      · rw [List.nil_append]
        intro hcon
        have h1 := hcon.length_le
        have h2 : sep.dropLast.length = sep.length - 1 := by simp
        have h3 : 1 ≤ sep.length := List.length_pos.mpr hsep
        omega
    · rw [if_neg hp] at h
      cases hb : breakOn sep s2 with
      | none => rw [hb] at h; simp at h
      | some pr =>
        obtain ⟨pre2, post2⟩ := pr
        rw [hb] at h
        dsimp only at h
        rw [Option.some.injEq, Prod.mk.injEq] at h
        obtain ⟨hpre, hpost⟩ := h
        subst hpost
        obtain ⟨hs2eq, hninf⟩ := ih pre2 post2 hb
        subst hpre
        constructor
        · rw [hs2eq]
          simp
        · intro hcon
          have hcon2 : sep <:+: c :: (pre2 ++ sep.dropLast) := by
            rw [← List.cons_append]
            exact hcon
          rcases List.infix_cons_iff.mp hcon2 with hpfx | hinf
          · apply hp
            apply List.isPrefixOf_iff_prefix.mpr
            have hstep : (c :: pre2) ++ sep.dropLast <+: c :: s2 := by
              have hsep2 := List.dropLast_append_getLast hsep
              refine ⟨[sep.getLast hsep] ++ post2, ?_⟩
              rw [hs2eq, List.append_assoc, List.append_assoc,
                ← List.append_assoc sep.dropLast, hsep2, ← List.cons_append,
                ← List.append_assoc]
            have hpfx2 : sep <+: (c :: pre2) ++ sep.dropLast := by
              rw [List.cons_append]
              exact hpfx
            exact hpfx2.trans hstep
          · exact hninf hinf
  
/-- Completeness of splitting: an occurring pattern is found. -/
theorem breakOn_isSome (sep : Str) (hsep : sep ≠ []) :
    ∀ s, sep <:+: s → ∃ pr, breakOn sep s = some pr := by
  intro s
  induction s with
  | nil =>
    intro h
    exact absurd (List.eq_nil_of_infix_nil h) hsep
  | cons c s2 ih =>
    intro h
    unfold breakOn
    by_cases hp : sep.isPrefixOf (c :: s2) = true
    · rw [if_pos hp]
      exact ⟨_, rfl⟩
    · rw [if_neg hp]
      rcases List.infix_cons_iff.mp h with hpre | hinf
      · exact absurd (List.isPrefixOf_iff_prefix.mpr hpre) hp
      · obtain ⟨pr, hpr⟩ := ih hinf
        obtain ⟨pre2, post2⟩ := pr
        rw [hpr]
        exact ⟨_, rfl⟩

/-- The last element of a list extended by a singleton. -/
theorem getLast_append_single (l : Str) (a : Char) :
    (l ++ [a]).getLast? = some a := by
  rw [← List.head?_reverse, List.reverse_append]
  simp

/-- Stripping keeps a non-whitespace head. -/
theorem pyStrip_head {s : Str} {c : Char} (hc : s.head? = some c)
    (hw : isPyWs c = false) : (pyStrip s).head? = some c := by
  obtain ⟨p, q, hdec, hp, hq⟩ := strip_decomp s
  have hpnil : p = [] := by
    cases s with
    | nil => simp at hc
    | cons a t =>
      cases p with
      | nil => rfl
      | cons b p2 =>
        exfalso
        have hba : b = a := by
          have := congrArg List.head? hdec
          simp at this
          exact this.symm
        have hac : a = c := by simpa using hc
        have hws := hp b (List.mem_cons_self b p2)
        rw [hba, hac, hw] at hws
        cases hws
  rw [hpnil, List.nil_append] at hdec
  cases hps : pyStrip s with
  | nil =>
    exfalso
    rw [hps, List.nil_append] at hdec
    cases s with
    | nil => simp at hc
    | cons a t =>
      have hac : a = c := by simpa using hc
      have hmem : a ∈ q := by
        rw [← hdec]
        exact List.mem_cons_self a t
      have hws := hq a hmem
      rw [hac, hw] at hws
      cases hws
  | cons b t2 =>
    rw [hps] at hdec
    have hb : b = c := by
      rw [hdec] at hc
      simpa using hc
    rw [hb]
    rfl

/-- Stripping a text wrapped in single newlines recovers a text with
non-whitespace ends. -/
theorem pyStrip_wrap (s : Str)
    (hh : ∀ c, s.head? = some c → isPyWs c = false)
    (hl : ∀ c, s.getLast? = some c → isPyWs c = false) :
    pyStrip ('\n' :: (s ++ ['\n'])) = s := by
  cases s with
  | nil => rfl
  | cons c0 t0 =>
    rw [pyStrip_cons_ws (by decide)]
    unfold pyStrip
    have hd : ((c0 :: t0) ++ ['\n']).dropWhile isPyWs = (c0 :: t0) ++ ['\n'] := by
      rw [List.cons_append, List.dropWhile_cons, if_neg (by simp [hh c0 rfl])]
    rw [hd, List.reverse_append]
    show (('\n' :: (c0 :: t0).reverse).dropWhile isPyWs).reverse = c0 :: t0
    rw [List.dropWhile_cons, if_pos (by decide)]
    have hr : (c0 :: t0).reverse.dropWhile isPyWs = (c0 :: t0).reverse := by
      cases hrev : (c0 :: t0).reverse with
      | nil => rfl
      | cons c t =>
        rw [List.dropWhile_cons, if_neg ?_]
        have : (c0 :: t0).getLast? = some c := by
          rw [← List.head?_reverse, hrev]
          rfl
        simp [hl c this]
    rw [hr, List.reverse_reverse]

/-- The first split segment is a front portion of the text. -/
theorem pySplitIdx0_front (sep s : Str) (hsep : sep ≠ []) :
    pySplitIdx0 sep s <+: s := by
  unfold pySplitIdx0
  cases hbo : breakOn sep s with
  | none => exact List.prefix_refl s
  | some pr =>
    obtain ⟨pre, post⟩ := pr
    obtain ⟨heq, -⟩ := breakOn_sound sep hsep s pre post hbo
    exact ⟨sep ++ post, by rw [heq, List.append_assoc]⟩

/-- The loader fails on every strict front portion of a serialized
object. -/
theorem jsonLoads_obj_cut (ms : List (Str × Json)) (p s2 : Str)
    (h : dumpJson (Json.obj ms) = p ++ s2) (hs2 : s2 ≠ []) :
    jsonLoads p = none := by
  rw [show dumpJson (Json.obj ms) = lbrace :: (dumpObj ms ++ [rbrace]) from by
    simp [dumpJson]] at h
  cases p with
  | nil => rfl
  | cons a p2 =>
    injection h with ha h2
    subst ha
    unfold jsonLoads
    rw [show 2 * (lbrace :: p2 : Str).length + 2 = (2 * p2.length + 3) + 1 from by
      simp [List.length_cons]
      omega]
    rw [parseVal_obj_red]
    rw [(truncAux (2 * p2.length + 3)).2.1 ms p2 s2 h2 hs2]

/-- The loader fails on the strip of anything that sits, behind one
newline, strictly inside a serialized object. -/
theorem loads_strip_prefix_none (ms : List (Str × Json)) (r q : Str)
    (hr : r <+: '\n' :: q) (hq : q <+: dumpJson (Json.obj ms))
    (hlt : q.length < (dumpJson (Json.obj ms)).length) :
    jsonLoads (pyStrip r) = none := by
  cases r with
  | nil => rfl
  | cons a r2 =>
    obtain ⟨t, ht⟩ := hr
    injection ht with ha h2
    subst ha
    rw [pyStrip_cons_ws (by decide)]
    have hr2 : r2 <+: q := ⟨t, h2⟩
    cases r2 with
    | nil => rfl
    | cons b r3 =>
      have hbq : q.head? = some b := by
        obtain ⟨t2, ht2⟩ := hr2
        rw [← ht2]
        rfl
      have hqD : q <+: lbrace :: (dumpObj ms ++ [rbrace]) := by
        rw [show lbrace :: (dumpObj ms ++ [rbrace]) = dumpJson (Json.obj ms) from by
          simp [dumpJson]]
        exact hq
      have hb : b = lbrace := by
        cases q with
        | nil => simp at hbq
        | cons q0 q2 =>
          obtain ⟨t3, ht3⟩ := hqD
          injection ht3 with hq0 
          have : q0 = b := by simpa using hbq
          rw [← this, hq0]
      have hstrip : pyStrip (b :: r3) <+: (b :: r3) := by
        apply pyStrip_prefix_of_head
        intro c hc
        have hcb : b = c := by simpa using hc
        rw [← hcb, hb]
        decide
      have hpre : pyStrip (b :: r3) <+: dumpJson (Json.obj ms) :=
        hstrip.trans (hr2.trans hq)
      have hlen : (pyStrip (b :: r3)).length < (dumpJson (Json.obj ms)).length := by
        have l1 := hstrip.length_le
        have l2 := hr2.length_le
        omega
      obtain ⟨s2, hs2⟩ := hpre
      refine jsonLoads_obj_cut ms _ s2 hs2.symm ?_
      intro hnil
      rw [hnil, List.append_nil] at hs2
      rw [hs2] at hlen
      omega

/-- The action parser accepts a bare serialized object at its first
attempt. -/
theorem parse_json_action_dump (ms : List (Str × Json)) :
    parse_json_action (dumpJson (Json.obj ms)) = some (Json.obj ms) := by
  have hD : dumpJson (Json.obj ms) = lbrace :: (dumpObj ms ++ [rbrace]) := by
    simp [dumpJson]
  have hhead : (dumpJson (Json.obj ms)).head? = some lbrace := by
    rw [hD]
    rfl
  have hlast : (dumpJson (Json.obj ms)).getLast? = some rbrace := by
    rw [hD, show (lbrace :: (dumpObj ms ++ [rbrace]) : Str) =
      (lbrace :: dumpObj ms) ++ [rbrace] from by simp]
    exact getLast_append_single _ _
  have hstrip : pyStrip (dumpJson (Json.obj ms)) = dumpJson (Json.obj ms) := by
    apply pyStrip_eq_self
    · intro c hc
      rw [hhead, Option.some.injEq] at hc
      subst hc
      decide
    · intro c hc
      rw [hlast, Option.some.injEq] at hc
      subst hc
      decide
  unfold parse_json_action
  dsimp only
  rw [hstrip, hhead, if_pos rfl, jsonLoads_dump]

/-- In the fenced input, the first opening brace sits right after the
fence header. -/
theorem fencedFind (ms : List (Str × Json)) :
    pyFindChar lbrace
      (chars "```json\n" ++ dumpJson (Json.obj ms) ++ chars "\n```") = some 8 := by
  unfold pyFindChar
  rw [show (chars "```json\n" ++ dumpJson (Json.obj ms) ++ chars "\n```" : Str) =
    chars "```json\n" ++ (dumpJson (Json.obj ms) ++ chars "\n```") from by simp]
  rw [List.findIdx?_append]
  rw [show List.findIdx? (· = lbrace) (chars "```json\n") = none from by decide]
  rw [Option.none_or]
  rw [show dumpJson (Json.obj ms) = lbrace :: (dumpObj ms ++ [rbrace]) from by
    simp [dumpJson]]
  rw [List.cons_append]
  rw [show List.findIdx? (· = lbrace)
    (lbrace :: ((dumpObj ms ++ [rbrace]) ++ chars "\n```")) = some 0 from rfl]
  rfl

/-- In the fenced input, the last closing brace ends the serialized
object. -/
theorem fencedRfind (ms : List (Str × Json)) :
    pyRfindChar rbrace
      (chars "```json\n" ++ dumpJson (Json.obj ms) ++ chars "\n```") =
      some ((dumpJson (Json.obj ms)).length + 7) := by
  unfold pyRfindChar pyFindChar
  rw [show (chars "```json\n" ++ dumpJson (Json.obj ms) ++ chars "\n```" : Str).reverse =
    (chars "\n```" : Str).reverse ++ ((dumpJson (Json.obj ms)).reverse ++
      (chars "```json\n" : Str).reverse) from by simp [List.reverse_append]]
  rw [List.findIdx?_append]
  rw [show List.findIdx? (· = rbrace) ((chars "\n```" : Str).reverse) = none from by
    decide]
  rw [Option.none_or]
  rw [show (dumpJson (Json.obj ms)).reverse =
    rbrace :: ((dumpObj ms).reverse ++ [lbrace]) from by
    rw [show dumpJson (Json.obj ms) = lbrace :: (dumpObj ms ++ [rbrace]) from by
      simp [dumpJson]]
    simp]
  rw [List.cons_append]
  rw [show List.findIdx? (· = rbrace)
    (rbrace :: (((dumpObj ms).reverse ++ [lbrace]) ++
      (chars "```json\n" : Str).reverse)) = some 0 from rfl]
  simp only [Option.map_some']
  rw [Option.some.injEq]
  rw [show ((chars "\n```" : Str).reverse).length = 4 from rfl]
  rw [List.length_append, List.length_append,
    show (chars "```json\n" : Str).length = 8 from rfl,
    show (chars "\n```" : Str).length = 4 from rfl]
  omega

/-- Slicing the fenced input from the first opening brace through the
last closing brace recovers the serialized object. -/
theorem fencedSlice (ms : List (Str × Json)) :
    pySlice (chars "```json\n" ++ dumpJson (Json.obj ms) ++ chars "\n```") 8
      ((dumpJson (Json.obj ms)).length + 7 + 1) = dumpJson (Json.obj ms) := by
  unfold pySlice
  have h1 : (dumpJson (Json.obj ms)).length + 7 + 1 =
      (chars "```json\n" ++ dumpJson (Json.obj ms) : Str).length := by
    rw [List.length_append, show (chars "```json\n" : Str).length = 8 from rfl]
    omega
  rw [h1, List.take_left]
  rw [show (8 : Nat) = (chars "```json\n" : Str).length from rfl]
  exact List.drop_left _ _

/-- When the serialized object contains no fence, the json-tagged
extraction of the fenced input recovers the object. -/
theorem fencedStepA (ms : List (Str × Json))
    (ha : ¬ chars "```" <:+: dumpJson (Json.obj ms)) :
    jsonLoads (pyStrip (pySplitIdx0 (chars "```")
      (pySplitIdx0 (chars "```json")
        ('\n' :: (dumpJson (Json.obj ms) ++ chars "\n```"))))) =
      some (Json.obj ms) := by
  have hnoJ : breakOn (chars "```json")
      ('\n' :: (dumpJson (Json.obj ms) ++ chars "\n```")) = none := by
    cases hb : breakOn (chars "```json")
        ('\n' :: (dumpJson (Json.obj ms) ++ chars "\n```")) with
    | none => rfl
    | some pr =>
      exfalso
      obtain ⟨pre, post⟩ := pr
      obtain ⟨heq, -⟩ := breakOn_sound (chars "```json") (by decide) _ pre post hb
      have hinfJ : chars "```json" <:+:
          ([] : Str) ++ '\n' :: (dumpJson (Json.obj ms) ++ chars "\n```") :=
        ⟨pre, post, heq.symm⟩
      rcases infix_split (by decide) []
          (dumpJson (Json.obj ms) ++ chars "\n```") hinfJ with h1 | h1
      · exact absurd (List.eq_nil_of_infix_nil h1) (by decide)
      · have h1b : chars "```json" <:+:
            dumpJson (Json.obj ms) ++ '\n' :: chars "```" := h1
        rcases infix_split (by decide) (dumpJson (Json.obj ms))
            (chars "```") h1b with h2 | h2
        · exact ha (((show (chars "```" : Str) <+: chars "```json" from by
            decide)).isInfix.trans h2)
        · have hlen := h2.length_le
          rw [show ((chars "```json" : Str)).length = 7 from rfl,
            show ((chars "```" : Str)).length = 3 from rfl] at hlen
          omega
  have hseg : pySplitIdx0 (chars "```json")
      ('\n' :: (dumpJson (Json.obj ms) ++ chars "\n```")) =
      '\n' :: (dumpJson (Json.obj ms) ++ chars "\n```") := by
    unfold pySplitIdx0
    rw [hnoJ]
  rw [hseg]
  have hfirst : ¬ chars "```" <:+:
      ('\n' :: (dumpJson (Json.obj ms) ++ ['\n'])) ++ (chars "```").dropLast := by
    intro hcon
    rw [show ((chars "```" : Str)).dropLast = ['`', '`'] from rfl,
      show (('\n' :: (dumpJson (Json.obj ms) ++ ['\n'])) ++ ['`', '`'] : Str) =
        ([] : Str) ++ '\n' :: (dumpJson (Json.obj ms) ++ ('\n' :: ['`', '`']))
        from by simp] at hcon
    rcases infix_split (by decide) []
        (dumpJson (Json.obj ms) ++ ('\n' :: ['`', '`'])) hcon with h1 | h1
    · exact absurd (List.eq_nil_of_infix_nil h1) (by decide)
    · rcases infix_split (by decide) (dumpJson (Json.obj ms))
          ['`', '`'] h1 with h2 | h2
      · exact ha h2
      · have hlen := h2.length_le
        rw [show ((chars "```" : Str)).length = 3 from rfl] at hlen
        simp at hlen
  have hbo2 : breakOn (chars "```")
      ('\n' :: (dumpJson (Json.obj ms) ++ chars "\n```")) =
      some ('\n' :: (dumpJson (Json.obj ms) ++ ['\n']), []) := by
    have heq2 : ('\n' :: (dumpJson (Json.obj ms) ++ chars "\n```") : Str) =
        ('\n' :: (dumpJson (Json.obj ms) ++ ['\n'])) ++ chars "```" ++ [] := by
      rw [show (chars "\n```" : Str) = '\n' :: chars "```" from rfl]
      simp
    rw [heq2]
    exact breakOn_first (chars "```") (by decide) _ [] hfirst
  have hseg2 : pySplitIdx0 (chars "```")
      ('\n' :: (dumpJson (Json.obj ms) ++ chars "\n```")) =
      '\n' :: (dumpJson (Json.obj ms) ++ ['\n']) := by
    unfold pySplitIdx0
    rw [hbo2]
  rw [hseg2]
  have hD : dumpJson (Json.obj ms) = lbrace :: (dumpObj ms ++ [rbrace]) := by
    simp [dumpJson]
  have hwrap : pyStrip ('\n' :: (dumpJson (Json.obj ms) ++ ['\n'])) =
      dumpJson (Json.obj ms) := by
    apply pyStrip_wrap
    · intro c hc
      rw [hD] at hc
      have hlc : lbrace = c := by simpa using hc
      rw [← hlc]
      decide
    · intro c hc
      have hlast : (dumpJson (Json.obj ms)).getLast? = some rbrace := by
        rw [hD, show (lbrace :: (dumpObj ms ++ [rbrace]) : Str) =
          (lbrace :: dumpObj ms) ++ [rbrace] from by simp]
        exact getLast_append_single _ _
      rw [hlast, Option.some.injEq] at hc
      subst hc
      decide
  rw [hwrap]
  exact jsonLoads_dump (Json.obj ms)

/-- When the serialized object itself contains a fence, the json-tagged
extraction of the fenced input cuts inside the object and fails. -/
theorem fencedStepB2 (ms : List (Str × Json))
    (hb : chars "```" <:+: dumpJson (Json.obj ms)) :
    jsonLoads (pyStrip (pySplitIdx0 (chars "```")
      (pySplitIdx0 (chars "```json")
        ('\n' :: (dumpJson (Json.obj ms) ++ chars "\n```"))))) = none := by
  have key : ∀ q, q <+: dumpJson (Json.obj ms) →
      q.length < (dumpJson (Json.obj ms)).length →
      jsonLoads (pyStrip (pySplitIdx0 (chars "```") ('\n' :: q))) = none := by
    intro q hq hlt
    exact loads_strip_prefix_none ms _ q
      (pySplitIdx0_front (chars "```") ('\n' :: q) (by decide)) hq hlt
  cases hbJ : breakOn (chars "```json")
      ('\n' :: (dumpJson (Json.obj ms) ++ chars "\n```")) with
  | some prJ =>
    obtain ⟨preJ, postJ⟩ := prJ
    have hseg : pySplitIdx0 (chars "```json")
        ('\n' :: (dumpJson (Json.obj ms) ++ chars "\n```")) = preJ := by
      unfold pySplitIdx0
      rw [hbJ]
    rw [hseg]
    obtain ⟨heq, -⟩ := breakOn_sound (chars "```json") (by decide) _ preJ postJ hbJ
    cases preJ with
    | nil =>
      exfalso
      have hh := congrArg List.head? heq
      rw [show (([] : Str) ++ chars "```json" ++ postJ).head? = some '`' from
        rfl] at hh
      simp at hh
    | cons a q =>
      have hinj : '\n' :: (dumpJson (Json.obj ms) ++ chars "\n```") =
          a :: (q ++ chars "```json" ++ postJ) := by
        rw [heq]
        simp
      injection hinj with ha h2
      subst ha
      rw [List.append_assoc] at h2
      rcases append_cut h2 with ⟨m, hDm, hrest⟩ | ⟨q2, hq2, hrest⟩
      · cases m with
        | nil =>
          exfalso
          have hh := congrArg List.head? hrest
          rw [show ((chars "```json" ++ postJ : Str)).head? = some '`' from rfl,
            show (([] : Str) ++ chars "\n```").head? = some '\n' from rfl] at hh
          simp at hh
        | cons m0 mt =>
          have hq : q <+: dumpJson (Json.obj ms) := ⟨m0 :: mt, hDm.symm⟩
          have hlt : q.length < (dumpJson (Json.obj ms)).length := by
            have hl := congrArg List.length hDm
            simp at hl
            omega
          exact key q hq hlt
      · exfalso
        have hlen := congrArg List.length hrest
        rw [show ((chars "\n```" : Str)).length = 4 from rfl] at hlen
        simp [List.length_append,
          show ((chars "```json" : Str)).length = 7 from rfl] at hlen
        omega
  | none =>
    have hseg : pySplitIdx0 (chars "```json")
        ('\n' :: (dumpJson (Json.obj ms) ++ chars "\n```")) =
        '\n' :: (dumpJson (Json.obj ms) ++ chars "\n```") := by
      unfold pySplitIdx0
      rw [hbJ]
    rw [hseg]
    have hinf : chars "```" <:+:
        '\n' :: (dumpJson (Json.obj ms) ++ chars "\n```") :=
      hb.trans ⟨['\n'], chars "\n```", by simp⟩
    obtain ⟨pr, hbo⟩ := breakOn_isSome (chars "```") (by decide) _ hinf
    obtain ⟨pre, rest2⟩ := pr
    have hseg2 : pySplitIdx0 (chars "```")
        ('\n' :: (dumpJson (Json.obj ms) ++ chars "\n```")) = pre := by
      unfold pySplitIdx0
      rw [hbo]
    rw [hseg2]
    obtain ⟨heq, hfirst⟩ := breakOn_sound (chars "```") (by decide) _ pre rest2 hbo
    cases pre with
    | nil =>
      exfalso
      have hh := congrArg List.head? heq
      rw [show (([] : Str) ++ chars "```" ++ rest2).head? = some '`' from rfl] at hh
      simp at hh
    | cons a q =>
      have hinj : '\n' :: (dumpJson (Json.obj ms) ++ chars "\n```") =
          a :: (q ++ chars "```" ++ rest2) := by
        rw [heq]
        simp
      injection hinj with ha h2
      subst ha
      rw [List.append_assoc] at h2
      rcases append_cut h2 with ⟨m, hDm, hrest⟩ | ⟨q2, hq2, hrest⟩
      · cases m with
        | nil =>
          exfalso
          rw [List.append_nil] at hDm
          have hh := congrArg List.head? hrest
          rw [show ((chars "```" ++ rest2 : Str)).head? = some '`' from rfl,
            show (([] : Str) ++ chars "\n```").head? = some '\n' from rfl] at hh
          simp at hh
        | cons m0 mt =>
          have hq : q <+: dumpJson (Json.obj ms) := ⟨m0 :: mt, hDm.symm⟩
          have hlt : q.length < (dumpJson (Json.obj ms)).length := by
            have hl := congrArg List.length hDm
            simp at hl
            omega
          exact loads_strip_prefix_none ms _ q (List.prefix_refl _) hq hlt
      · exfalso
        cases q2 with
        | nil =>
          have hh := congrArg List.head? hrest
          rw [show ((chars "\n```" : Str)).head? = some '\n' from rfl,
            show (([] : Str) ++ (chars "```" ++ rest2)).head? = some '`' from
              rfl] at hh
          simp at hh
        | cons z q3 =>
          have hinj2 : ('\n' :: chars "```" : Str) =
              z :: (q3 ++ chars "```" ++ rest2) := by
            rw [show ('\n' :: chars "```" : Str) = chars "\n```" from rfl, hrest]
            simp
          injection hinj2 with hz h3
          have hlen := congrArg List.length h3
          simp [List.length_append,
            show ((chars "```" : Str)).length = 3 from rfl] at hlen
          have hq3n : q3 = [] := List.eq_nil_of_length_eq_zero (by omega)
          have hr2n : rest2 = [] := List.eq_nil_of_length_eq_zero (by omega)
          subst hq3n
          subst hr2n
          subst hz
          apply hfirst
          rw [show ((chars "```" : Str)).dropLast = ['`', '`'] from rfl]
          obtain ⟨si, ti, hsti⟩ := hb
          refine ⟨'\n' :: si, ti ++ ['\n', '`', '`'], ?_⟩
          rw [hq2]
          rw [← hsti]
          simp

/-- The untagged fence extraction of the fenced input starts with the
letter j of the info string, so its stripped text cannot start with a
brace. -/
theorem fencedStepB3 (ms : List (Str × Json))
    (hb : chars "```" <:+: dumpJson (Json.obj ms)) :
    (pyStrip (pySplitIdx0 (chars "```") (pySplitIdx0 (chars "```")
      (chars "json\n" ++ (dumpJson (Json.obj ms) ++ chars "\n```"))))).head? =
      some 'j' := by
  have hinf : chars "```" <:+:
      chars "json\n" ++ (dumpJson (Json.obj ms) ++ chars "\n```") :=
    hb.trans ⟨chars "json\n", chars "\n```", by simp⟩
  obtain ⟨pr, hbo⟩ := breakOn_isSome (chars "```") (by decide) _ hinf
  obtain ⟨pre4, rest4⟩ := pr
  have hseg : pySplitIdx0 (chars "```")
      (chars "json\n" ++ (dumpJson (Json.obj ms) ++ chars "\n```")) = pre4 := by
    unfold pySplitIdx0
    rw [hbo]
  rw [hseg]
  obtain ⟨heq, hfirst⟩ := breakOn_sound (chars "```") (by decide) _ pre4 rest4 hbo
  have hnone : breakOn (chars "```") pre4 = none := by
    cases hbn : breakOn (chars "```") pre4 with
    | none => rfl
    | some pr2 =>
      exfalso
      obtain ⟨pre5, post5⟩ := pr2
      obtain ⟨heq5, -⟩ := breakOn_sound (chars "```") (by decide) _ pre5 post5 hbn
      apply hfirst
      refine ⟨pre5, post5 ++ (chars "```").dropLast, ?_⟩
      rw [heq5]
      simp
  have hseg2 : pySplitIdx0 (chars "```") pre4 = pre4 := by
    unfold pySplitIdx0
    rw [hnone]
  rw [hseg2]
  cases pre4 with
  | nil =>
    exfalso
    have hh := congrArg List.head? heq
    rw [show ((chars "json\n" ++ (dumpJson (Json.obj ms) ++ chars "\n```") :
        Str)).head? = some 'j' from rfl,
      show (([] : Str) ++ chars "```" ++ rest4).head? = some '`' from rfl] at hh
    simp at hh
  | cons a q =>
    have hha := congrArg List.head? heq
    rw [show ((chars "json\n" ++ (dumpJson (Json.obj ms) ++ chars "\n```") :
        Str)).head? = some 'j' from rfl] at hha
    have hhb : some 'j' = some a := by
      rw [hha]
      rfl
    have haj : a = 'j' := by
      rw [Option.some.injEq] at hhb
      exact hhb.symm
    subst haj
    exact pyStrip_head rfl (by decide)

/-- The action parser accepts a serialized object wrapped in a
json-tagged fenced block. -/
theorem parse_json_action_fenced (ms : List (Str × Json)) :
    parse_json_action
      (chars "```json\n" ++ dumpJson (Json.obj ms) ++ chars "\n```") =
      some (Json.obj ms) := by
  have hw1 : (chars "```json\n" ++ dumpJson (Json.obj ms) ++ chars "\n```" :
      Str).head? = some '`' := rfl
  have hwlast : (chars "```json\n" ++ dumpJson (Json.obj ms) ++ chars "\n```" :
      Str).getLast? = some '`' := by
    rw [show (chars "```json\n" ++ dumpJson (Json.obj ms) ++ chars "\n```" :
        Str) = (chars "```json\n" ++ dumpJson (Json.obj ms) ++ chars "\n``") ++
        ['`'] from by
      rw [show (chars "\n```" : Str) = chars "\n``" ++ ['`'] from rfl]
      simp]
    exact getLast_append_single _ _
  have hstrip : pyStrip (chars "```json\n" ++ dumpJson (Json.obj ms) ++
      chars "\n```") = chars "```json\n" ++ dumpJson (Json.obj ms) ++
      chars "\n```" := by
    apply pyStrip_eq_self
    · intro c hc
      rw [hw1, Option.some.injEq] at hc
      subst hc
      decide
    · intro c hc
      rw [hwlast, Option.some.injEq] at hc
      subst hc
      decide
  have hc1 : containsSub (chars "```json\n" ++ dumpJson (Json.obj ms) ++
      chars "\n```") (chars "```json") = true := by
    show decide ((chars "```json" : Str) <:+:
      (chars "```json\n" ++ dumpJson (Json.obj ms) ++ chars "\n```")) = true
    refine decide_eq_true ⟨[], '\n' :: (dumpJson (Json.obj ms) ++
      chars "\n```"), ?_⟩
    rw [show (chars "```json\n" : Str) = chars "```json" ++ ['\n'] from rfl]
    simp
  have hbo1 : breakOn (chars "```json") (chars "```json\n" ++
      dumpJson (Json.obj ms) ++ chars "\n```") =
      some ([], '\n' :: (dumpJson (Json.obj ms) ++ chars "\n```")) := by
    rw [show (chars "```json\n" ++ dumpJson (Json.obj ms) ++ chars "\n```" :
        Str) = chars "```json" ++ ('\n' :: (dumpJson (Json.obj ms) ++
        chars "\n```")) from by
      rw [show (chars "```json\n" : Str) = chars "```json" ++ ['\n'] from rfl]
      simp]
    exact breakOn_prefix _ _ (by decide)
  have hsplit1 : pySplitIdx1 (chars "```json") (chars "```json\n" ++
      dumpJson (Json.obj ms) ++ chars "\n```") =
      some (pySplitIdx0 (chars "```json")
        ('\n' :: (dumpJson (Json.obj ms) ++ chars "\n```"))) := by
    unfold pySplitIdx1
    rw [hbo1]
  have hc2 : containsSub (chars "```json\n" ++ dumpJson (Json.obj ms) ++
      chars "\n```") (chars "```") = true := by
    show decide ((chars "```" : Str) <:+:
      (chars "```json\n" ++ dumpJson (Json.obj ms) ++ chars "\n```")) = true
    refine decide_eq_true ⟨[], chars "json\n" ++ (dumpJson (Json.obj ms) ++
      chars "\n```"), ?_⟩
    rw [show (chars "```json\n" : Str) = chars "```" ++ chars "json\n" from rfl]
    simp
  have hbo2 : breakOn (chars "```") (chars "```json\n" ++
      dumpJson (Json.obj ms) ++ chars "\n```") =
      some ([], chars "json\n" ++ (dumpJson (Json.obj ms) ++
        chars "\n```")) := by
    rw [show (chars "```json\n" ++ dumpJson (Json.obj ms) ++ chars "\n```" :
        Str) = chars "```" ++ (chars "json\n" ++ (dumpJson (Json.obj ms) ++
        chars "\n```")) from by
      rw [show (chars "```json\n" : Str) = chars "```" ++ chars "json\n" from
        rfl]
      simp]
    exact breakOn_prefix _ _ (by decide)
  have hsplit2 : pySplitIdx1 (chars "```") (chars "```json\n" ++
      dumpJson (Json.obj ms) ++ chars "\n```") =
      some (pySplitIdx0 (chars "```") (chars "json\n" ++
        (dumpJson (Json.obj ms) ++ chars "\n```"))) := by
    unfold pySplitIdx1
    rw [hbo2]
  have hfind := fencedFind ms
  have hrfind := fencedRfind ms
  have hslice := fencedSlice ms
  have hlt : 8 < (dumpJson (Json.obj ms)).length + 7 + 1 := by
    have := dumpJson_len_pos (Json.obj ms)
    omega
  by_cases hb : chars "```" <:+: dumpJson (Json.obj ms)
  · have hstep2 := fencedStepB2 ms hb
    have hstep3 := fencedStepB3 ms hb
    unfold parse_json_action
    dsimp only
    rw [hstrip, hw1,
      if_neg (show ¬ ((some '`' : Option Char) = some lbrace) from by decide)]
    dsimp only
    rw [hc1, if_pos rfl, hsplit1]
    dsimp only
    rw [hstep2]
    dsimp only
    rw [hc2, if_pos rfl, hsplit2]
    dsimp only
    rw [hstep3,
      if_neg (show ¬ ((some 'j' : Option Char) = some lbrace) from by decide)]
    dsimp only
    rw [hfind, hrfind]
    dsimp only
    rw [if_pos hlt, hslice, jsonLoads_dump]
  · have hstep2 := fencedStepA ms hb
    unfold parse_json_action
    dsimp only
    rw [hstrip, hw1,
      if_neg (show ¬ ((some '`' : Option Char) = some lbrace) from by decide)]
    dsimp only
    rw [hc1, if_pos rfl, hsplit1]
    dsimp only
    rw [hstep2]

/-- C7: Action parser round-trip — for every mapping from string keys to
JSON values, parse_json_action applied to the JSON serialization of the
mapping returns an equal mapping, both when the serialization is given
bare and when it is wrapped in a json-tagged fenced code block. -/
theorem claim_C7 (m : List (Str × Json)) :
    parse_json_action (dumpJson (Json.obj m)) = some (Json.obj m) ∧
    parse_json_action
      (chars "```json\n" ++ dumpJson (Json.obj m) ++ chars "\n```") =
      some (Json.obj m) :=
  ⟨parse_json_action_dump m, parse_json_action_fenced m⟩
